import Mathlib

/-!
# mullvad-bench: the relay latency benchmark of `main.go`

A shallow embedding of `main.go` and the properties of its scope filter, probe
loop, report sort and CSV output.

Conventions of the embedding.

* A Go `string` is a Lean `String` (the program only compares strings for
  equality, splits them on the ASCII comma and trims Unicode white space, so the
  embedding is exact on valid UTF-8 text).
* A Go slice is a `List`; `data[i]` is `List.getD data i default`.
* `time.Duration` is an `Int` count of nanoseconds; the program only compares
  durations, no arithmetic is done on them.
* The outside world (standard input, the file system, the relay directory and
  the ICMP library) is a record `World` of the answers it gives; the program's
  actions on it are recorded as a list of `Effect`s.
* Loops whose trip count is not syntactically bounded run on a fuel argument;
  the callers pass a fuel that is proved sufficient.
-/

namespace MullvadBench

/-! ## Data model (`main.go`, lines 17-56) -/

/-- Go `time.Duration`: a signed number of nanoseconds. -/
abbrev Duration := Int

/-- One relay of the directory, as decoded from JSON. -/
structure WireguardRelayResponse where
  HostName : String
  CountryCode : String
  CountryName : String
  CityCode : String
  CityName : String
  Ipv4AddrIn : String
deriving DecidableEq, Inhabited

/-- A relay that answered the probe, with its round-trip time. -/
structure ProcessedRelay where
  HostName : String
  CountryCode : String
  CountryName : String
  CityCode : String
  CityName : String
  Ipv4AddrIn : String
  PingDuration : Duration
deriving DecidableEq, Inhabited

/-- The command line. -/
structure Flags where
  listCountries : Bool
  searchWithinCountry : String
  timeout : Duration
  outputFileName : String
deriving DecidableEq, Inhabited

/-- The narrower schema with which list-countries mode decodes the directory. -/
structure country where
  CountryName : String
  CountryCode : String
deriving DecidableEq, Inhabited

/-! ## Helpers of `main.go` (lines 74-89) -/

/-- Go `contains`: linear search for `target`, by string equality. -/
def contains (arr : List String) (target : String) : Bool :=
  match arr with
  | [] => false
  | item :: rest => if item == target then true else contains rest target

/-- Go `pluralize`. -/
def pluralize (s : String) (count : Nat) : String :=
  if count == 1 then s else s ++ "s"

/-- The test of lines 152 and 164: `len(scope) > 0 && !contains(scope, relay.CountryCode)`;
a relay for which it holds is skipped by `continue`. -/
def skipped (scope : List String) (relay : WireguardRelayResponse) : Bool :=
  decide (scope.length > 0) && !contains scope relay.CountryCode

/-- A relay is in scope when the loop does not skip it. -/
def inScope (scope : List String) (relay : WireguardRelayResponse) : Bool :=
  !skipped scope relay

/-! ## The Go library functions used to build the scope list -/

/-- Go `unicode.IsSpace`: the Latin-1 white space characters and the other code
points with the Unicode White_Space property. -/
def IsSpace (r : Char) : Bool :=
  let c := r.toNat
  if c ≤ 0xFF then
    c == 0x09 || c == 0x0A || c == 0x0B || c == 0x0C || c == 0x0D || c == 0x20 ||
      c == 0x85 || c == 0xA0
  else
    c == 0x1680 || (0x2000 ≤ c && c ≤ 0x200A) || c == 0x2028 || c == 0x2029 ||
      c == 0x202F || c == 0x205F || c == 0x3000

/-- Go `strings.TrimSpace`: the string without its leading and trailing white
space, as defined by `unicode.IsSpace`. -/
def TrimSpace (s : String) : String :=
  ⟨((s.data.dropWhile IsSpace).reverse.dropWhile IsSpace).reverse⟩

/-- Go `strings.Count(s, sep)` for a one-character separator. -/
def Count (s : List Char) (sep : Char) : Nat :=
  match s with
  | [] => 0
  | c :: cs => if c = sep then Count cs sep + 1 else Count cs sep

/-- Go `strings.Index(s, sep)` for a one-character separator: the position of
the first occurrence, `none` for Go's `-1`. -/
def Index (s : List Char) (sep : Char) : Option Nat :=
  match s with
  | [] => none
  | c :: cs => if c = sep then some 0 else (Index cs sep).map (· + 1)

/-- The loop of Go `strings.genSplit` with `sepSave = 0`: at most `n` pieces are
cut off at a separator, the rest of the string is the last piece. -/
def genSplit (sep : Char) : Nat → List Char → List (List Char)
  | 0, s => [s]
  | n + 1, s =>
    match Index s sep with
    | none => [s]
    | some m => s.take m :: genSplit sep n (s.drop (m + 1))

/-- Go `strings.Split(s, sep)` for a one-character separator: `genSplit` with
`n = Count(s, sep) + 1` slots, that is `Count(s, sep)` cuts. -/
def Split (s : String) (sep : Char) : List String :=
  (genSplit sep (Count s.data sep) s.data).map String.mk

/-! ## The Go library function that reads the answer to the prompt -/

/-- Go `fmt` `(*ss).SkipSpace` as `fmt.Scanln` runs it (a newline is not a space):
the input from its first character that is not white space, `none` for the
error `unexpected newline`. A carriage return before a newline is passed over,
the other white space (the same characters as `unicode.IsSpace`) is skipped. -/
def SkipSpace : List Char → Option (List Char)
  | [] => some []
  | r :: rest =>
    if r = '\r' ∧ rest.head? = some '\n' then SkipSpace rest
    else if r = '\n' then none
    else if !IsSpace r then some (r :: rest)
    else SkipSpace rest

/-- Go `fmt` `(*ss).token(true, notSpace)` after the space is skipped: the
characters up to the first white space or the end of the input. -/
def token (input : List Char) : List Char :=
  input.takeWhile (fun r => !IsSpace r)

/-- The value of `ch` after `var ch string; fmt.Scanln(&ch)` on the given standard
input: the first word of the first line. `ch` keeps its zero value `""` when
the scan fails before a word is read (`unexpected newline`, or the end of the
input); the error `expected newline` for what follows the word comes after
`ch` is set, and `main` ignores the error. -/
def Scanln (input : String) : String :=
  match SkipSpace input.data with
  | none => ""
  | some [] => ""
  | some (r :: rest) => ⟨token (r :: rest)⟩

/-! ## Console output and other effects -/

/-- What the program does to the outside world, one constructor per statement
of `main.go` that acts on it. The `print...` constructors carry the arguments
of the corresponding `fmt.Printf`/`fmt.Println` call. -/
inductive Effect where
  /-- Line 99: `%d available countries`. -/
  | printAvailable (n : Nat)
  /-- Line 100: the table header `Code | Name`. -/
  | printTableHeader
  /-- Line 102: one row `code | name` of the table. -/
  | printCountry (code name : String)
  /-- Line 109: `No country specified, searching all servers...`. -/
  | printNoCountry
  /-- Line 115: `Invalid country code at position %d`. -/
  | printInvalid (i : Nat)
  /-- Line 122: `os.Stat(path)`. -/
  | stat (path : String)
  /-- Lines 123-124: the two lines of the overwrite prompt. -/
  | printPrompt
  /-- Line 126: `fmt.Scanln(&ch)`. -/
  | scanln
  /-- Line 128: `os.Remove(path)`. -/
  | remove (path : String)
  /-- Line 132: `Removed the existing file`. -/
  | printRemoved
  /-- Line 134: `Exiting...`. -/
  | printExiting
  /-- Lines 60 and 139: `http.Get(url)`. -/
  | httpGet (url : String)
  /-- Line 158: `Found %d servers`. -/
  | printFound (n : Nat)
  /-- Lines 167-185: one ICMP echo sent to `addr` with the given timeout. -/
  | ping (addr : String) (timeout : Duration)
  /-- Line 189: `\r%d %s processed`. -/
  | printProgress (count : Nat) (word : String)
  /-- Line 196: `os.Create(path)`. -/
  | create (path : String)
  /-- Lines 202 and 204: `csvWriter.Write(record)`. -/
  | csvWrite (record : List String)
  /-- Line 209: `csvWriter.Flush()`. -/
  | csvFlush
  /-- Any `log.Fatalln(err)`: the message is logged and the process exits with status 1. -/
  | fatal
deriving DecidableEq, Inhabited

/-! ## Scope list construction (`main.go`, lines 106-119) -/

/-- The loop `for i, code := range scope` of lines 112-117, from index `i` on
for `n` more iterations: element `i` is replaced by its trimmed value, and a
message is printed when the trimmed value has length 0. -/
def trimLoop : Nat → Nat → List String → List Effect → List String × List Effect
  | 0, _, scope, out => (scope, out)
  | n + 1, i, scope, out =>
    let code := scope.getD i default
    let scope := scope.set i (TrimSpace code)
    let out := if (scope.getD i default).utf8ByteSize == 0 then out ++ [Effect.printInvalid i] else out
    trimLoop n (i + 1) scope out

/-- Lines 106-119: the scope list built from the `-c` string, with the console
output of that step. The `nil` slice of the empty `-c` string is the empty list. -/
def buildScope (searchWithinCountry : String) : List String × List Effect :=
  if searchWithinCountry == "" then
    ([], [Effect.printNoCountry])
  else
    let scope := Split searchWithinCountry ','
    trimLoop scope.length 0 scope []

/-! ## Go `sort.Slice` (package `sort`, Go 1.19 and later: pattern-defeating quicksort)

`sort.Slice(x, less)` calls `pdqsort_func(lessSwap{less, swap}, 0, length, bits.Len(length))`.
Every function below is the function of the same name of `zsortfunc.go`; the
slice is threaded through as a list, `Less` and `Swap` are the two fields of
`lessSwap`. -/

section SortSlice

variable {α : Type} [Inhabited α] (less : α → α → Bool)

/-- The `Less(i, j)` field of `lessSwap`: the caller's closure, which compares
the elements at the two indices. -/
def Less (data : List α) (i j : Nat) : Bool :=
  less (data.getD i default) (data.getD j default)

/-- The `Swap(i, j)` field of `lessSwap`: exchanges the elements at the two indices. -/
def Swap (data : List α) (i j : Nat) : List α :=
  (data.set i (data.getD j default)).set j (data.getD i default)

/-- The inner loop of `insertionSort_func`:
`for j := i; j > a && data.Less(j, j-1); j-- { data.Swap(j, j-1) }`. -/
def insertionInner (a : Nat) : Nat → List α → List α
  | 0, data => data
  | j + 1, data =>
    if j + 1 > a && Less less data (j + 1) j then
      insertionInner a j (Swap data (j + 1) j)
    else data

/-- The outer loop of `insertionSort_func`, `for i := ...; i < b; i++`, with `n`
iterations left starting at `i`. -/
def insertionOuter (a : Nat) : Nat → Nat → List α → List α
  | 0, _, data => data
  | n + 1, i, data => insertionOuter a n (i + 1) (insertionInner less a i data)

/-- Go `insertionSort_func`: sorts `data[a:b]` by insertion. -/
def insertionSort_func (data : List α) (a b : Nat) : List α :=
  insertionOuter less a (b - (a + 1)) (a + 1) data

/-- Go `siftDown_func`, started at `root`; `fuel` bounds the iterations of its `for` loop. -/
def siftDown_loop (hi first : Nat) : Nat → Nat → List α → List α
  | 0, _, data => data
  | fuel + 1, root, data =>
    let child := 2 * root + 1
    if child ≥ hi then data
    else
      let child :=
        if child + 1 < hi && Less less data (first + child) (first + child + 1) then child + 1
        else child
      if !Less less data (first + root) (first + child) then data
      else siftDown_loop hi first fuel child (Swap data (first + root) (first + child))

/-- Go `siftDown_func(data, lo, hi, first)`. -/
def siftDown_func (data : List α) (lo hi first : Nat) : List α :=
  siftDown_loop less hi first hi lo data

/-- The first loop of `heapSort_func`: `for i := (hi - 1) / 2; i >= 0; i--`, with
`n = i + 1`. -/
def heapBuild (hi first : Nat) : Nat → List α → List α
  | 0, data => data
  | i + 1, data => heapBuild hi first i (siftDown_func less data i hi first)

/-- The second loop of `heapSort_func`: `for i := hi - 1; i >= 0; i--`, with `n = i + 1`. -/
def heapPop (first : Nat) : Nat → List α → List α
  | 0, data => data
  | i + 1, data => heapPop first i (siftDown_func less (Swap data first (first + i)) 0 i first)

/-- Go `heapSort_func`. -/
def heapSort_func (data : List α) (a b : Nat) : List α :=
  let first := a
  let hi := b - a
  let data := heapBuild less hi first ((hi - 1) / 2 + 1) data
  heapPop less first hi data

/-- Go `sortedHint`. -/
inductive sortedHint where
  | unknownHint
  | increasingHint
  | decreasingHint
deriving DecidableEq, Inhabited

/-- Go `order2_func`: the two indices in the order of their elements, and the
swap counter. -/
def order2_func (data : List α) (a b swaps : Nat) : Nat × Nat × Nat :=
  if Less less data b a then (b, a, swaps + 1) else (a, b, swaps)

/-- Go `median_func`: the index of the median of three elements. -/
def median_func (data : List α) (a b c swaps : Nat) : Nat × Nat :=
  let (a, b, swaps) := order2_func less data a b swaps
  let (b, _, swaps) := order2_func less data b c swaps
  let (_, b, swaps) := order2_func less data a b swaps
  (b, swaps)

/-- Go `medianAdjacent_func`. -/
def medianAdjacent_func (data : List α) (a swaps : Nat) : Nat × Nat :=
  median_func less data (a - 1) a (a + 1) swaps

/-- Go `choosePivot_func`: a static pivot below 8 elements, the median of three
below 50, Tukey's ninther from 50 on. -/
def choosePivot_func (data : List α) (a b : Nat) : Nat × sortedHint :=
  let l := b - a
  let swaps := 0
  let i := a + l / 4 * 1
  let j := a + l / 4 * 2
  let k := a + l / 4 * 3
  let (j, swaps) :=
    if l ≥ 8 then
      let (i, j, k, swaps) :=
        if l ≥ 50 then
          let (i, swaps) := medianAdjacent_func less data i swaps
          let (j, swaps) := medianAdjacent_func less data j swaps
          let (k, swaps) := medianAdjacent_func less data k swaps
          (i, j, k, swaps)
        else (i, j, k, swaps)
      median_func less data i j k swaps
    else (j, swaps)
  if swaps = 0 then (j, sortedHint.increasingHint)
  else if swaps = 12 then (j, sortedHint.decreasingHint)
  else (j, sortedHint.unknownHint)

/-- The loop of Go `reverseRange_func`: `for i < j { data.Swap(i, j); i++; j-- }`. -/
def reverseLoop : Nat → Nat → Nat → List α → List α
  | 0, _, _, data => data
  | fuel + 1, i, j, data =>
    if i < j then reverseLoop fuel (i + 1) (j - 1) (Swap data i j) else data

/-- Go `reverseRange_func`. -/
def reverseRange_func (data : List α) (a b : Nat) : List α :=
  reverseLoop (b - a) a (b - 1) data

/-- Go `xorshift.Next`, on a 64-bit state: the new state, which is also the value
returned. The properties proved below hold for any generator: the value only
chooses which elements of the range `breakPatterns_func` exchanges. -/
def xorshiftNext (r : Nat) : Nat :=
  let r := r ^^^ (r <<< 13 % 2 ^ 64)
  let r := r ^^^ (r >>> 7)
  let r := r ^^^ (r <<< 17 % 2 ^ 64)
  r

/-- Go `bits.Len`: the number of bits needed to write `n`, 0 for 0; the first
argument is the fuel, `n` is enough. -/
def bitsLen : Nat → Nat → Nat
  | 0, _ => 0
  | fuel + 1, n => if n = 0 then 0 else bitsLen fuel (n / 2) + 1

/-- Go `nextPowerOfTwo`. -/
def nextPowerOfTwo (length : Nat) : Nat :=
  (1 <<< bitsLen length length) % 2 ^ 64

/-- The loop `for i := 0; i < 3; i++` of `breakPatterns_func`, with `n` iterations left. -/
def breakLoop (a length modulus idx : Nat) : Nat → Nat → Nat → List α → List α
  | 0, _, _, data => data
  | n + 1, i, random, data =>
    let random := xorshiftNext random
    let other := random &&& (modulus - 1)
    let other := if other ≥ length then other - length else other
    breakLoop a length modulus idx n (i + 1) random (Swap data (idx - 1 + i) (a + other))

/-- Go `breakPatterns_func`. -/
def breakPatterns_func (data : List α) (a b : Nat) : List α :=
  let length := b - a
  if length ≥ 8 then
    let random := length
    let modulus := nextPowerOfTwo length
    let idx := a + (length / 4) * 2 - 1
    breakLoop a length modulus idx 3 0 random data
  else data

/-- The scan `for i < b && !data.Less(i, i-1) { i++ }` of `partialInsertionSort_func`. -/
def scanSorted (data : List α) (b : Nat) : Nat → Nat → Nat
  | 0, i => i
  | fuel + 1, i => if i < b && !Less less data i (i - 1) then scanSorted data b fuel (i + 1) else i

/-- The loop `for j := i - 1; j >= 1; j--` of `partialInsertionSort_func`, which
shifts the smaller element to the left; the argument is `j`. -/
def shiftLeft : Nat → List α → List α
  | 0, data => data
  | j + 1, data =>
    if !Less less data (j + 1) j then data else shiftLeft j (Swap data (j + 1) j)

/-- The loop `for j := i + 1; j < b; j++` of `partialInsertionSort_func`, which
shifts the greater element to the right. -/
def shiftRight (b : Nat) : Nat → Nat → List α → List α
  | 0, _, data => data
  | fuel + 1, j, data =>
    if j < b then
      if !Less less data j (j - 1) then data
      else shiftRight b fuel (j + 1) (Swap data j (j - 1))
    else data

/-- The loop `for j := 0; j < maxSteps; j++` of `partialInsertionSort_func`, with
`n` steps left. -/
def partialInsertionLoop (a b : Nat) : Nat → Nat → List α → List α × Bool
  | 0, _, data => (data, false)
  | n + 1, i, data =>
    let i := scanSorted less data b (b - i) i
    if i = b then (data, true)
    else if b - a < 50 then (data, false)
    else
      let data := Swap data i (i - 1)
      let data := if i - a ≥ 2 then shiftLeft less (i - 1) data else data
      let data := if b - i ≥ 2 then shiftRight less b (b - (i + 1)) (i + 1) data else data
      partialInsertionLoop a b n i data

/-- Go `partialInsertionSort_func`: sorts partially, and says whether the slice
is sorted at the end. -/
def partialInsertionSort_func (data : List α) (a b : Nat) : List α × Bool :=
  partialInsertionLoop less a b 5 (a + 1) data

/-- The scan `for i <= j && data.Less(i, a) { i++ }` of `partition_func`. -/
def scanLess (data : List α) (a j : Nat) : Nat → Nat → Nat
  | 0, i => i
  | fuel + 1, i => if i ≤ j && Less less data i a then scanLess data a j fuel (i + 1) else i

/-- The scan `for i <= j && !data.Less(j, a) { j-- }` of `partition_func`; the last
argument is `j`. The scan stops at `j = 0` at the latest, as `i` is at least `a + 1`. -/
def scanNotLess (data : List α) (a i : Nat) : Nat → Nat
  | 0 => 0
  | j + 1 => if i ≤ j + 1 && !Less less data (j + 1) a then scanNotLess data a i j else j + 1

/-- The main loop `for { ... }` of `partition_func`: the two scans, then a swap,
until the indices cross. -/
def partitionLoop (a : Nat) : Nat → Nat → Nat → List α → Nat × Nat × List α
  | 0, i, j, data => (i, j, data)
  | fuel + 1, i, j, data =>
    let i := scanLess less data a j (j + 1 - i) i
    let j := scanNotLess less data a i j
    if i > j then (i, j, data)
    else partitionLoop a fuel (i + 1) (j - 1) (Swap data i j)

/-- Go `partition_func`: moves the pivot to its place `newpivot`, the smaller
elements to its left and the others to its right; says whether no element had
to move. -/
def partition_func (data : List α) (a b pivot : Nat) : List α × Nat × Bool :=
  let data := Swap data a pivot
  let i := a + 1
  let j := b - 1
  let i := scanLess less data a j (j + 1 - i) i
  let j := scanNotLess less data a i j
  if i > j then
    (Swap data j a, j, true)
  else
    let data := Swap data i j
    let (_, j, data) := partitionLoop less a (b - a) (i + 1) (j - 1) data
    (Swap data j a, j, false)

/-- The scan `for i <= j && !data.Less(a, i) { i++ }` of `partitionEqual_func`. -/
def scanNotGreater (data : List α) (a j : Nat) : Nat → Nat → Nat
  | 0, i => i
  | fuel + 1, i =>
    if i ≤ j && !Less less data a i then scanNotGreater data a j fuel (i + 1) else i

/-- The scan `for i <= j && data.Less(a, j) { j-- }` of `partitionEqual_func`; the
last argument is `j`. The scan stops at `j = 0` at the latest, as `i` is at least `a + 1`. -/
def scanGreater (data : List α) (a i : Nat) : Nat → Nat
  | 0 => 0
  | j + 1 => if i ≤ j + 1 && Less less data a (j + 1) then scanGreater data a i j else j + 1

/-- The loop `for { ... }` of `partitionEqual_func`. -/
def partitionEqualLoop (a : Nat) : Nat → Nat → Nat → List α → Nat × List α
  | 0, i, _, data => (i, data)
  | fuel + 1, i, j, data =>
    let i := scanNotGreater less data a j (j + 1 - i) i
    let j := scanGreater less data a i j
    if i > j then (i, data)
    else partitionEqualLoop a fuel (i + 1) (j - 1) (Swap data i j)

/-- Go `partitionEqual_func`: the elements equal to the pivot to the left, the
greater ones to the right; returns the first index of the right part. -/
def partitionEqual_func (data : List α) (a b pivot : Nat) : List α × Nat :=
  let data := Swap data a pivot
  let (i, data) := partitionEqualLoop less a (b - a) (a + 1) (b - 1) data
  (data, i)

/-- Go `pdqsort_func`: sorts `data[a:b]`. One unit of `fuel` is used by each
iteration of its `for` loop and by each recursive call; the loop variables
`wasBalanced` and `wasPartitioned` are arguments, `true` at each call. -/
def pdqsort_loop : Nat → List α → Nat → Nat → Nat → Bool → Bool → List α
  | 0, data, _, _, _, _, _ => data
  | fuel + 1, data, a, b, limit, wasBalanced, wasPartitioned =>
    let length := b - a
    if length ≤ 12 then insertionSort_func less data a b
    else if limit = 0 then heapSort_func less data a b
    else
      let (data, limit) :=
        if !wasBalanced then (breakPatterns_func data a b, limit - 1) else (data, limit)
      let (pivot, hint) := choosePivot_func less data a b
      let (data, pivot, hint) :=
        if hint = sortedHint.decreasingHint then
          (reverseRange_func data a b, (b - 1) - (pivot - a), sortedHint.increasingHint)
        else (data, pivot, hint)
      let (data, done) :=
        if wasBalanced && wasPartitioned && hint = sortedHint.increasingHint then
          partialInsertionSort_func less data a b
        else (data, false)
      if done then data
      else if a > 0 && !Less less data (a - 1) pivot then
        let (data, mid) := partitionEqual_func less data a b pivot
        pdqsort_loop fuel data mid b limit wasBalanced wasPartitioned
      else
        let (data, mid, alreadyPartitioned) := partition_func less data a b pivot
        let leftLen := mid - a
        let rightLen := b - mid
        let balanceThreshold := length / 8
        if leftLen < rightLen then
          let data := pdqsort_loop fuel data a mid limit true true
          pdqsort_loop fuel data (mid + 1) b limit (decide (leftLen ≥ balanceThreshold))
            alreadyPartitioned
        else
          let data := pdqsort_loop fuel data (mid + 1) b limit true true
          pdqsort_loop fuel data a mid limit (decide (rightLen ≥ balanceThreshold))
            alreadyPartitioned

/-- Go `pdqsort_func(data, a, b, limit)`, with the fuel that `b - a` elements need. -/
def pdqsort_func (data : List α) (a b limit : Nat) : List α :=
  pdqsort_loop less (b - a + 1) data a b limit true true

/-- Go `sort.Slice(x, less)`. -/
def Slice (x : List α) : List α :=
  let length := x.length
  let limit := bitsLen length length
  pdqsort_func less x 0 length limit

end SortSlice

/-! ## The outside world -/

/-- The answer of the ICMP library (`pro-bing`) to one probe with `Count = 1`. -/
inductive PingOutcome where
  /-- An error from `probing.NewPinger`: the address cannot be resolved. -/
  | newPingerErr
  /-- An error from `pinger.Run`: no socket, no permission. -/
  | runErr
  /-- One reply: `OnRecv` is called once with `pkt.Rtt = rtt`, then `Run` returns `nil`. -/
  | recv (rtt : Duration)
  /-- No reply before the timeout: `OnRecv` is not called, `Run` returns `nil`. -/
  | noReply
deriving DecidableEq, Inhabited

/-- The answers of the outside world to one run of the program. -/
structure World where
  /-- The list decoded from the directory's answer with the `country` schema;
  `none` when `http.Get` or the JSON decoder returns an error. -/
  countries : Option (List country)
  /-- The order in which `range` visits the entries of the country map (Go leaves it unspecified). -/
  rangeOrder : List (String × String) → List (String × String)
  /-- Whether `os.Stat(outputFileName)` returns `err == nil`: a file is at the output path. -/
  statOk : Bool
  /-- The answer of the user to the overwrite prompt: the line typed on standard
  input, without its end of line. -/
  answer : String
  /-- Whether `os.Remove` succeeds. -/
  removeOk : Bool
  /-- The list decoded from the directory's answer with the `WireguardRelayResponse`
  schema; `none` when `http.Get` or the JSON decoder returns an error. -/
  relays : Option (List WireguardRelayResponse)
  /-- The outcome of the probe of the relay at each position of the relay list. -/
  ping : Nat → PingOutcome
  /-- Whether `os.Create` succeeds. -/
  createOk : Bool
  /-- Whether `csvWriter.Write` succeeds for the data row at each position. -/
  writeOk : Nat → Bool
  /-- Whether `csvWriter.Error()` is `nil` after `Flush`. -/
  flushOk : Bool

/-- The address of the relay directory. -/
def url : String := "https://api.mullvad.net/www/relays/wireguard"

/-! ## List-countries mode (`main.go`, lines 93-105) -/

/-- The assignment `m[k] = v` on a Go `map[string]string`, kept as a list of
entries with distinct keys: the entry of `k` is overwritten when there is one,
a new entry is added otherwise. -/
def mapAssign (m : List (String × String)) (k v : String) : List (String × String) :=
  match m with
  | [] => [(k, v)]
  | e :: rest => if e.1 == k then (k, v) :: rest else e :: mapAssign rest k v

/-- The lookup `m[k]` of a Go map, `none` when the key is absent. -/
def mapLookup (m : List (String × String)) (k : String) : Option String :=
  match m with
  | [] => none
  | e :: rest => if e.1 == k then some e.2 else mapLookup rest k

/-- Lines 95-98: the loop that fills `countryMap`, started from the map `m`. -/
def countryMapLoop (m : List (String × String)) : List country → List (String × String)
  | [] => m
  | country :: rest => countryMapLoop (mapAssign m country.CountryCode country.CountryName) rest

/-- Lines 94-104: list-countries mode. -/
def listCountriesMode (w : World) : List Effect × Nat :=
  match w.countries with
  | none => ([Effect.httpGet url, Effect.fatal], 1)
  | some countries =>
    let countryMap := countryMapLoop [] countries
    ([Effect.httpGet url, Effect.printAvailable countryMap.length, Effect.printTableHeader] ++
      (w.rangeOrder countryMap).map (fun e => Effect.printCountry e.1 e.2), 0)

/-! ## Benchmark mode (`main.go`, lines 106-213) -/

/-- Lines 150-156: the loop that counts the relays in scope. -/
def countLoop (scope : List String) : List WireguardRelayResponse → Nat → Nat
  | [], totalServers => totalServers
  | relay :: rest, totalServers =>
    if skipped scope relay then countLoop scope rest totalServers
    else countLoop scope rest (totalServers + 1)

/-- The variables that the probe loop updates. -/
structure ProbeState where
  processedRelays : List ProcessedRelay
  count : Nat
  out : List Effect
deriving DecidableEq, Inhabited

/-- The `OnRecv` callback of lines 173-184: appends the relay with the packet's
round-trip time and increments `count`. -/
def onRecv (relay : WireguardRelayResponse) (rtt : Duration) (st : ProbeState) : ProbeState :=
  { st with
    processedRelays := st.processedRelays ++ [{
      HostName := relay.HostName
      CountryCode := relay.CountryCode
      CountryName := relay.CountryName
      CityCode := relay.CityCode
      CityName := relay.CityName
      Ipv4AddrIn := relay.Ipv4AddrIn
      PingDuration := rtt }]
    count := st.count + 1 }

/-- Line 189: the progress line, printed with the current `count`. -/
def printProgress (st : ProbeState) : ProbeState :=
  { st with out := st.out ++ [Effect.printProgress st.count (pluralize "server" st.count)] }

/-- Lines 163-190: the probe loop over the relays from position `k` on. The
boolean is `false` when the loop ended in `log.Fatalln`. -/
def probeLoop (scope : List String) (timeout : Duration) (ping : Nat → PingOutcome) :
    List WireguardRelayResponse → Nat → ProbeState → ProbeState × Bool
  | [], _, st => (st, true)
  | relay :: rest, k, st =>
    if skipped scope relay then probeLoop scope timeout ping rest (k + 1) st
    else
      match ping k with
      | PingOutcome.newPingerErr => ({ st with out := st.out ++ [Effect.fatal] }, false)
      | PingOutcome.runErr =>
        ({ st with out := st.out ++ [Effect.ping relay.Ipv4AddrIn timeout, Effect.fatal] }, false)
      | PingOutcome.recv rtt =>
        let st := { st with out := st.out ++ [Effect.ping relay.Ipv4AddrIn timeout] }
        let st := onRecv relay rtt st
        probeLoop scope timeout ping rest (k + 1) (printProgress st)
      | PingOutcome.noReply =>
        let st := { st with out := st.out ++ [Effect.ping relay.Ipv4AddrIn timeout] }
        probeLoop scope timeout ping rest (k + 1) (printProgress st)

/-- The closure given to `sort.Slice` at lines 192-194. -/
def lessPing (x y : ProcessedRelay) : Bool :=
  decide (x.PingDuration < y.PingDuration)

/-- The header record of line 202. -/
def csvHeader : List String := ["Server", "Country", "City", "Ping"]

/-- The record of line 204 for one relay; `durationString` is Go's `Duration.String`. -/
def csvRecord (durationString : Duration → String) (relay : ProcessedRelay) : List String :=
  [relay.HostName, relay.CountryName, relay.CityName, durationString relay.PingDuration]

/-- Lines 203-208: the loop that writes the data rows, from row `k` on. The
boolean is `false` when the loop ended in `log.Fatalln`. -/
def writeRows (durationString : Duration → String) (writeOk : Nat → Bool) :
    List ProcessedRelay → Nat → List Effect → List Effect × Bool
  | [], _, out => (out, true)
  | relay :: rest, k, out =>
    let out := out ++ [Effect.csvWrite (csvRecord durationString relay)]
    if writeOk k then writeRows durationString writeOk rest (k + 1) out
    else (out ++ [Effect.fatal], false)

/-- Lines 196-212: the report is created and written; `out` is the output so far. -/
def writeReport (durationString : Duration → String) (outputFileName : String) (w : World)
    (processedRelays : List ProcessedRelay) (out : List Effect) : List Effect × Nat :=
  let out := out ++ [Effect.create outputFileName]
  if !w.createOk then (out ++ [Effect.fatal], 1)
  else
    let out := out ++ [Effect.csvWrite csvHeader]
    let (out, ok) := writeRows durationString w.writeOk processedRelays 0 out
    if !ok then (out, 1)
    else
      let out := out ++ [Effect.csvFlush]
      if w.flushOk then (out, 0) else (out ++ [Effect.fatal], 1)

/-- Lines 138-213: fetch, count, probe, sort and write; `out` is the output so far. -/
def benchmark (durationString : Duration → String) (scope : List String) (timeout : Duration)
    (outputFileName : String) (w : World) (out : List Effect) : List Effect × Nat :=
  let out := out ++ [Effect.httpGet url]
  match w.relays with
  | none => (out ++ [Effect.fatal], 1)
  | some relayResponse =>
    let totalServers := countLoop scope relayResponse 0
    let out := out ++ [Effect.printFound totalServers]
    let (st, ok) := probeLoop scope timeout w.ping relayResponse 0
      { processedRelays := [], count := 0, out := out }
    if !ok then (st.out, 1)
    else
      let processedRelays := Slice lessPing st.processedRelays
      writeReport durationString outputFileName w processedRelays st.out

/-- Go `main`: the effects of one run and the exit status of the process;
`flags` is the result of `parseFlags()`. -/
def main (durationString : Duration → String) (flags : Flags) (w : World) : List Effect × Nat :=
  if flags.listCountries then listCountriesMode w
  else
    let (scope, out) := buildScope flags.searchWithinCountry
    let timeout := flags.timeout
    let outputFileName := flags.outputFileName
    let out := out ++ [Effect.stat outputFileName]
    if w.statOk then
      let out := out ++ [Effect.printPrompt, Effect.scanln]
      let ch := Scanln w.answer
      if ch == "y" then
        let out := out ++ [Effect.remove outputFileName]
        if w.removeOk then
          benchmark durationString scope timeout outputFileName w (out ++ [Effect.printRemoved])
        else (out ++ [Effect.fatal], 1)
      else (out ++ [Effect.printExiting], 0)
    else benchmark durationString scope timeout outputFileName w out

/-! ## Definitions used to state the properties -/

/-- The scope list without its empty entries. -/
def dropEmpty (scope : List String) : List String :=
  scope.filter (fun e => e != "")

/-- A relay record with the given host name and country code. -/
def relayOf (host code : String) : WireguardRelayResponse :=
  { HostName := host, CountryCode := code, CountryName := "", CityCode := "", CityName := "",
    Ipv4AddrIn := "" }

/-- The `(code, name)` pairs of the rows that a run prints in the country table. -/
def printedCountries (effects : List Effect) : List (String × String) :=
  effects.filterMap (fun e =>
    match e with
    | Effect.printCountry code name => some (code, name)
    | _ => none)

/-- The name of the last record of the list that carries the country code, if any. -/
def lastNameOf (countries : List country) (code : String) : Option String :=
  (countries.reverse.find? (fun c => c.CountryCode == code)).map (fun c => c.CountryName)

/-- The effects that remove, create or write the output file, fetch the
directory or probe a relay. -/
def Effect.touchesWorld (e : Effect) : Bool :=
  match e with
  | Effect.remove _ => true
  | Effect.create _ => true
  | Effect.csvWrite _ => true
  | Effect.csvFlush => true
  | Effect.httpGet _ => true
  | Effect.ping _ _ => true
  | _ => false

/-- Sample country records: two records carry the code `se`. -/
def sampleCountries : List country :=
  [{ CountryName := "Sweden", CountryCode := "se" }, { CountryName := "Germany", CountryCode := "de" },
   { CountryName := "Sverige", CountryCode := "se" }]

/-- Sample relays of the countries `us`, `de` and `fr`. -/
def sampleRelays : List WireguardRelayResponse :=
  [{ HostName := "us-nyc-wg-001", CountryCode := "us", CountryName := "USA", CityCode := "nyc",
     CityName := "New York", Ipv4AddrIn := "192.0.2.1" },
   { HostName := "de-fra-wg-001", CountryCode := "de", CountryName := "Germany", CityCode := "fra",
     CityName := "Frankfurt", Ipv4AddrIn := "192.0.2.2" },
   { HostName := "fr-par-wg-001", CountryCode := "fr", CountryName := "France", CityCode := "par",
     CityName := "Paris", Ipv4AddrIn := "192.0.2.3" }]

/-- A world in which no file is at the output path, every relay of `sampleRelays`
replies (the later in the list, the faster) and every operation succeeds. -/
def sampleWorld : World where
  countries := some sampleCountries
  rangeOrder := id
  statOk := false
  answer := ""
  removeOk := true
  relays := some sampleRelays
  ping := fun k => PingOutcome.recv (30000000 - 1000000 * (k : Int))
  createOk := true
  writeOk := fun _ => true
  flushOk := true

/-- The first word of the first line of a text: the text without its leading
white space other than a newline, up to the next white space. -/
def firstWord (line : String) : String :=
  ⟨(line.data.dropWhile (fun r => IsSpace r && r != '\n')).takeWhile (fun r => !IsSpace r)⟩

/-- The world `sampleWorld` with a file at the output path and the given answer to the prompt. -/
def promptWorld (answer : String) : World :=
  { sampleWorld with statOk := true, answer := answer }

/-- The command line `-c us,de` with the default timeout and output file. -/
def sampleFlags : Flags :=
  { listCountries := false, searchWithinCountry := "us,de", timeout := 1000000000,
    outputFileName := "bench_result.csv" }

/-- A stand-in for Go's `Duration.String`: the number of nanoseconds, as a string. -/
def sampleDurationString (d : Duration) : String :=
  toString d ++ "ns"

/-- The records handed to the CSV writer during a run, in order. -/
def csvRecords (effects : List Effect) : List (List String) :=
  effects.filterMap (fun e =>
    match e with
    | Effect.csvWrite record => some record
    | _ => none)

/-- The counters shown by the progress lines of a run, in order. -/
def progressCounts (effects : List Effect) : List Nat :=
  effects.filterMap (fun e =>
    match e with
    | Effect.printProgress count _ => some count
    | _ => none)

/-- The totals shown by the `Found N servers` lines of a run. -/
def foundCounts (effects : List Effect) : List Nat :=
  effects.filterMap (fun e =>
    match e with
    | Effect.printFound n => some n
    | _ => none)

/-- The probe result of a relay that replied after `rtt`. -/
def processed (relay : WireguardRelayResponse) (rtt : Duration) : ProcessedRelay :=
  { HostName := relay.HostName, CountryCode := relay.CountryCode, CountryName := relay.CountryName,
    CityCode := relay.CityCode, CityName := relay.CityName, Ipv4AddrIn := relay.Ipv4AddrIn,
    PingDuration := rtt }

/-- The probe result of the relay at a position of the directory's list, if the
relay is in scope and its probe got a reply. -/
def resultAt (scope : List String) (ping : Nat → PingOutcome)
    (p : Nat × WireguardRelayResponse) : Option ProcessedRelay :=
  if inScope scope p.2 then
    match ping p.1 with
    | PingOutcome.recv rtt => some (processed p.2 rtt)
    | _ => none
  else none

/-- The in-scope relays that received a reply, in the order of the directory's
list; the list is given with the position of each relay. -/
def repliedInScope (scope : List String) (ping : Nat → PingOutcome)
    (relays : List (Nat × WireguardRelayResponse)) : List ProcessedRelay :=
  relays.filterMap (resultAt scope ping)

/-- No probe ends in an error of the ICMP library: each relay either replies or
gets no reply before the timeout. -/
def noPingError (w : World) : Prop :=
  ∀ k : Nat, (∃ rtt, w.ping k = PingOutcome.recv rtt) ∨ w.ping k = PingOutcome.noReply

/-- The run is not stopped at the overwrite prompt: no file is at the output
path, or `fmt.Scanln` reads the word `y` from the answer and the file is removed. -/
def passesPrompt (w : World) : Prop :=
  w.statOk = false ∨ (Scanln w.answer = "y" ∧ w.removeOk = true)

/-- The data rows of the report written by a run: the records handed to the CSV
writer after the header record. -/
def dataRows (effects : List Effect) : List (List String) :=
  (csvRecords effects).drop 1

/-- A probe result with the given host name and round-trip time. -/
def resultOf (host : String) (rtt : Duration) : ProcessedRelay :=
  { HostName := host, CountryCode := "se", CountryName := "Sweden", CityCode := "sto",
    CityName := "Stockholm", Ipv4AddrIn := "192.0.2.9", PingDuration := rtt }

/-- Thirteen probe results: the first twelve took 2 ms, the last one 1 ms. -/
def tiedResults : List ProcessedRelay :=
  [resultOf "h00" 2000000, resultOf "h01" 2000000, resultOf "h02" 2000000,
   resultOf "h03" 2000000, resultOf "h04" 2000000, resultOf "h05" 2000000,
   resultOf "h06" 2000000, resultOf "h07" 2000000, resultOf "h08" 2000000,
   resultOf "h09" 2000000, resultOf "h10" 2000000, resultOf "h11" 2000000,
   resultOf "h12" 1000000]

/-- The results of the list that took exactly `d`, in the order of the list. -/
def withDuration (d : Duration) (results : List ProcessedRelay) : List ProcessedRelay :=
  results.filter (fun r => r.PingDuration == d)

/-- The world `sampleWorld` in which the second relay of the list gets no reply. -/
def timeoutWorld : World :=
  { sampleWorld with
    ping := fun k => if k = 1 then PingOutcome.noReply else PingOutcome.recv 20000000 }

/-! ## Definitions used to state the properties of the sort -/

section SortSpec

variable {α : Type} [Inhabited α]

/-- The sort key of the element at an index of the slice. -/
def keyAt (key : α → Int) (data : List α) (i : Nat) : Int :=
  key (data.getD i default)

/-- The slice is in non-decreasing key order on the index range `[a, b)`. -/
def SortedOn (key : α → Int) (a b : Nat) (data : List α) : Prop :=
  ∀ p q : Nat, a ≤ p → p ≤ q → q < b → keyAt key data p ≤ keyAt key data q

/-- The slice `data'` is the slice `data` with the elements of the index range
`[a, b)` rearranged: same length, a permutation, the same elements outside the
range, and inside the range only elements that were inside it. -/
structure Within (a b : Nat) (data data' : List α) : Prop where
  len : data'.length = data.length
  perm : data'.Perm data
  frame : ∀ k : Nat, k < a ∨ b ≤ k → data'.getD k default = data.getD k default
  sub : ∀ k : Nat, a ≤ k → k < b →
    ∃ k' : Nat, a ≤ k' ∧ k' < b ∧ data'.getD k default = data.getD k' default

/-- The element before the range `[a, b)`, when there is one, is not greater
than any element of the range. -/
def LowerBound (key : α → Int) (a b : Nat) (data : List α) : Prop :=
  0 < a → ∀ k : Nat, a ≤ k → k < b → keyAt key data (a - 1) ≤ keyAt key data k

/-- The heap property at node `k` of the heap kept in `data[first : first + hi]`:
no child of `k` has a greater key than `k`. -/
def HeapAt (key : α → Int) (first hi : Nat) (data : List α) (k : Nat) : Prop :=
  ∀ d : Nat, (d = 2 * k + 1 ∨ d = 2 * k + 2) → d < hi →
    keyAt key data (first + d) ≤ keyAt key data (first + k)

end SortSpec

/-! ## The scope filter and the scope list (C1, C7, C9) -/

theorem contains_eq_true_iff (arr : List String) (t : String) :
    contains arr t = true ↔ t ∈ arr := by
  induction arr with
  | nil => simp [contains]
  | cons item rest ih =>
    unfold contains
    by_cases h : item = t
    · simp [h]
    · have h' : ¬ t = item := fun e => h e.symm
      simp [h, h', ih]

theorem inScope_iff (scope : List String) (r : WireguardRelayResponse) :
    inScope scope r = true ↔ scope = [] ∨ r.CountryCode ∈ scope := by
  unfold inScope skipped
  cases scope with
  | nil => simp
  | cons a rest =>
    have := contains_eq_true_iff (a :: rest) r.CountryCode
    cases hc : contains (a :: rest) r.CountryCode <;> simp_all

/-- C1. For every relay record and scope list, the scope test of `main` keeps the
relay (does not skip it) if and only if the scope list is empty or the relay's
country code is, as an exact string, an element of the list; `contains` is true
exactly for the elements of its list. -/

theorem C1_scope_test (scope : List String) (r : WireguardRelayResponse) :
    (skipped scope r = false ↔ scope = [] ∨ r.CountryCode ∈ scope) ∧
    (inScope scope r = true ↔ scope = [] ∨ r.CountryCode ∈ scope) ∧
    (∀ t : String, contains scope t = true ↔ t ∈ scope) := by
  refine ⟨?_, inScope_iff scope r, contains_eq_true_iff scope⟩
  rw [← inScope_iff]
  unfold inScope
  cases skipped scope r <;> simp

theorem Count_eq_count (s : List Char) (sep : Char) : Count s sep = s.count sep := by
  induction s with
  | nil => simp [Count]
  | cons c cs ih =>
    unfold Count
    by_cases h : c = sep
    · simp [h, ih]
    · simp [h, ih, List.count_cons]

theorem genSplit_cons_ne (sep c : Char) (h : c ≠ sep) (n : Nat) (cs : List Char) :
    genSplit sep n (c :: cs) = (genSplit sep n cs).modifyHead (List.cons c) := by
  cases n with
  | zero => simp [genSplit]
  | succ n =>
    simp only [genSplit, Index, if_neg h]
    cases hI : Index cs sep with
    | none => simp
    | some m => simp

theorem genSplit_eq_splitOn (sep : Char) (s : List Char) :
    genSplit sep (Count s sep) s = s.splitOn sep := by
  induction s with
  | nil => simp [genSplit, Count, List.splitOn]
  | cons c cs ih =>
    by_cases h : c = sep
    · subst h
      have hc : Count (c :: cs) c = Count cs c + 1 := by simp [Count]
      rw [hc]
      simp only [genSplit, Index, if_true, List.take_zero, List.drop_succ_cons, List.drop_zero]
      rw [ih]
      simp [List.splitOn, List.splitOnP_cons]
    · have hc : Count (c :: cs) sep = Count cs sep := by simp [Count, h]
      rw [hc, genSplit_cons_ne sep c h, ih]
      simp [List.splitOn, List.splitOnP_cons, h]

theorem length_genSplit (sep : Char) (s : List Char) :
    (genSplit sep (Count s sep) s).length = Count s sep + 1 := by
  induction s with
  | nil => simp [genSplit, Count]
  | cons c cs ih =>
    by_cases h : c = sep
    · subst h
      have hc : Count (c :: cs) c = Count cs c + 1 := by simp [Count]
      rw [hc]
      simp only [genSplit, Index, if_true, List.take_zero, List.drop_succ_cons, List.drop_zero,
        List.length_cons]
      rw [ih]
    · have hc : Count (c :: cs) sep = Count cs sep := by simp [Count, h]
      rw [hc, genSplit_cons_ne sep c h]
      cases hg : genSplit sep (Count cs sep) cs with
      | nil => rw [hg] at ih; simp at ih
      | cons p ps => rw [hg] at ih; simpa using ih

theorem length_Split (s : String) (sep : Char) :
    (Split s sep).length = s.data.count sep + 1 := by
  unfold Split
  rw [List.length_map, length_genSplit, Count_eq_count]

theorem take_set_self {α : Type} (l : List α) (i : Nat) (a : α) :
    (l.set i a).take i = l.take i := by
  induction l generalizing i with
  | nil => simp
  | cons x xs ih =>
    cases i with
    | zero => simp
    | succ i => simp [ih]

theorem trimLoop_fst (n : Nat) : ∀ (i : Nat) (scope : List String) (out : List Effect),
    i + n = scope.length →
    (trimLoop n i scope out).1 = scope.take i ++ (scope.drop i).map TrimSpace := by
  induction n with
  | zero =>
    intro i scope out h
    simp only [trimLoop]
    have : scope.length ≤ i := by omega
    simp [List.drop_eq_nil_of_le this, List.take_of_length_le this]
  | succ n ih =>
    intro i scope out h
    have hi : i < scope.length := by omega
    simp only [trimLoop]
    rw [ih (i + 1) _ _ (by simp; omega)]
    rw [List.getD_eq_getElem?_getD, List.getElem?_eq_getElem hi]
    simp only [Option.getD_some]
    rw [List.drop_eq_getElem_cons hi]
    simp only [List.map_cons]
    rw [List.take_succ, List.getElem?_set]
    simp only [hi, if_true, Option.toList_some]
    rw [take_set_self, List.drop_set]
    simp

theorem buildScope_fst (s : String) (h : s ≠ "") :
    (buildScope s).1 = (Split s ',').map TrimSpace := by
  unfold buildScope
  have : (s == "") = false := by simpa using h
  simp only [this]
  rw [if_neg (by simp), trimLoop_fst _ _ _ _ (by simp)]
  simp

theorem TrimSpace_head (s : String) (c : Char) (h : (TrimSpace s).data.head? = some c) :
    IsSpace c = false := by
  unfold TrimSpace at h
  simp only at h
  have hd : List.dropWhile IsSpace s.data =
      ((List.dropWhile IsSpace s.data).reverse.dropWhile IsSpace).reverse ++
        ((List.dropWhile IsSpace s.data).reverse.takeWhile IsSpace).reverse := by
    rw [← List.reverse_append, List.takeWhile_append_dropWhile, List.reverse_reverse]
  have hh : (List.dropWhile IsSpace s.data).head? = some c := by
    rw [hd]
    cases hr : ((List.dropWhile IsSpace s.data).reverse.dropWhile IsSpace).reverse with
    | nil => rw [hr] at h; simp at h
    | cons x xs => rw [hr] at h; simpa using h
  have := List.head?_dropWhile_not IsSpace s.data
  rw [hh] at this
  exact this

theorem TrimSpace_last (s : String) (c : Char) (h : (TrimSpace s).data.getLast? = some c) :
    IsSpace c = false := by
  unfold TrimSpace at h
  simp only at h
  rw [List.getLast?_reverse] at h
  have := List.head?_dropWhile_not IsSpace (List.dropWhile IsSpace s.data).reverse
  rw [h] at this
  exact this

/-- C7. For every non-empty `-c` string the scope list built by `main` is the list
of the comma-separated pieces of the string (Go `strings.Split`, which is the
library's `splitOn`), each trimmed by `strings.TrimSpace`: it has one element
more than the string has commas, no element starts or ends with white space,
and the pieces that are empty after trimming stay in the list as empty strings,
so that `" "` and `","` give the non-empty lists `[""]` and `["", ""]`. The
empty `-c` string gives the empty scope list. -/

theorem C7_scope_list (s : String) (h : s ≠ "") :
    (buildScope s).1 = (Split s ',').map TrimSpace ∧
    Split s ',' = (s.data.splitOn ',').map String.mk ∧
    (buildScope s).1.length = s.data.count ',' + 1 ∧
    (∀ e ∈ (buildScope s).1, ∀ c : Char,
      (e.data.head? = some c ∨ e.data.getLast? = some c) → IsSpace c = false) ∧
    (∀ i : Nat, ∀ piece ∈ (Split s ',')[i]?, TrimSpace piece = "" →
      (buildScope s).1[i]? = some "") ∧
    (buildScope " ").1 = [""] ∧ (buildScope ",").1 = ["", ""] ∧
    (buildScope "").1 = [] := by
  have hb := buildScope_fst s h
  refine ⟨hb, ?_, ?_, ?_, ?_, by decide, by decide, by decide⟩
  · unfold Split
    rw [genSplit_eq_splitOn]
  · rw [hb, List.length_map, length_Split]
  · intro e he c hc
    rw [hb, List.mem_map] at he
    obtain ⟨p, _, rfl⟩ := he
    rcases hc with hc | hc
    · exact TrimSpace_head p c hc
    · exact TrimSpace_last p c hc
  · intro i piece hp ht
    rw [hb, List.getElem?_map]
    simp only [Option.mem_def] at hp
    rw [hp]
    simp [ht]

/-- Witness of C7 at the string `"us, de ,"`: three elements, the last one empty. -/

theorem C7_scope_list_witness :
    (buildScope "us, de ,").1 = ["us", "de", ""] ∧
    (buildScope "us, de ,").1.length = "us, de ,".data.count ',' + 1 :=
  ⟨by decide, (C7_scope_list "us, de ," (by decide)).2.2.1⟩

theorem inScope_dropEmpty (scope : List String) (r : WireguardRelayResponse)
    (hne : ∃ e ∈ scope, e ≠ "") (hr : r.CountryCode ≠ "") :
    inScope scope r = inScope (dropEmpty scope) r := by
  rw [Bool.eq_iff_iff, inScope_iff, inScope_iff]
  obtain ⟨e, he, hne⟩ := hne
  have h1 : scope ≠ [] := by intro h; rw [h] at he; simp at he
  have h2 : dropEmpty scope ≠ [] := by
    intro h
    have : e ∈ dropEmpty scope := by simp [dropEmpty, he, hne]
    rw [h] at this; simp at this
  simp only [h1, h2, false_or]
  simp [dropEmpty, hr]

/-- C9, as stated, fails: with `-c "us,"` the scope list is `["us", ""]`, and a
relay record whose country code is the empty string is in scope because of the
empty entry, while it is out of the scope `["us"]` left when the empty entry is removed. -/

theorem C9_counterexample :
    (buildScope "us,").1 = ["us", ""] ∧
    dropEmpty (buildScope "us,").1 = ["us"] ∧
    [relayOf "h" ""].filter (inScope (buildScope "us,").1) = [relayOf "h" ""] ∧
    [relayOf "h" ""].filter (inScope (dropEmpty (buildScope "us,").1)) = [] := by
  decide

theorem inScope_with_empty (scope : List String) (r : WireguardRelayResponse)
    (hne : ∃ e ∈ scope, e ≠ "") :
    inScope scope r = true ↔
      inScope (dropEmpty scope) r = true ∨ (r.CountryCode = "" ∧ "" ∈ scope) := by
  by_cases hr : r.CountryCode = ""
  · rw [inScope_iff, inScope_iff]
    obtain ⟨e, he, hne'⟩ := hne
    have h1 : scope ≠ [] := by intro h; rw [h] at he; simp at he
    have h2 : dropEmpty scope ≠ [] := by
      intro h
      have : e ∈ dropEmpty scope := by simp [dropEmpty, he, hne']
      rw [h] at this; simp at this
    simp only [h1, h2, false_or, hr]
    simp [dropEmpty]
  · rw [inScope_dropEmpty scope r hne hr]
    simp [hr]

/-- C9, amended. For every `-c` string whose scope list has a non-empty entry, an
empty scope entry matches exactly the relay records whose country code is the
empty string: a relay is in scope if and only if it is in the scope of the list
without its empty entries, or its country code is empty and the list has an
empty entry. So on every relay list whose records all have a non-empty country
code, the relays in scope are the same as with the empty entries removed. -/

theorem C9_empty_entry_amended (s : String) (relays : List WireguardRelayResponse)
    (hne : ∃ e ∈ (buildScope s).1, e ≠ "")
    (hr : ∀ r ∈ relays, r.CountryCode ≠ "") :
    relays.filter (inScope (buildScope s).1) =
      relays.filter (inScope (dropEmpty (buildScope s).1)) ∧
    (∀ r : WireguardRelayResponse, inScope (buildScope s).1 r = true ↔
      inScope (dropEmpty (buildScope s).1) r = true ∨
        (r.CountryCode = "" ∧ "" ∈ (buildScope s).1)) := by
  refine ⟨?_, fun r => inScope_with_empty _ r hne⟩
  apply List.filter_congr
  intro r hmem
  exact inScope_dropEmpty _ r hne (hr r hmem)

/-- Witness of the amended C9 at `-c "us,"` and the relays `us`, `de`. -/

theorem C9_empty_entry_amended_witness :
    [relayOf "a" "us", relayOf "b" "de"].filter (inScope (buildScope "us,").1) =
      [relayOf "a" "us", relayOf "b" "de"].filter (inScope (dropEmpty (buildScope "us,").1)) :=
  (C9_empty_entry_amended "us," [relayOf "a" "us", relayOf "b" "de"]
    ⟨"us", by decide, by decide⟩ (by decide)).1

/-! ## List-countries mode (C8) -/

theorem mapLookup_mapAssign (m : List (String × String)) (k v k' : String) :
    mapLookup (mapAssign m k v) k' = if k' = k then some v else mapLookup m k' := by
  induction m with
  | nil =>
    by_cases h : k = k'
    · simp [mapAssign, mapLookup, h]
    · have h' : ¬ k' = k := fun e => h e.symm
      simp [mapAssign, mapLookup, h, h']
  | cons e rest ih =>
    unfold mapAssign
    by_cases h1 : e.1 = k
    · by_cases h2 : k = k'
      · simp [mapLookup, h1, h2]
      · have h' : ¬ k' = k := fun e => h2 e.symm
        simp [mapLookup, h1, h2, h']
    · by_cases h2 : e.1 = k'
      · have h' : ¬ k' = k := fun e => h1 (h2.trans e)
        simp [mapLookup, h1, h2, h']
      · simp [mapLookup, h1, h2, ih]

theorem keys_mapAssign (m : List (String × String)) (k v : String) :
    (mapAssign m k v).map Prod.fst =
      if k ∈ m.map Prod.fst then m.map Prod.fst else m.map Prod.fst ++ [k] := by
  induction m with
  | nil => simp [mapAssign]
  | cons e rest ih =>
    unfold mapAssign
    by_cases h1 : e.1 = k
    · simp [h1]
    · have h' : ¬ k = e.1 := fun e => h1 e.symm
      simp only [beq_iff_eq, h1, if_false, List.map_cons, ih, List.mem_cons, h', false_or]
      split <;> simp

theorem nodup_keys_mapAssign (m : List (String × String)) (k v : String)
    (h : (m.map Prod.fst).Nodup) : ((mapAssign m k v).map Prod.fst).Nodup := by
  rw [keys_mapAssign]
  split
  · exact h
  · rename_i hk
    rw [List.nodup_append]
    refine ⟨h, by simp, ?_⟩
    intro a ha hb
    simp only [List.mem_singleton] at hb
    subst hb
    exact hk ha

theorem mem_iff_mapLookup (m : List (String × String)) (h : (m.map Prod.fst).Nodup)
    (k v : String) : (k, v) ∈ m ↔ mapLookup m k = some v := by
  induction m with
  | nil => simp [mapLookup]
  | cons e rest ih =>
    obtain ⟨ek, ev⟩ := e
    simp only [List.map_cons, List.nodup_cons] at h
    unfold mapLookup
    by_cases h1 : ek = k
    · subst h1
      simp only [List.mem_cons, Prod.mk.injEq, true_and, beq_self_eq_true, if_true,
        Option.some.injEq]
      constructor
      · rintro (h2 | h2)
        · exact h2.symm
        · exact absurd (List.mem_map_of_mem Prod.fst h2) h.1
      · intro h2; exact Or.inl h2.symm
    · have h' : ¬ k = ek := fun e => h1 e.symm
      simp [h1, h', ih h.2]

theorem countryMapLoop_keys_nodup (countries : List country) :
    ∀ m : List (String × String), (m.map Prod.fst).Nodup →
      ((countryMapLoop m countries).map Prod.fst).Nodup := by
  induction countries with
  | nil => intro m h; exact h
  | cons c rest ih =>
    intro m h
    exact ih _ (nodup_keys_mapAssign m _ _ h)

theorem countryMapLoop_lookup (countries : List country) :
    ∀ (m : List (String × String)) (code : String),
      mapLookup (countryMapLoop m countries) code =
        (lastNameOf countries code).or (mapLookup m code) := by
  induction countries with
  | nil => intro m code; simp [countryMapLoop, lastNameOf]
  | cons c rest ih =>
    intro m code
    simp only [countryMapLoop]
    rw [ih, mapLookup_mapAssign]
    unfold lastNameOf
    simp only [List.reverse_cons, List.find?_append, List.find?_cons, List.find?_nil]
    cases hf : List.find? (fun c => c.CountryCode == code) rest.reverse with
    | some x => simp
    | none =>
      by_cases hc : c.CountryCode = code
      · simp [hc]
      · have h' : ¬ code = c.CountryCode := fun e => hc e.symm
        have hb : (c.CountryCode == code) = false := by simpa using hc
        simp [hb, h']

theorem mapLookup_isSome_iff (m : List (String × String)) (k : String) :
    (mapLookup m k).isSome = true ↔ k ∈ m.map Prod.fst := by
  induction m with
  | nil => simp [mapLookup]
  | cons e rest ih =>
    unfold mapLookup
    by_cases h1 : e.1 = k
    · simp [h1]
    · have h' : ¬ k = e.1 := fun e => h1 e.symm
      simp [h1, h', ih]

theorem lastNameOf_isSome_iff (countries : List country) (code : String) :
    (lastNameOf countries code).isSome = true ↔ code ∈ countries.map (fun c => c.CountryCode) := by
  unfold lastNameOf
  simp only [Option.isSome_map', List.find?_isSome, List.mem_reverse, beq_iff_eq, List.mem_map]

theorem countryMapLoop_keys (countries : List country) (code : String) :
    code ∈ (countryMapLoop [] countries).map Prod.fst ↔
      code ∈ countries.map (fun c => c.CountryCode) := by
  rw [← mapLookup_isSome_iff, countryMapLoop_lookup, ← lastNameOf_isSome_iff]
  simp [mapLookup]

theorem countryMapLoop_length (countries : List country) :
    (countryMapLoop [] countries).length =
      (countries.map (fun c => c.CountryCode)).toFinset.card := by
  have hn := countryMapLoop_keys_nodup countries [] (by simp)
  rw [← List.length_map (countryMapLoop [] countries) Prod.fst, ← List.toFinset_card_of_nodup hn]
  congr 1
  ext code
  simp only [List.mem_toFinset]
  exact countryMapLoop_keys countries code

/-- C8. For every list of country records, the loop of list-countries mode builds
a country map with one entry per distinct country code of the list: its keys are
distinct and are exactly the codes of the list, its size, which is the count
printed, is the number of distinct codes, and each code is mapped to the name of
the last record that carries it. Whatever the order in which `range` visits the
map, the rows printed are a permutation of the entries of that map, so that two
runs on the same list print the same pairs. -/
theorem C8_country_map (countries : List country) (flags : Flags) (w w2 : World)
    (ds : Duration → String)
    (hf : flags.listCountries = true)
    (hw : w.countries = some countries) (hw2 : w2.countries = some countries)
    (ho : ∀ m, (w.rangeOrder m).Perm m) (ho2 : ∀ m, (w2.rangeOrder m).Perm m) :
    ((countryMapLoop [] countries).map Prod.fst).Nodup ∧
    (∀ code : String, code ∈ (countryMapLoop [] countries).map Prod.fst ↔
      code ∈ countries.map (fun c => c.CountryCode)) ∧
    (countryMapLoop [] countries).length =
      (countries.map (fun c => c.CountryCode)).toFinset.card ∧
    (∀ code name : String, (code, name) ∈ countryMapLoop [] countries ↔
      lastNameOf countries code = some name) ∧
    (main ds flags w).2 = 0 ∧
    (main ds flags w).1.take 3 = [Effect.httpGet url,
      Effect.printAvailable (countries.map (fun c => c.CountryCode)).toFinset.card,
      Effect.printTableHeader] ∧
    (printedCountries (main ds flags w).1).Perm (countryMapLoop [] countries) ∧
    (printedCountries (main ds flags w).1).Perm (printedCountries (main ds flags w2).1) := by
  have hn := countryMapLoop_keys_nodup countries [] (by simp)
  have hmain : ∀ w' : World, w'.countries = some countries →
      (main ds flags w').1 = [Effect.httpGet url,
        Effect.printAvailable (countryMapLoop [] countries).length, Effect.printTableHeader] ++
        (w'.rangeOrder (countryMapLoop [] countries)).map
          (fun e => Effect.printCountry e.1 e.2) ∧ (main ds flags w').2 = 0 := by
    intro w' hw'
    simp [main, hf, listCountriesMode, hw']
  have hp : ∀ l : List (String × String),
      printedCountries ([Effect.httpGet url,
        Effect.printAvailable (countryMapLoop [] countries).length, Effect.printTableHeader] ++
        l.map (fun e => Effect.printCountry e.1 e.2)) = l := by
    intro l
    simp only [printedCountries, List.filterMap_append, List.filterMap_cons, List.filterMap_nil,
      List.nil_append, List.filterMap_map]
    induction l with
    | nil => rfl
    | cons e rest ih => simp [List.filterMap_cons, ih]
  refine ⟨hn, countryMapLoop_keys countries, countryMapLoop_length countries, ?_, (hmain w hw).2,
    ?_, ?_, ?_⟩
  · intro code name
    rw [mem_iff_mapLookup _ hn, countryMapLoop_lookup]
    simp [mapLookup]
  · rw [(hmain w hw).1, countryMapLoop_length]
    rfl
  · rw [(hmain w hw).1, hp]
    exact ho _
  · rw [(hmain w hw).1, (hmain w2 hw2).1, hp, hp]
    exact (ho _).trans (ho2 _).symm
/-- Witness of C8 on `sampleCountries`, with two different visiting orders of the map. -/
theorem C8_country_map_witness :
    (countryMapLoop [] sampleCountries) = [("se", "Sverige"), ("de", "Germany")] ∧
    (countryMapLoop [] sampleCountries).length =
      (sampleCountries.map (fun c => c.CountryCode)).toFinset.card ∧
    (printedCountries (main sampleDurationString { sampleFlags with listCountries := true }
      sampleWorld).1).Perm
    (printedCountries (main sampleDurationString { sampleFlags with listCountries := true }
      { sampleWorld with rangeOrder := List.reverse }).1) :=
  have h := C8_country_map sampleCountries { sampleFlags with listCountries := true } sampleWorld
    { sampleWorld with rangeOrder := List.reverse } sampleDurationString rfl rfl rfl
    (fun m => List.Perm.refl m) (fun m => List.reverse_perm m)
  ⟨by decide, h.2.2.1, h.2.2.2.2.2.2.2⟩

/-! ## The overwrite prompt (C5) -/

theorem probeLoop_out_extends (scope : List String) (timeout : Duration) (ping : Nat → PingOutcome)
    (relays : List WireguardRelayResponse) :
    ∀ (k : Nat) (st : ProbeState), st.out <+: (probeLoop scope timeout ping relays k st).1.out := by
  induction relays with
  | nil => intro k st; simp [probeLoop]
  | cons relay rest ih =>
    intro k st
    unfold probeLoop
    split
    · exact ih _ _
    · split
      · simp
      · simp
      · refine List.IsPrefix.trans ?_ (ih _ _)
        simp [printProgress, onRecv, List.append_assoc]
      · refine List.IsPrefix.trans ?_ (ih _ _)
        simp [printProgress, List.append_assoc]

theorem writeRows_extends (ds : Duration → String) (writeOk : Nat → Bool)
    (rows : List ProcessedRelay) :
    ∀ (k : Nat) (out : List Effect), out <+: (writeRows ds writeOk rows k out).1 := by
  induction rows with
  | nil => intro k out; simp [writeRows]
  | cons relay rest ih =>
    intro k out
    unfold writeRows
    simp only
    split
    · exact List.IsPrefix.trans (by simp) (ih _ _)
    · simp [List.append_assoc]

theorem writeReport_extends (ds : Duration → String) (path : String) (w : World)
    (rows : List ProcessedRelay) (out : List Effect) :
    out <+: (writeReport ds path w rows out).1 := by
  unfold writeReport
  simp only
  split
  · simp [List.append_assoc]
  · have h := writeRows_extends ds w.writeOk rows 0 (out ++ [Effect.create path] ++ [Effect.csvWrite csvHeader])
    have h0 : out <+: out ++ [Effect.create path] ++ [Effect.csvWrite csvHeader] := by
      simp [List.append_assoc]
    split
    · exact h0.trans h
    · split
      · exact (h0.trans h).trans (by simp)
      · exact (h0.trans h).trans (by simp [List.append_assoc])

theorem benchmark_extends (ds : Duration → String) (scope : List String) (timeout : Duration)
    (path : String) (w : World) (out : List Effect) :
    out ++ [Effect.httpGet url] <+: (benchmark ds scope timeout path w out).1 := by
  unfold benchmark
  simp only
  split
  · simp
  · rename_i relayResponse _
    have h := probeLoop_out_extends scope timeout w.ping relayResponse 0
      { processedRelays := [], count := 0,
        out := out ++ [Effect.httpGet url] ++ [Effect.printFound (countLoop scope relayResponse 0)] }
    have h0 : out ++ [Effect.httpGet url] <+:
        out ++ [Effect.httpGet url] ++ [Effect.printFound (countLoop scope relayResponse 0)] := by
      simp
    split
    · exact h0.trans h
    · exact (h0.trans h).trans (writeReport_extends _ _ _ _ _)

theorem trimLoop_out (n : Nat) : ∀ (i : Nat) (scope : List String) (out : List Effect),
    ∀ e ∈ (trimLoop n i scope out).2, e ∈ out ∨ ∃ j, e = Effect.printInvalid j := by
  induction n with
  | zero => intro i scope out e he; exact Or.inl he
  | succ n ih =>
    intro i scope out e he
    simp only [trimLoop] at he
    rcases ih _ _ _ e he with h | h
    · split at h
      · rcases List.mem_append.1 h with h | h
        · exact Or.inl h
        · exact Or.inr ⟨i, by simpa using h⟩
      · exact Or.inl h
    · exact Or.inr h

theorem buildScope_out (s : String) :
    ∀ e ∈ (buildScope s).2, e.touchesWorld = false := by
  intro e he
  unfold buildScope at he
  split at he
  · simp only [List.mem_singleton] at he
    subst he; rfl
  · rcases trimLoop_out _ _ _ _ e he with h | ⟨j, rfl⟩
    · simp at h
    · rfl

theorem IsSpace_newline : IsSpace '\n' = true := by decide

theorem scan_eq_firstWord (input : List Char) :
    (match SkipSpace input with
      | none => ([] : List Char)
      | some [] => []
      | some (r :: rest) => token (r :: rest)) =
      (input.dropWhile (fun r => IsSpace r && r != '\n')).takeWhile (fun r => !IsSpace r) := by
  induction input with
  | nil => simp [SkipSpace]
  | cons r rest ih =>
    unfold SkipSpace
    by_cases h1 : r = '\r' ∧ rest.head? = some '\n'
    · rw [if_pos h1, ih]
      have hr : (IsSpace r && r != '\n') = true := by
        rw [h1.1]; decide
      rw [List.dropWhile_cons, if_pos hr]
    · rw [if_neg h1]
      by_cases h2 : r = '\n'
      · rw [if_pos h2]
        subst h2
        have hr : (IsSpace '\n' && '\n' != '\n') = false := by decide
        rw [List.dropWhile_cons]
        simp only [hr, Bool.false_eq_true, if_false]
        rw [List.takeWhile_cons]
        simp [IsSpace_newline]
      · rw [if_neg h2]
        by_cases h3 : IsSpace r = true
        · have hn : ¬ ((!IsSpace r) = true) := by simp [h3]
          rw [if_neg hn, ih]
          have hr : (IsSpace r && r != '\n') = true := by simp [h3, h2]
          rw [List.dropWhile_cons, if_pos hr]
        · have hn : (!IsSpace r) = true := by simpa using h3
          rw [if_pos hn]
          have hr : ¬ ((IsSpace r && r != '\n') = true) := by simp [h3]
          rw [List.dropWhile_cons, if_neg hr]
          rfl

/-- What `fmt.Scanln` stores in `ch`: the first word of the first line of the input. -/
theorem Scanln_eq_firstWord (input : String) : Scanln input = firstWord input := by
  unfold Scanln firstWord
  rw [← scan_eq_firstWord]
  cases SkipSpace input.data with
  | none => rfl
  | some l =>
    cases l with
    | nil => rfl
    | cons r rest => rfl

/-- An answer without white space is read whole. -/
theorem Scanln_word (input : String) (h : ∀ c ∈ input.data, IsSpace c = false) :
    Scanln input = input := by
  rw [Scanln_eq_firstWord]
  unfold firstWord
  have h1 : input.data.dropWhile (fun r => IsSpace r && r != '\n') = input.data := by
    cases hd : input.data with
    | nil => rfl
    | cons c cs =>
      have := h c (by rw [hd]; exact List.mem_cons_self _ _)
      simp [List.dropWhile_cons, this]
  rw [h1]
  have h2 : input.data.takeWhile (fun r => !IsSpace r) = input.data := by
    rw [List.takeWhile_eq_self_iff]
    intro c hc
    simp [h c hc]
  rw [h2]

theorem takeWhile_append_stop {α : Type} (p : α → Bool) (x : α) (hx : p x = false) :
    ∀ (l r : List α), (l ++ x :: r).takeWhile p = l.takeWhile p := by
  intro l
  induction l with
  | nil => intro r; simp [List.takeWhile_cons, hx]
  | cons c cs ih =>
    intro r
    simp only [List.cons_append, List.takeWhile_cons, ih]

/-- What follows the first line on standard input does not change what
`fmt.Scanln` reads: the line alone gives the same word as the line, its newline
and any further text. -/
theorem Scanln_line (line rest : List Char) (h : '\n' ∉ line) :
    Scanln ⟨line ++ '\n' :: rest⟩ = Scanln ⟨line⟩ := by
  rw [Scanln_eq_firstWord, Scanln_eq_firstWord]
  unfold firstWord
  simp only
  congr 1
  induction line with
  | nil =>
    have hr : (IsSpace '\n' && '\n' != '\n') = false := by decide
    simp [List.dropWhile_cons, hr, List.takeWhile_cons, IsSpace_newline]
  | cons c cs ih =>
    have hc : c ≠ '\n' := fun e => h (by rw [e]; exact List.mem_cons_self _ _)
    have hcs : '\n' ∉ cs := fun e => h (List.mem_cons_of_mem _ e)
    by_cases hs : IsSpace c = true
    · have hr : (IsSpace c && c != '\n') = true := by simp [hs, hc]
      simp only [List.cons_append, List.dropWhile_cons, hr, if_true]
      exact ih hcs
    · have hr : ¬ ((IsSpace c && c != '\n') = true) := by simp [hs]
      simp only [List.cons_append, List.dropWhile_cons, hr, if_false]
      rw [← List.cons_append]
      exact takeWhile_append_stop _ '\n' (by simp [IsSpace_newline]) (c :: cs) rest

/-- C5, as stated, fails: `fmt.Scanln` reads the first word of the answer. With a
file at the output path, the answers `y n` and ` y` are other than exactly `y`,
and the run removes the file and goes on to fetch the directory. -/
theorem C5_counterexample :
    (promptWorld "y n").answer ≠ "y" ∧
    Effect.remove "bench_result.csv" ∈
      (main sampleDurationString sampleFlags (promptWorld "y n")).1 ∧
    Effect.httpGet url ∈ (main sampleDurationString sampleFlags (promptWorld "y n")).1 ∧
    Effect.create "bench_result.csv" ∈
      (main sampleDurationString sampleFlags (promptWorld "y n")).1 ∧
    (promptWorld " y").answer ≠ "y" ∧
    Effect.remove "bench_result.csv" ∈
      (main sampleDurationString sampleFlags (promptWorld " y")).1 := by
  decide

/-- C5, amended. In benchmark mode, when a file is at the output path (`os.Stat`
succeeds), the run is decided by the first word of the user's answer, which is
what `fmt.Scanln` reads: if that word is anything other than exactly `y`, the
run prints the prompt and `Exiting...` and ends with status 0, with no effect
that removes, creates or writes the file, fetches the directory or probes a
relay; if the word is exactly `y`, the file is removed and, when the removal
succeeds, the run goes on to fetch the directory. An answer without white space
is its own first word, so every such answer other than `y` (`N`, `Y`, `yes`, the
empty answer) ends the run with no such effect. -/
theorem C5_first_word_amended (ds : Duration → String) (flags : Flags) (w : World)
    (hf : flags.listCountries = false) (hs : w.statOk = true) :
    Scanln w.answer = firstWord w.answer ∧
    (Scanln w.answer ≠ "y" →
      main ds flags w = ((buildScope flags.searchWithinCountry).2 ++
        [Effect.stat flags.outputFileName, Effect.printPrompt, Effect.scanln,
          Effect.printExiting], 0) ∧
      ∀ e ∈ (main ds flags w).1, e.touchesWorld = false) ∧
    (Scanln w.answer = "y" →
      ((buildScope flags.searchWithinCountry).2 ++
        [Effect.stat flags.outputFileName, Effect.printPrompt, Effect.scanln,
          Effect.remove flags.outputFileName]) <+: (main ds flags w).1 ∧
      (w.removeOk = true →
        ((buildScope flags.searchWithinCountry).2 ++
          [Effect.stat flags.outputFileName, Effect.printPrompt, Effect.scanln,
            Effect.remove flags.outputFileName, Effect.printRemoved, Effect.httpGet url])
          <+: (main ds flags w).1)) ∧
    ((∃ e ∈ (main ds flags w).1, e.touchesWorld = true) → Scanln w.answer = "y") ∧
    ((∀ c ∈ w.answer.data, IsSpace c = false) → w.answer ≠ "y" →
      main ds flags w = ((buildScope flags.searchWithinCountry).2 ++
        [Effect.stat flags.outputFileName, Effect.printPrompt, Effect.scanln,
          Effect.printExiting], 0) ∧
      ∀ e ∈ (main ds flags w).1, e.touchesWorld = false) := by
  have hno : Scanln w.answer ≠ "y" →
      main ds flags w = ((buildScope flags.searchWithinCountry).2 ++
        [Effect.stat flags.outputFileName, Effect.printPrompt, Effect.scanln,
          Effect.printExiting], 0) ∧
      ∀ e ∈ (main ds flags w).1, e.touchesWorld = false := by
    intro ha
    have hm : main ds flags w = ((buildScope flags.searchWithinCountry).2 ++
        [Effect.stat flags.outputFileName, Effect.printPrompt, Effect.scanln,
          Effect.printExiting], 0) := by
      simp [main, hf, hs, ha, List.append_assoc]
    refine ⟨hm, ?_⟩
    rw [hm]
    intro e he
    rcases List.mem_append.1 he with h | h
    · exact buildScope_out _ e h
    · simp only [List.mem_cons, List.mem_singleton, List.not_mem_nil, or_false] at h
      rcases h with rfl | rfl | rfl | rfl <;> rfl
  refine ⟨Scanln_eq_firstWord w.answer, hno, ?_, ?_, ?_⟩
  · intro ha
    by_cases hr : w.removeOk = true
    · have hm : main ds flags w = benchmark ds (buildScope flags.searchWithinCountry).1
          flags.timeout flags.outputFileName w ((buildScope flags.searchWithinCountry).2 ++
            [Effect.stat flags.outputFileName, Effect.printPrompt, Effect.scanln,
              Effect.remove flags.outputFileName, Effect.printRemoved]) := by
        simp [main, hf, hs, ha, hr, List.append_assoc]
      have hp := benchmark_extends ds (buildScope flags.searchWithinCountry).1
          flags.timeout flags.outputFileName w ((buildScope flags.searchWithinCountry).2 ++
            [Effect.stat flags.outputFileName, Effect.printPrompt, Effect.scanln,
              Effect.remove flags.outputFileName, Effect.printRemoved])
      rw [← hm] at hp
      simp only [List.append_assoc, List.cons_append, List.nil_append] at hp
      refine ⟨List.IsPrefix.trans ?_ hp, fun _ => hp⟩
      exact (List.prefix_append_right_inj _).2 ⟨[Effect.printRemoved, Effect.httpGet url], rfl⟩
    · have hm : main ds flags w = ((buildScope flags.searchWithinCountry).2 ++
          [Effect.stat flags.outputFileName, Effect.printPrompt, Effect.scanln,
            Effect.remove flags.outputFileName, Effect.fatal], 1) := by
        simp [main, hf, hs, ha, hr, List.append_assoc]
      rw [hm]
      refine ⟨?_, fun h => absurd h hr⟩
      exact (List.prefix_append_right_inj _).2 ⟨[Effect.fatal], rfl⟩
  · rintro ⟨e, he, ht⟩
    by_contra ha
    have := (hno ha).2 e he
    rw [this] at ht
    exact Bool.false_ne_true ht
  · intro hword hne
    apply hno
    rw [Scanln_word w.answer hword]
    exact hne

/-- Witness of the amended C5: with a file at the output path, the answers `N`,
`Y`, `yes`, `n y` and the empty answer end the run with no effect on the file,
the directory or the relays, and the answer `y` removes the file. -/
theorem C5_first_word_amended_witness :
    (∀ e ∈ (main sampleDurationString sampleFlags (promptWorld "N")).1, e.touchesWorld = false) ∧
    main sampleDurationString sampleFlags (promptWorld "N") =
      ([Effect.stat "bench_result.csv", Effect.printPrompt, Effect.scanln, Effect.printExiting], 0) ∧
    main sampleDurationString sampleFlags (promptWorld "Y") =
      ([Effect.stat "bench_result.csv", Effect.printPrompt, Effect.scanln, Effect.printExiting], 0) ∧
    main sampleDurationString sampleFlags (promptWorld "yes") =
      ([Effect.stat "bench_result.csv", Effect.printPrompt, Effect.scanln, Effect.printExiting], 0) ∧
    main sampleDurationString sampleFlags (promptWorld "n y") =
      ([Effect.stat "bench_result.csv", Effect.printPrompt, Effect.scanln, Effect.printExiting], 0) ∧
    main sampleDurationString sampleFlags (promptWorld "") =
      ([Effect.stat "bench_result.csv", Effect.printPrompt, Effect.scanln, Effect.printExiting], 0) ∧
    Effect.remove "bench_result.csv" ∈ (main sampleDurationString sampleFlags (promptWorld "y")).1 :=
  ⟨((C5_first_word_amended sampleDurationString sampleFlags (promptWorld "N") rfl rfl).2.1
      (by decide)).2,
    by decide, by decide, by decide, by decide, by decide, by decide⟩

/-! ## The probe loop -/

theorem countLoop_eq (scope : List String) (relays : List WireguardRelayResponse) :
    ∀ n : Nat, countLoop scope relays n = n + (relays.filter (inScope scope)).length := by
  induction relays with
  | nil => intro n; simp [countLoop]
  | cons r rest ih =>
    intro n
    unfold countLoop
    cases hs : skipped scope r
    · simp [inScope, hs, ih]; omega
    · simp [inScope, hs, ih]

theorem csvRecords_append (a b : List Effect) :
    csvRecords (a ++ b) = csvRecords a ++ csvRecords b := by
  simp [csvRecords, List.filterMap_append]

theorem progressCounts_append (a b : List Effect) :
    progressCounts (a ++ b) = progressCounts a ++ progressCounts b := by
  simp [progressCounts, List.filterMap_append]

theorem foundCounts_append (a b : List Effect) :
    foundCounts (a ++ b) = foundCounts a ++ foundCounts b := by
  simp [foundCounts, List.filterMap_append]

/-- What the probe loop does when no probe ends in an error: it ends normally,
appends the in-scope relays that replied, counts them, and prints after each
probe the count reached so far. -/
theorem probeLoop_spec (scope : List String) (timeout : Duration) (ping : Nat → PingOutcome)
    (hp : ∀ k : Nat, (∃ rtt, ping k = PingOutcome.recv rtt) ∨ ping k = PingOutcome.noReply)
    (rest : List WireguardRelayResponse) :
    ∀ (k : Nat) (st : ProbeState),
      (probeLoop scope timeout ping rest k st).2 = true ∧
      (probeLoop scope timeout ping rest k st).1.processedRelays =
        st.processedRelays ++ repliedInScope scope ping (rest.enumFrom k) ∧
      (probeLoop scope timeout ping rest k st).1.count =
        st.count + (repliedInScope scope ping (rest.enumFrom k)).length ∧
      csvRecords (probeLoop scope timeout ping rest k st).1.out = csvRecords st.out ∧
      foundCounts (probeLoop scope timeout ping rest k st).1.out = foundCounts st.out ∧
      progressCounts (probeLoop scope timeout ping rest k st).1.out =
        progressCounts st.out ++
          (((rest.enumFrom k).filter (fun p => inScope scope p.2)).map (fun p =>
            st.count + (repliedInScope scope ping
              ((rest.enumFrom k).take (p.1 + 1 - k))).length)) := by
  induction rest with
  | nil => intro k st; simp [probeLoop, repliedInScope]
  | cons r rest ih =>
    intro k st
    have hwin : ∀ p ∈ (rest.enumFrom (k + 1)).filter (fun p => inScope scope p.2),
        List.take (p.1 + 1 - k) ((k, r) :: rest.enumFrom (k + 1)) =
          (k, r) :: List.take (p.1 + 1 - (k + 1)) (rest.enumFrom (k + 1)) := by
      intro p hp'
      have hle := List.le_fst_of_mem_enumFrom (List.mem_filter.1 hp').1
      have e : p.1 + 1 - k = (p.1 + 1 - (k + 1)) + 1 := by omega
      rw [e, List.take_succ_cons]
    unfold probeLoop
    cases hs : skipped scope r
    · have hin : inScope scope r = true := by simp [inScope, hs]
      simp only [Bool.false_eq_true, if_false]
      rcases hp k with ⟨rtt, hk⟩ | hk
      · rw [hk]
        simp only
        obtain ⟨h1, h2, h3, h4, h5, h6⟩ := ih (k + 1)
          (printProgress (onRecv r rtt { st with out := st.out ++ [Effect.ping r.Ipv4AddrIn timeout] }))
        have hres : resultAt scope ping (k, r) = some (processed r rtt) := by
          simp [resultAt, hin, hk]
        refine ⟨h1, ?_, ?_, ?_, ?_, ?_⟩
        · rw [h2]
          simp [printProgress, onRecv, repliedInScope, List.enumFrom_cons, List.filterMap_cons,
            hres, processed]
        · rw [h3]
          simp [printProgress, onRecv, repliedInScope, List.enumFrom_cons, List.filterMap_cons,
            hres]
          omega
        · rw [h4]
          simp [printProgress, onRecv, csvRecords, List.filterMap_append]
        · rw [h5]
          simp [printProgress, onRecv, foundCounts, List.filterMap_append]
        · rw [h6]
          simp only [printProgress, onRecv, progressCounts_append, List.enumFrom_cons,
            List.filter_cons, hin, if_true, List.map_cons, List.append_assoc]
          congr 1
          simp only [progressCounts, List.filterMap_cons, List.filterMap_nil, List.nil_append]
          have e : k + 1 - k = 1 := by omega
          refine congrArg₂ List.cons ?_ ?_
          · rw [e]; simp [repliedInScope, List.filterMap_cons, hres]
          · apply List.map_congr_left
            intro p hp'
            rw [hwin p hp']
            simp [repliedInScope, List.filterMap_cons, hres]
            omega
      · rw [hk]
        simp only
        obtain ⟨h1, h2, h3, h4, h5, h6⟩ := ih (k + 1)
          (printProgress { st with out := st.out ++ [Effect.ping r.Ipv4AddrIn timeout] })
        have hres : resultAt scope ping (k, r) = none := by
          simp [resultAt, hk]
        refine ⟨h1, ?_, ?_, ?_, ?_, ?_⟩
        · rw [h2]
          simp [printProgress, repliedInScope, List.enumFrom_cons, List.filterMap_cons, hres]
        · rw [h3]
          simp [printProgress, repliedInScope, List.enumFrom_cons, List.filterMap_cons, hres]
        · rw [h4]
          simp [printProgress, csvRecords, List.filterMap_append]
        · rw [h5]
          simp [printProgress, foundCounts, List.filterMap_append]
        · rw [h6]
          simp only [printProgress, progressCounts_append, List.enumFrom_cons,
            List.filter_cons, hin, if_true, List.map_cons, List.append_assoc]
          congr 1
          simp only [progressCounts, List.filterMap_cons, List.filterMap_nil, List.nil_append]
          have e : k + 1 - k = 1 := by omega
          refine congrArg₂ List.cons ?_ ?_
          · rw [e]; simp [repliedInScope, List.filterMap_cons, hres]
          · apply List.map_congr_left
            intro p hp'
            rw [hwin p hp']
            simp [repliedInScope, List.filterMap_cons, hres]
    · have hin : inScope scope r = false := by simp [inScope, hs]
      simp only [if_true]
      obtain ⟨h1, h2, h3, h4, h5, h6⟩ := ih (k + 1) st
      have hres : resultAt scope ping (k, r) = none := by
        simp [resultAt, hin]
      refine ⟨h1, ?_, ?_, h4, h5, ?_⟩
      · rw [h2]
        simp [repliedInScope, List.enumFrom_cons, List.filterMap_cons, hres]
      · rw [h3]
        simp [repliedInScope, List.enumFrom_cons, List.filterMap_cons, hres]
      · rw [h6]
        simp only [List.enumFrom_cons, List.filter_cons, hin, Bool.false_eq_true, if_false]
        congr 1
        apply List.map_congr_left
        intro p hp'
        rw [hwin p hp']
        simp [repliedInScope, List.filterMap_cons, hres]

/-! ## The report stage and the run of `main` in benchmark mode -/

theorem writeRows_spec (ds : Duration → String) (writeOk : Nat → Bool)
    (hw : ∀ k, writeOk k = true) (rows : List ProcessedRelay) :
    ∀ (k : Nat) (out : List Effect),
      writeRows ds writeOk rows k out =
        (out ++ rows.map (fun r => Effect.csvWrite (csvRecord ds r)), true) := by
  induction rows with
  | nil => intro k out; simp [writeRows]
  | cons r rest ih =>
    intro k out
    simp only [writeRows, hw k, if_true, ih, List.map_cons, List.append_assoc, List.singleton_append]

theorem csvRecords_map_csvWrite (ds : Duration → String) (rows : List ProcessedRelay) :
    csvRecords (rows.map (fun r => Effect.csvWrite (csvRecord ds r))) = rows.map (csvRecord ds) := by
  induction rows with
  | nil => rfl
  | cons r rest ih =>
    simp only [List.map_cons, csvRecords, List.filterMap_cons] at ih ⊢
    rw [ih]

theorem progressCounts_map_csvWrite (ds : Duration → String) (rows : List ProcessedRelay) :
    progressCounts (rows.map (fun r => Effect.csvWrite (csvRecord ds r))) = [] := by
  induction rows with
  | nil => rfl
  | cons r rest ih =>
    simp only [List.map_cons, progressCounts, List.filterMap_cons] at ih ⊢
    rw [ih]

theorem foundCounts_map_csvWrite (ds : Duration → String) (rows : List ProcessedRelay) :
    foundCounts (rows.map (fun r => Effect.csvWrite (csvRecord ds r))) = [] := by
  induction rows with
  | nil => rfl
  | cons r rest ih =>
    simp only [List.map_cons, foundCounts, List.filterMap_cons] at ih ⊢
    rw [ih]

/-- The effects of the report stage when the file can be created and written. -/
theorem writeReport_spec (ds : Duration → String) (path : String) (w : World)
    (rows : List ProcessedRelay) (out : List Effect)
    (hc : w.createOk = true) (hw : ∀ k, w.writeOk k = true) :
    (writeReport ds path w rows out).1 =
      out ++ [Effect.create path, Effect.csvWrite csvHeader] ++
        rows.map (fun r => Effect.csvWrite (csvRecord ds r)) ++
        (if w.flushOk = true then [Effect.csvFlush] else [Effect.csvFlush, Effect.fatal]) := by
  unfold writeReport
  simp only [hc, Bool.not_true, Bool.false_eq_true, if_false, writeRows_spec ds w.writeOk hw]
  split <;> simp [List.append_assoc]

theorem writeReport_projections (ds : Duration → String) (path : String) (w : World)
    (rows : List ProcessedRelay) (out : List Effect)
    (hc : w.createOk = true) (hw : ∀ k, w.writeOk k = true) :
    csvRecords (writeReport ds path w rows out).1 =
      csvRecords out ++ csvHeader :: rows.map (csvRecord ds) ∧
    progressCounts (writeReport ds path w rows out).1 = progressCounts out ∧
    foundCounts (writeReport ds path w rows out).1 = foundCounts out := by
  rw [writeReport_spec ds path w rows out hc hw]
  refine ⟨?_, ?_, ?_⟩
  · simp only [csvRecords_append, csvRecords_map_csvWrite]
    split <;> simp [csvRecords]
  · simp only [progressCounts_append, progressCounts_map_csvWrite]
    split <;> simp [progressCounts]
  · simp only [foundCounts_append, foundCounts_map_csvWrite]
    split <;> simp [foundCounts]

/-- The projections of the effects of `benchmark` in a run without error. -/
theorem benchmark_projections (ds : Duration → String) (scope : List String)
    (timeout : Duration) (path : String) (w : World) (out : List Effect)
    (relays : List WireguardRelayResponse) (hr : w.relays = some relays)
    (hp : noPingError w) (hc : w.createOk = true) (hw : ∀ k, w.writeOk k = true) :
    csvRecords (benchmark ds scope timeout path w out).1 =
      csvRecords out ++ csvHeader ::
        (Slice lessPing (repliedInScope scope w.ping relays.enum)).map (csvRecord ds) ∧
    progressCounts (benchmark ds scope timeout path w out).1 =
      progressCounts out ++
        ((relays.enum.filter (fun p => inScope scope p.2)).map (fun p =>
          (repliedInScope scope w.ping (relays.enum.take (p.1 + 1))).length)) ∧
    foundCounts (benchmark ds scope timeout path w out).1 =
      foundCounts out ++ [(relays.filter (inScope scope)).length] := by
  obtain ⟨h1, h2, _, h4, h5, h6⟩ := probeLoop_spec scope timeout w.ping hp relays 0
    { processedRelays := [], count := 0,
      out := out ++ [Effect.httpGet url] ++ [Effect.printFound (countLoop scope relays 0)] }
  unfold benchmark
  simp only [hr]
  rcases hpl : probeLoop scope timeout w.ping relays 0
    { processedRelays := [], count := 0,
      out := out ++ [Effect.httpGet url] ++ [Effect.printFound (countLoop scope relays 0)] }
    with ⟨st, ok⟩
  rw [hpl] at h1 h2 h4 h5 h6
  dsimp only at h1 h2 h4 h5 h6 ⊢
  subst h1
  simp only [Bool.not_true, Bool.false_eq_true, if_false]
  obtain ⟨q1, q2, q3⟩ := writeReport_projections ds path w (Slice lessPing st.processedRelays)
    st.out hc hw
  rw [q1, q2, q3, h2, h4, h5, h6]
  refine ⟨?_, ?_, ?_⟩
  · simp [csvRecords_append, csvRecords, List.enum]
  · simp [progressCounts_append, progressCounts, List.enum]
  · simp [foundCounts_append, foundCounts, countLoop_eq]

/-- The run of `main` in benchmark mode, when it is not stopped at the prompt, is
the run of `benchmark` after an output that writes no record, progress line or total. -/
theorem main_benchmark (ds : Duration → String) (flags : Flags) (w : World)
    (hf : flags.listCountries = false) (hpass : passesPrompt w) :
    ∃ pre : List Effect, csvRecords pre = [] ∧ progressCounts pre = [] ∧ foundCounts pre = [] ∧
      main ds flags w = benchmark ds (buildScope flags.searchWithinCountry).1 flags.timeout
        flags.outputFileName w pre := by
  have hscope : csvRecords (buildScope flags.searchWithinCountry).2 = [] ∧
      progressCounts (buildScope flags.searchWithinCountry).2 = [] ∧
      foundCounts (buildScope flags.searchWithinCountry).2 = [] := by
    have hall : ∀ e ∈ (buildScope flags.searchWithinCountry).2,
        e = Effect.printNoCountry ∨ ∃ j, e = Effect.printInvalid j := by
      intro e he
      unfold buildScope at he
      split at he
      · left; simpa using he
      · rcases trimLoop_out _ _ _ _ e he with h | h
        · simp at h
        · right; exact h
    generalize (buildScope flags.searchWithinCountry).2 = l at hall
    induction l with
    | nil => exact ⟨rfl, rfl, rfl⟩
    | cons e rest ih =>
      obtain ⟨i1, i2, i3⟩ := ih (fun e he => hall e (List.mem_cons_of_mem _ he))
      rcases hall e (List.mem_cons_self _ _) with rfl | ⟨j, rfl⟩
      · simp only [csvRecords, progressCounts, foundCounts, List.filterMap_cons] at i1 i2 i3 ⊢
        exact ⟨i1, i2, i3⟩
      · simp only [csvRecords, progressCounts, foundCounts, List.filterMap_cons] at i1 i2 i3 ⊢
        exact ⟨i1, i2, i3⟩
  obtain ⟨c1, c2, c3⟩ := hscope
  rcases hpass with hs | ⟨ha, hr⟩
  · refine ⟨(buildScope flags.searchWithinCountry).2 ++ [Effect.stat flags.outputFileName],
      ?_, ?_, ?_, ?_⟩
    · rw [csvRecords_append, c1]; rfl
    · rw [progressCounts_append, c2]; rfl
    · rw [foundCounts_append, c3]; rfl
    · simp [main, hf, hs]
  · by_cases hs : w.statOk = true
    · refine ⟨(buildScope flags.searchWithinCountry).2 ++ [Effect.stat flags.outputFileName,
        Effect.printPrompt, Effect.scanln, Effect.remove flags.outputFileName,
        Effect.printRemoved], ?_, ?_, ?_, ?_⟩
      · rw [csvRecords_append, c1]; rfl
      · rw [progressCounts_append, c2]; rfl
      · rw [foundCounts_append, c3]; rfl
      · simp [main, hf, hs, ha, hr, List.append_assoc]
    · refine ⟨(buildScope flags.searchWithinCountry).2 ++ [Effect.stat flags.outputFileName],
        ?_, ?_, ?_, ?_⟩
      · rw [csvRecords_append, c1]; rfl
      · rw [progressCounts_append, c2]; rfl
      · rw [foundCounts_append, c3]; rfl
      · simp [main, hf, hs]

/-! ## The sort: exchanges and rearrangements inside a range -/

theorem getD_set_self {α : Type} (l : List α) (i : Nat) (x d : α) (h : i < l.length) :
    (l.set i x).getD i d = x := by
  simp [List.getD_eq_getElem?_getD, List.getElem?_set, h]

theorem getD_set_ne {α : Type} (l : List α) (i k : Nat) (x d : α) (h : i ≠ k) :
    (l.set i x).getD k d = l.getD k d := by
  simp [List.getD_eq_getElem?_getD, List.getElem?_set, h]

section SortProofs

variable {α : Type} [Inhabited α]

theorem length_Swap (data : List α) (i j : Nat) : (Swap data i j).length = data.length := by
  simp [Swap]

theorem getD_Swap (data : List α) (i j k : Nat) (hi : i < data.length) (hj : j < data.length) :
    (Swap data i j).getD k default =
      if k = j then data.getD i default
      else if k = i then data.getD j default else data.getD k default := by
  unfold Swap
  by_cases h1 : k = j
  · subst h1
    rw [getD_set_self _ _ _ _ (by simpa using hj)]
    simp
  · rw [getD_set_ne _ _ _ _ _ (fun e => h1 e.symm)]
    by_cases h2 : k = i
    · subst h2
      rw [getD_set_self _ _ _ _ hi]
      simp [h1]
    · rw [getD_set_ne _ _ _ _ _ (fun e => h2 e.symm)]
      simp [h1, h2]

theorem keyAt_Swap (key : α → Int) (data : List α) (i j k : Nat) (hi : i < data.length)
    (hj : j < data.length) :
    keyAt key (Swap data i j) k =
      if k = j then keyAt key data i
      else if k = i then keyAt key data j else keyAt key data k := by
  unfold keyAt
  rw [getD_Swap data i j k hi hj]
  split
  · rfl
  · split <;> rfl

theorem cons_set_perm (x : α) : ∀ (xs : List α) (j : Nat), j < xs.length →
    (xs.getD j default :: xs.set j x).Perm (x :: xs) := by
  intro xs
  induction xs with
  | nil => intro j h; simp at h
  | cons y ys ih =>
    intro j h
    cases j with
    | zero => simpa using List.Perm.swap x y ys
    | succ n =>
      have hn : n < ys.length := by simpa using h
      have h1 : (ys.getD n default :: y :: ys.set n x).Perm (y :: ys.getD n default :: ys.set n x) :=
        List.Perm.swap _ _ _
      have h2 : (y :: ys.getD n default :: ys.set n x).Perm (y :: x :: ys) :=
        List.Perm.cons y (ih n hn)
      have h3 : (y :: x :: ys).Perm (x :: y :: ys) := List.Perm.swap _ _ _
      simpa using (h1.trans h2).trans h3

theorem Swap_perm_lt : ∀ (data : List α) (i j : Nat), i < j → j < data.length →
    (Swap data i j).Perm data := by
  intro data
  induction data with
  | nil => intro i j _ h; simp at h
  | cons x xs ih =>
    intro i j hij hj
    cases j with
    | zero => omega
    | succ j' =>
      have hj' : j' < xs.length := by simpa using hj
      cases i with
      | zero =>
        have := cons_set_perm x xs j' hj'
        simpa [Swap] using this
      | succ i' =>
        have := ih i' j' (by omega) hj'
        simpa [Swap] using this

theorem Swap_comm (data : List α) (i j : Nat) (hi : i < data.length) (hj : j < data.length) :
    Swap data i j = Swap data j i := by
  apply List.ext_getElem?
  intro k
  have h1 := getD_Swap data i j k hi hj
  have h2 := getD_Swap data j i k hj hi
  by_cases hk : k < data.length
  · have e1 : (Swap data i j)[k]? = some ((Swap data i j).getD k default) := by
      rw [List.getD_eq_getElem?_getD, List.getElem?_eq_getElem (by simpa [length_Swap] using hk)]
      rfl
    have e2 : (Swap data j i)[k]? = some ((Swap data j i).getD k default) := by
      rw [List.getD_eq_getElem?_getD, List.getElem?_eq_getElem (by simpa [length_Swap] using hk)]
      rfl
    rw [e1, e2, h1, h2]
    by_cases a1 : k = j
    · by_cases a2 : k = i
      · subst a1; subst a2; rfl
      · subst a1; simp [a2]
    · by_cases a2 : k = i
      · subst a2; simp [a1]
      · simp [a1, a2]
  · rw [List.getElem?_eq_none (by simpa [length_Swap] using hk),
      List.getElem?_eq_none (by simpa [length_Swap] using hk)]

theorem Swap_self (data : List α) (i : Nat) : Swap data i i = data := by
  unfold Swap
  apply List.ext_getElem?
  intro k
  simp only [List.getElem?_set, List.length_set, List.getD_eq_getElem?_getD]
  by_cases h : i = k
  · subst h
    by_cases hl : i < data.length
    · simp [hl]
    · simp [hl, List.getElem?_eq_none (Nat.le_of_not_lt hl)]
  · simp [h]

theorem Swap_perm (data : List α) (i j : Nat) (hi : i < data.length) (hj : j < data.length) :
    (Swap data i j).Perm data := by
  rcases Nat.lt_trichotomy i j with h | h | h
  · exact Swap_perm_lt data i j h hj
  · subst h; rw [Swap_self]
  · rw [Swap_comm data i j hi hj]; exact Swap_perm_lt data j i h hi

theorem Within.refl (a b : Nat) (data : List α) : Within a b data data :=
  ⟨rfl, List.Perm.refl _, fun _ _ => rfl, fun k h1 h2 => ⟨k, h1, h2, rfl⟩⟩

theorem Within.trans {a b : Nat} {d1 d2 d3 : List α} (h12 : Within a b d1 d2)
    (h23 : Within a b d2 d3) : Within a b d1 d3 := by
  refine ⟨h23.len.trans h12.len, h23.perm.trans h12.perm, ?_, ?_⟩
  · intro k hk
    rw [h23.frame k hk, h12.frame k hk]
  · intro k h1 h2
    obtain ⟨k', h1', h2', e⟩ := h23.sub k h1 h2
    obtain ⟨k'', h1'', h2'', e'⟩ := h12.sub k' h1' h2'
    exact ⟨k'', h1'', h2'', e.trans e'⟩

theorem Within.mono {a b a' b' : Nat} {d1 d2 : List α} (h : Within a b d1 d2)
    (ha : a' ≤ a) (hb : b ≤ b') : Within a' b' d1 d2 := by
  refine ⟨h.len, h.perm, ?_, ?_⟩
  · intro k hk
    exact h.frame k (by omega)
  · intro k h1 h2
    by_cases hin : a ≤ k ∧ k < b
    · obtain ⟨k', h1', h2', e⟩ := h.sub k hin.1 hin.2
      exact ⟨k', by omega, by omega, e⟩
    · exact ⟨k, h1, h2, h.frame k (by omega)⟩

theorem Within.swap {a b : Nat} (data : List α) (i j : Nat) (hai : a ≤ i) (hib : i < b)
    (haj : a ≤ j) (hjb : j < b) (hb : b ≤ data.length) : Within a b data (Swap data i j) := by
  have hi : i < data.length := by omega
  have hj : j < data.length := by omega
  refine ⟨length_Swap _ _ _, Swap_perm data i j hi hj, ?_, ?_⟩
  · intro k hk
    rw [getD_Swap data i j k hi hj, if_neg (by omega), if_neg (by omega)]
  · intro k h1 h2
    rw [getD_Swap data i j k hi hj]
    by_cases e1 : k = j
    · exact ⟨i, hai, hib, by rw [if_pos e1]⟩
    · by_cases e2 : k = i
      · exact ⟨j, haj, hjb, by rw [if_neg e1, if_pos e2]⟩
      · exact ⟨k, h1, h2, by rw [if_neg e1, if_neg e2]⟩

theorem Within.keyAt_frame {a b : Nat} {d1 d2 : List α} (key : α → Int) (h : Within a b d1 d2)
    (k : Nat) (hk : k < a ∨ b ≤ k) : keyAt key d2 k = keyAt key d1 k := by
  unfold keyAt
  rw [h.frame k hk]

theorem Within.keyAt_sub {a b : Nat} {d1 d2 : List α} (key : α → Int) (h : Within a b d1 d2)
    (k : Nat) (h1 : a ≤ k) (h2 : k < b) :
    ∃ k' : Nat, a ≤ k' ∧ k' < b ∧ keyAt key d2 k = keyAt key d1 k' := by
  obtain ⟨k', h1', h2', e⟩ := h.sub k h1 h2
  exact ⟨k', h1', h2', by unfold keyAt; rw [e]⟩

theorem Less_iff (key : α → Int) (less : α → α → Bool)
    (hless : ∀ x y, less x y = decide (key x < key y)) (data : List α) (i j : Nat) :
    Less less data i j = true ↔ keyAt key data i < keyAt key data j := by
  simp [Less, hless, keyAt]

end SortProofs

/-! ## The sort: insertion sort -/

section InsertionProofs

variable {α : Type} [Inhabited α] (key : α → Int) (less : α → α → Bool)

theorem insertionInner_spec (hless : ∀ x y, less x y = decide (key x < key y)) (a i : Nat) :
    ∀ (j : Nat) (data : List α), a ≤ j → j ≤ i → i < data.length →
      (∀ p q, a ≤ p → p ≤ q → q ≤ i → p ≠ j → q ≠ j → keyAt key data p ≤ keyAt key data q) →
      (∀ q, j < q → q ≤ i → keyAt key data j ≤ keyAt key data q) →
      SortedOn key a (i + 1) (insertionInner less a j data) ∧
      Within a (i + 1) data (insertionInner less a j data) := by
  intro j
  induction j with
  | zero =>
    intro data ha _ _ h1 h2
    simp only [insertionInner]
    refine ⟨?_, Within.refl _ _ _⟩
    intro p q hp hpq hq
    by_cases e1 : p = 0
    · by_cases e2 : q = 0
      · rw [e1, e2]
      · rw [e1]; exact h2 q (by omega) (by omega)
    · exact h1 p q hp hpq (by omega) e1 (by omega)
  | succ j ih =>
    intro data ha hji hi h1 h2
    unfold insertionInner
    by_cases hc : (decide (j + 1 > a) && Less less data (j + 1) j) = true
    · rw [if_pos hc]
      simp only [Bool.and_eq_true, decide_eq_true_eq] at hc
      obtain ⟨hgt, hl⟩ := hc
      rw [Less_iff key less hless] at hl
      have hK : ∀ k, keyAt key (Swap data (j + 1) j) k =
          if k = j then keyAt key data (j + 1)
          else if k = j + 1 then keyAt key data j else keyAt key data k :=
        fun k => keyAt_Swap key data (j + 1) j k (by omega) (by omega)
      have hw : Within a (i + 1) data (Swap data (j + 1) j) :=
        Within.swap data (j + 1) j (by omega) (by omega) (by omega) (by omega) (by omega)
      obtain ⟨r1, r2⟩ := ih (Swap data (j + 1) j) (by omega) (by omega)
        (by rw [length_Swap]; exact hi)
        (by
          intro p q hp hpq hq np nq
          rw [hK p, hK q, if_neg np, if_neg nq]
          by_cases e1 : p = j + 1
          · by_cases e2 : q = j + 1
            · rw [if_pos e1, if_pos e2]
            · rw [if_pos e1, if_neg e2]
              exact h1 j q (by omega) (by omega) hq (by omega) e2
          · by_cases e2 : q = j + 1
            · rw [if_neg e1, if_pos e2]
              exact h1 p j hp (by omega) (by omega) e1 (by omega)
            · rw [if_neg e1, if_neg e2]
              exact h1 p q hp hpq hq e1 e2)
        (by
          intro q hjq hq
          rw [hK j, hK q, if_pos rfl, if_neg (by omega)]
          by_cases e2 : q = j + 1
          · rw [if_pos e2]; exact le_of_lt hl
          · rw [if_neg e2]; exact h2 q (by omega) hq)
      exact ⟨r1, hw.trans r2⟩
    · rw [if_neg hc]
      refine ⟨?_, Within.refl _ _ _⟩
      have hstop : j + 1 = a ∨ keyAt key data j ≤ keyAt key data (j + 1) := by
        by_cases hgt : j + 1 > a
        · right
          have : ¬ (Less less data (j + 1) j = true) := by
            intro hl; exact hc (by simp [hgt, hl])
          rw [Less_iff key less hless] at this
          exact not_lt.1 this
        · left; omega
      intro p q hp hpq hq
      by_cases e1 : p = j + 1
      · by_cases e2 : q = j + 1
        · rw [e1, e2]
        · rw [e1]; exact h2 q (by omega) (by omega)
      · by_cases e2 : q = j + 1
        · rcases hstop with hs | hs
          · omega
          · rw [e2]
            by_cases e3 : p = j
            · rw [e3]; exact hs
            · exact le_trans (h1 p j hp (by omega) (by omega) e1 (by omega)) hs
        · exact h1 p q hp hpq (by omega) e1 e2

theorem insertionOuter_spec (hless : ∀ x y, less x y = decide (key x < key y)) (a b : Nat) :
    ∀ (n i : Nat) (data : List α), a < i → i + n = b → b ≤ data.length →
      SortedOn key a i data →
      SortedOn key a b (insertionOuter less a n i data) ∧
      Within a b data (insertionOuter less a n i data) := by
  intro n
  induction n with
  | zero =>
    intro i data _ hb _ hs
    simp only [insertionOuter]
    have : i = b := by omega
    subst this
    exact ⟨hs, Within.refl _ _ _⟩
  | succ n ih =>
    intro i data hai hb hlen hs
    simp only [insertionOuter]
    obtain ⟨s1, w1⟩ := insertionInner_spec key less hless a i i data (by omega) (le_refl _)
      (by omega)
      (by intro p q hp hpq hq np nq; exact hs p q hp hpq (by omega))
      (by intro q h1 h2; omega)
    obtain ⟨s2, w2⟩ := ih (i + 1) (insertionInner less a i data) (by omega) (by omega)
      (by rw [w1.len]; exact hlen) s1
    exact ⟨s2, (w1.mono (le_refl _) (by omega)).trans w2⟩

theorem insertionSort_spec (hless : ∀ x y, less x y = decide (key x < key y)) (a b : Nat)
    (data : List α) (hb : b ≤ data.length) :
    SortedOn key a b (insertionSort_func less data a b) ∧
    Within a b data (insertionSort_func less data a b) := by
  unfold insertionSort_func
  by_cases h : a + 1 ≤ b
  · exact insertionOuter_spec key less hless a b (b - (a + 1)) (a + 1) data (by omega) (by omega)
      hb (by
        intro p q hp hpq hq
        have : p = q := by omega
        rw [this])
  · have e : b - (a + 1) = 0 := by omega
    rw [e]
    simp only [insertionOuter]
    refine ⟨?_, Within.refl _ _ _⟩
    intro p q hp hpq hq
    omega

end InsertionProofs

/-! ## The sort: `partition_func` -/

section PartitionProofs

variable {α : Type} [Inhabited α] (key : α → Int) (less : α → α → Bool)

theorem scanLess_spec (hless : ∀ x y, less x y = decide (key x < key y)) (data : List α)
    (a j : Nat) :
    ∀ (fuel i : Nat), j + 1 - i ≤ fuel → i ≤ j + 1 →
      i ≤ scanLess less data a j fuel i ∧ scanLess less data a j fuel i ≤ j + 1 ∧
      (∀ k, i ≤ k → k < scanLess less data a j fuel i → keyAt key data k < keyAt key data a) ∧
      (scanLess less data a j fuel i ≤ j →
        keyAt key data a ≤ keyAt key data (scanLess less data a j fuel i)) := by
  intro fuel
  induction fuel with
  | zero =>
    intro i hf hi
    simp only [scanLess]
    exact ⟨le_refl _, hi, fun k h1 h2 => by omega, fun h => by omega⟩
  | succ fuel ih =>
    intro i hf hi
    unfold scanLess
    by_cases hc : (decide (i ≤ j) && Less less data i a) = true
    · rw [if_pos hc]
      simp only [Bool.and_eq_true, decide_eq_true_eq] at hc
      obtain ⟨hij, hl⟩ := hc
      rw [Less_iff key less hless] at hl
      obtain ⟨r1, r2, r3, r4⟩ := ih (i + 1) (by omega) (by omega)
      refine ⟨by omega, r2, ?_, r4⟩
      intro k h1 h2
      by_cases e : k = i
      · rw [e]; exact hl
      · exact r3 k (by omega) h2
    · rw [if_neg hc]
      refine ⟨le_refl _, hi, fun k h1 h2 => by omega, ?_⟩
      intro hij
      have : ¬ (Less less data i a = true) := by
        intro hl; exact hc (by simp [hij, hl])
      rw [Less_iff key less hless] at this
      exact not_lt.1 this

theorem scanNotLess_spec (hless : ∀ x y, less x y = decide (key x < key y)) (data : List α)
    (a i : Nat) (hi1 : 1 ≤ i) :
    ∀ (j : Nat), i ≤ j + 1 →
      scanNotLess less data a i j ≤ j ∧ i ≤ scanNotLess less data a i j + 1 ∧
      (∀ k, scanNotLess less data a i j < k → k ≤ j → keyAt key data a ≤ keyAt key data k) ∧
      (i ≤ scanNotLess less data a i j →
        keyAt key data (scanNotLess less data a i j) < keyAt key data a) := by
  intro j
  induction j with
  | zero =>
    intro hi
    simp only [scanNotLess]
    exact ⟨le_refl _, hi, fun k h1 h2 => by omega, fun h => by omega⟩
  | succ j ih =>
    intro hi
    unfold scanNotLess
    by_cases hc : (decide (i ≤ j + 1) && !Less less data (j + 1) a) = true
    · rw [if_pos hc]
      simp only [Bool.and_eq_true, decide_eq_true_eq, Bool.not_eq_true'] at hc
      obtain ⟨hij, hl⟩ := hc
      have hl' : ¬ (Less less data (j + 1) a = true) := by rw [hl]; simp
      rw [Less_iff key less hless] at hl'
      obtain ⟨r1, r2, r3, r4⟩ := ih (by omega)
      refine ⟨by omega, r2, ?_, r4⟩
      intro k h1 h2
      by_cases e : k = j + 1
      · rw [e]; exact not_lt.1 hl'
      · exact r3 k h1 (by omega)
    · rw [if_neg hc]
      refine ⟨le_refl _, hi, fun k h1 h2 => by omega, ?_⟩
      intro hij
      have : Less less data (j + 1) a = true := by
        by_contra hl
        exact hc (by simp [hij, hl])
      rw [Less_iff key less hless] at this
      exact this

/-- The state of the loop of `partition_func`: the elements before `i` are
smaller than the pivot value `P`, the elements after `j` are not. -/
theorem partition_scan (hless : ∀ x y, less x y = decide (key x < key y)) (data : List α)
    (a b i j : Nat) (P : Int) (hP : keyAt key data a = P)
    (h1 : a + 1 ≤ i) (h2 : i ≤ j + 1) (h3 : j < b)
    (hL : ∀ k, a + 1 ≤ k → k < i → keyAt key data k < P)
    (hR : ∀ k, j < k → k < b → P ≤ keyAt key data k) :
    a + 1 ≤ scanLess less data a j (j + 1 - i) i ∧
    scanLess less data a j (j + 1 - i) i ≤
      scanNotLess less data a (scanLess less data a j (j + 1 - i) i) j + 1 ∧
    scanNotLess less data a (scanLess less data a j (j + 1 - i) i) j < b ∧
    (∀ k, a + 1 ≤ k → k < scanLess less data a j (j + 1 - i) i → keyAt key data k < P) ∧
    (∀ k, scanNotLess less data a (scanLess less data a j (j + 1 - i) i) j < k → k < b →
      P ≤ keyAt key data k) ∧
    (scanLess less data a j (j + 1 - i) i ≤
        scanNotLess less data a (scanLess less data a j (j + 1 - i) i) j →
      P ≤ keyAt key data (scanLess less data a j (j + 1 - i) i) ∧
      keyAt key data (scanNotLess less data a (scanLess less data a j (j + 1 - i) i) j) < P) := by
  obtain ⟨s1, s2, s3, s4⟩ := scanLess_spec key less hless data a j (j + 1 - i) i (le_refl _) h2
  generalize scanLess less data a j (j + 1 - i) i = i' at *
  obtain ⟨t1, t2, t3, t4⟩ := scanNotLess_spec key less hless data a i' (by omega) j s2
  generalize scanNotLess less data a i' j = j' at *
  subst hP
  refine ⟨by omega, t2, by omega, ?_, ?_, ?_⟩
  · intro k hk1 hk2
    by_cases e : k < i
    · exact hL k hk1 e
    · exact s3 k (by omega) hk2
  · intro k hk1 hk2
    by_cases e : j < k
    · exact hR k e hk2
    · exact t3 k hk1 (by omega)
  · intro hle
    exact ⟨s4 (by omega), t4 hle⟩

theorem partition_swap (data : List α) (a b i j : Nat) (P : Int)
    (hb : b ≤ data.length)
    (h1 : a + 1 ≤ i) (h3 : j < b) (hij : i ≤ j)
    (hL : ∀ k, a + 1 ≤ k → k < i → keyAt key data k < P)
    (hR : ∀ k, j < k → k < b → P ≤ keyAt key data k)
    (hi : P ≤ keyAt key data i) (hj : keyAt key data j < P) :
    i < j ∧
    (∀ k, a + 1 ≤ k → k < i + 1 → keyAt key (Swap data i j) k < P) ∧
    (∀ k, j - 1 < k → k < b → P ≤ keyAt key (Swap data i j) k) ∧
    Within (a + 1) b data (Swap data i j) := by
  have hne : i ≠ j := by
    intro e; rw [e] at hi; exact absurd hj (not_lt.2 hi)
  have hK : ∀ k, keyAt key (Swap data i j) k =
      if k = j then keyAt key data i
      else if k = i then keyAt key data j else keyAt key data k :=
    fun k => keyAt_Swap key data i j k (by omega) (by omega)
  refine ⟨by omega, ?_, ?_, Within.swap data i j h1 (by omega) (by omega) h3 hb⟩
  · intro k hk1 hk2
    rw [hK k, if_neg (by omega)]
    by_cases e : k = i
    · rw [if_pos e]; exact hj
    · rw [if_neg e]; exact hL k hk1 (by omega)
  · intro k hk1 hk2
    rw [hK k]
    by_cases e : k = j
    · rw [if_pos e]; exact hi
    · rw [if_neg e, if_neg (by omega)]; exact hR k (by omega) hk2

theorem partitionLoop_spec (hless : ∀ x y, less x y = decide (key x < key y))
    (a b : Nat) (P : Int) :
    ∀ (fuel i j : Nat) (data : List α), j + 1 - i ≤ fuel → b ≤ data.length →
      keyAt key data a = P → a + 1 ≤ i → i ≤ j + 1 → j < b →
      (∀ k, a + 1 ≤ k → k < i → keyAt key data k < P) →
      (∀ k, j < k → k < b → P ≤ keyAt key data k) →
      a ≤ (partitionLoop less a fuel i j data).2.1 ∧
      (partitionLoop less a fuel i j data).2.1 < b ∧
      (∀ k, a + 1 ≤ k → k ≤ (partitionLoop less a fuel i j data).2.1 →
        keyAt key (partitionLoop less a fuel i j data).2.2 k < P) ∧
      (∀ k, (partitionLoop less a fuel i j data).2.1 < k → k < b →
        P ≤ keyAt key (partitionLoop less a fuel i j data).2.2 k) ∧
      Within (a + 1) b data (partitionLoop less a fuel i j data).2.2 := by
  intro fuel
  induction fuel with
  | zero =>
    intro i j data hf hb hP h1 h2 h3 hL hR
    simp only [partitionLoop]
    exact ⟨by omega, h3, fun k hk1 hk2 => hL k hk1 (by omega), hR, Within.refl _ _ _⟩
  | succ fuel ih =>
    intro i j data hf hb hP h1 h2 h3 hL hR
    unfold partitionLoop
    obtain ⟨p1, p2, p3, p4, p5, p6⟩ := partition_scan key less hless data a b i j P hP h1 h2 h3 hL hR
    have hi' := (scanLess_spec key less hless data a j (j + 1 - i) i (le_refl _) h2).1
    have hj' := (scanNotLess_spec key less hless data a
      (scanLess less data a j (j + 1 - i) i) (by omega) j
      (scanLess_spec key less hless data a j (j + 1 - i) i (le_refl _) h2).2.1).1
    simp only
    generalize scanLess less data a j (j + 1 - i) i = i' at *
    generalize scanNotLess less data a i' j = j' at *
    by_cases hc : i' > j'
    · rw [if_pos hc]
      dsimp only
      exact ⟨by omega, p3, fun k hk1 hk2 => p4 k hk1 (by omega), p5, Within.refl _ _ _⟩
    · rw [if_neg hc]
      obtain ⟨q1, q2⟩ := p6 (by omega)
      obtain ⟨w1, w2, w3, w4⟩ := partition_swap key data a b i' j' P hb p1 p3 (by omega) p4 p5 q1 q2
      obtain ⟨r1, r2, r3, r4, r5⟩ := ih (i' + 1) (j' - 1) (Swap data i' j') (by omega)
        (by rw [length_Swap]; exact hb)
        (by rw [← hP]; exact w4.keyAt_frame key a (by omega))
        (by omega) (by omega) (by omega) w2 w3
      exact ⟨r1, r2, r3, r4, w4.trans r5⟩

end PartitionProofs
section PartitionProofs2

variable {α : Type} [Inhabited α] (key : α → Int) (less : α → α → Bool)

theorem partition_final (data : List α) (a b j : Nat) (P : Int)
    (hb : b ≤ data.length) (hP : keyAt key data a = P) (h1 : a ≤ j) (h2 : j < b)
    (hL : ∀ k, a + 1 ≤ k → k ≤ j → keyAt key data k < P)
    (hR : ∀ k, j < k → k < b → P ≤ keyAt key data k) :
    Within a b data (Swap data j a) ∧
    (∀ k, a ≤ k → k < j → keyAt key (Swap data j a) k < keyAt key (Swap data j a) j) ∧
    (∀ k, j < k → k < b → keyAt key (Swap data j a) j ≤ keyAt key (Swap data j a) k) := by
  have hK : ∀ k, keyAt key (Swap data j a) k =
      if k = a then keyAt key data j
      else if k = j then keyAt key data a else keyAt key data k :=
    fun k => keyAt_Swap key data j a k (by omega) (by omega)
  have hj : keyAt key (Swap data j a) j = P := by
    rw [hK j]
    by_cases e : j = a
    · rw [if_pos e, e, hP]
    · rw [if_neg e, if_pos rfl, hP]
  refine ⟨Within.swap data j a h1 h2 (le_refl _) (by omega) hb, ?_, ?_⟩
  · intro k hk1 hk2
    rw [hj, hK k]
    by_cases e : k = a
    · rw [if_pos e]; exact hL j (by omega) (le_refl _)
    · rw [if_neg e, if_neg (by omega)]; exact hL k (by omega) (by omega)
  · intro k hk1 hk2
    rw [hj, hK k, if_neg (by omega), if_neg (by omega)]
    exact hR k hk1 hk2

theorem partition_spec (hless : ∀ x y, less x y = decide (key x < key y)) (data : List α)
    (a b pivot : Nat) (ha : a ≤ pivot) (hp : pivot < b) (hb : b ≤ data.length) :
    a ≤ (partition_func less data a b pivot).2.1 ∧
    (partition_func less data a b pivot).2.1 < b ∧
    Within a b data (partition_func less data a b pivot).1 ∧
    (∀ k, a ≤ k → k < (partition_func less data a b pivot).2.1 →
      keyAt key (partition_func less data a b pivot).1 k <
        keyAt key (partition_func less data a b pivot).1 (partition_func less data a b pivot).2.1) ∧
    (∀ k, (partition_func less data a b pivot).2.1 < k → k < b →
      keyAt key (partition_func less data a b pivot).1 (partition_func less data a b pivot).2.1 ≤
        keyAt key (partition_func less data a b pivot).1 k) := by
  have hw0 : Within a b data (Swap data a pivot) :=
    Within.swap data a pivot (le_refl _) (by omega) ha hp hb
  have hb0 : b ≤ (Swap data a pivot).length := by rw [length_Swap]; exact hb
  obtain ⟨p1, p2, p3, p4, p5, p6⟩ := partition_scan key less hless (Swap data a pivot) a b
    (a + 1) (b - 1) (keyAt key (Swap data a pivot) a) rfl (le_refl _) (by omega) (by omega)
    (fun k h1 h2 => by omega) (fun k h1 h2 => by omega)
  unfold partition_func
  simp only
  generalize scanLess less (Swap data a pivot) a (b - 1) (b - 1 + 1 - (a + 1)) (a + 1) = i' at *
  generalize scanNotLess less (Swap data a pivot) a i' (b - 1) = j' at *
  by_cases hc : i' > j'
  · rw [if_pos hc]
    dsimp only
    obtain ⟨f1, f2, f3⟩ := partition_final key (Swap data a pivot) a b j' _ hb0 rfl (by omega) p3
      (fun k h1 h2 => p4 k h1 (by omega)) p5
    exact ⟨by omega, p3, hw0.trans f1, f2, f3⟩
  · rw [if_neg hc]
    obtain ⟨q1, q2⟩ := p6 (by omega)
    obtain ⟨w1, w2, w3, w4⟩ := partition_swap key (Swap data a pivot) a b i' j' _ hb0 p1 p3
      (by omega) p4 p5 q1 q2
    obtain ⟨r1, r2, r3, r4, r5⟩ := partitionLoop_spec key less hless a b
      (keyAt key (Swap data a pivot) a) (b - a) (i' + 1) (j' - 1)
      (Swap (Swap data a pivot) i' j') (by omega) (by rw [length_Swap]; exact hb0)
      (w4.keyAt_frame key a (by omega)) (by omega) (by omega) (by omega) w2 w3
    rcases hpl : partitionLoop less a (b - a) (i' + 1) (j' - 1) (Swap (Swap data a pivot) i' j')
      with ⟨i2, j2, d2⟩
    rw [hpl] at r1 r2 r3 r4 r5
    dsimp only at r1 r2 r3 r4 r5 ⊢
    have hP2 : keyAt key d2 a = keyAt key (Swap data a pivot) a := by
      rw [r5.keyAt_frame key a (by omega)]
      exact w4.keyAt_frame key a (by omega)
    obtain ⟨f1, f2, f3⟩ := partition_final key d2 a b j2 _ (by rw [r5.len, length_Swap]; exact hb0)
      hP2 r1 r2 r3 r4
    refine ⟨r1, r2, ?_, f2, f3⟩
    exact hw0.trans (((w4.trans r5).mono (by omega) (le_refl _)).trans f1)

end PartitionProofs2

/-! ## The sort: `partitionEqual_func` -/

section PartitionEqualProofs

variable {α : Type} [Inhabited α] (key : α → Int) (less : α → α → Bool)

theorem scanNotGreater_spec (hless : ∀ x y, less x y = decide (key x < key y)) (data : List α)
    (a j : Nat) :
    ∀ (fuel i : Nat), j + 1 - i ≤ fuel → i ≤ j + 1 →
      i ≤ scanNotGreater less data a j fuel i ∧ scanNotGreater less data a j fuel i ≤ j + 1 ∧
      (∀ k, i ≤ k → k < scanNotGreater less data a j fuel i →
        keyAt key data k ≤ keyAt key data a) ∧
      (scanNotGreater less data a j fuel i ≤ j →
        keyAt key data a < keyAt key data (scanNotGreater less data a j fuel i)) := by
  intro fuel
  induction fuel with
  | zero =>
    intro i hf hi
    simp only [scanNotGreater]
    exact ⟨le_refl _, hi, fun k h1 h2 => by omega, fun h => by omega⟩
  | succ fuel ih =>
    intro i hf hi
    unfold scanNotGreater
    by_cases hc : (decide (i ≤ j) && !Less less data a i) = true
    · rw [if_pos hc]
      simp only [Bool.and_eq_true, decide_eq_true_eq, Bool.not_eq_true'] at hc
      obtain ⟨hij, hl⟩ := hc
      have hl' : ¬ (Less less data a i = true) := by rw [hl]; simp
      rw [Less_iff key less hless] at hl'
      obtain ⟨r1, r2, r3, r4⟩ := ih (i + 1) (by omega) (by omega)
      refine ⟨by omega, r2, ?_, r4⟩
      intro k h1 h2
      by_cases e : k = i
      · rw [e]; exact not_lt.1 hl'
      · exact r3 k (by omega) h2
    · rw [if_neg hc]
      refine ⟨le_refl _, hi, fun k h1 h2 => by omega, ?_⟩
      intro hij
      have : Less less data a i = true := by
        by_contra hl
        exact hc (by simp [hij, hl])
      rw [Less_iff key less hless] at this
      exact this

theorem scanGreater_spec (hless : ∀ x y, less x y = decide (key x < key y)) (data : List α)
    (a i : Nat) (hi1 : 1 ≤ i) :
    ∀ (j : Nat), i ≤ j + 1 →
      scanGreater less data a i j ≤ j ∧ i ≤ scanGreater less data a i j + 1 ∧
      (∀ k, scanGreater less data a i j < k → k ≤ j → keyAt key data a < keyAt key data k) ∧
      (i ≤ scanGreater less data a i j →
        keyAt key data (scanGreater less data a i j) ≤ keyAt key data a) := by
  intro j
  induction j with
  | zero =>
    intro hi
    simp only [scanGreater]
    exact ⟨le_refl _, hi, fun k h1 h2 => by omega, fun h => by omega⟩
  | succ j ih =>
    intro hi
    unfold scanGreater
    by_cases hc : (decide (i ≤ j + 1) && Less less data a (j + 1)) = true
    · rw [if_pos hc]
      simp only [Bool.and_eq_true, decide_eq_true_eq] at hc
      obtain ⟨hij, hl⟩ := hc
      rw [Less_iff key less hless] at hl
      obtain ⟨r1, r2, r3, r4⟩ := ih (by omega)
      refine ⟨by omega, r2, ?_, r4⟩
      intro k h1 h2
      by_cases e : k = j + 1
      · rw [e]; exact hl
      · exact r3 k h1 (by omega)
    · rw [if_neg hc]
      refine ⟨le_refl _, hi, fun k h1 h2 => by omega, ?_⟩
      intro hij
      have : ¬ (Less less data a (j + 1) = true) := by
        intro hl; exact hc (by simp [hij, hl])
      rw [Less_iff key less hless] at this
      exact not_lt.1 this

theorem partitionEqualLoop_spec (hless : ∀ x y, less x y = decide (key x < key y))
    (a b : Nat) (P : Int) :
    ∀ (fuel i j : Nat) (data : List α), j + 1 - i ≤ fuel → b ≤ data.length →
      keyAt key data a = P → a + 1 ≤ i → i ≤ j + 1 → j < b →
      (∀ k, a + 1 ≤ k → k < i → keyAt key data k ≤ P) →
      (∀ k, j < k → k < b → P < keyAt key data k) →
      a + 1 ≤ (partitionEqualLoop less a fuel i j data).1 ∧
      (partitionEqualLoop less a fuel i j data).1 ≤ b ∧
      (∀ k, a + 1 ≤ k → k < (partitionEqualLoop less a fuel i j data).1 →
        keyAt key (partitionEqualLoop less a fuel i j data).2 k ≤ P) ∧
      (∀ k, (partitionEqualLoop less a fuel i j data).1 ≤ k → k < b →
        P < keyAt key (partitionEqualLoop less a fuel i j data).2 k) ∧
      Within (a + 1) b data (partitionEqualLoop less a fuel i j data).2 := by
  intro fuel
  induction fuel with
  | zero =>
    intro i j data hf hb hP h1 h2 h3 hL hR
    simp only [partitionEqualLoop]
    exact ⟨h1, by omega, hL, fun k hk1 hk2 => hR k (by omega) hk2, Within.refl _ _ _⟩
  | succ fuel ih =>
    intro i j data hf hb hP h1 h2 h3 hL hR
    unfold partitionEqualLoop
    obtain ⟨s1, s2, s3, s4⟩ :=
      scanNotGreater_spec key less hless data a j (j + 1 - i) i (le_refl _) h2
    simp only
    generalize scanNotGreater less data a j (j + 1 - i) i = i' at *
    obtain ⟨t1, t2, t3, t4⟩ := scanGreater_spec key less hless data a i' (by omega) j s2
    generalize scanGreater less data a i' j = j' at *
    subst hP
    have hL' : ∀ k, a + 1 ≤ k → k < i' → keyAt key data k ≤ keyAt key data a := by
      intro k hk1 hk2
      by_cases e : k < i
      · exact hL k hk1 e
      · exact s3 k (by omega) hk2
    have hR' : ∀ k, j' < k → k < b → keyAt key data a < keyAt key data k := by
      intro k hk1 hk2
      by_cases e : j < k
      · exact hR k e hk2
      · exact t3 k hk1 (by omega)
    by_cases hc : i' > j'
    · rw [if_pos hc]
      dsimp only
      exact ⟨by omega, by omega, hL', fun k hk1 hk2 => hR' k (by omega) hk2, Within.refl _ _ _⟩
    · rw [if_neg hc]
      have q1 := s4 (by omega)
      have q2 := t4 (by omega)
      have hne : i' ≠ j' := by
        intro e; rw [e] at q1; exact absurd q1 (not_lt.2 q2)
      have hK : ∀ k, keyAt key (Swap data i' j') k =
          if k = j' then keyAt key data i'
          else if k = i' then keyAt key data j' else keyAt key data k :=
        fun k => keyAt_Swap key data i' j' k (by omega) (by omega)
      have hw : Within (a + 1) b data (Swap data i' j') :=
        Within.swap data i' j' (by omega) (by omega) (by omega) (by omega) hb
      obtain ⟨r1, r2, r3, r4, r5⟩ := ih (i' + 1) (j' - 1) (Swap data i' j') (by omega)
        (by rw [length_Swap]; exact hb)
        (hw.keyAt_frame key a (by omega))
        (by omega) (by omega) (by omega)
        (by
          intro k hk1 hk2
          rw [hK k, if_neg (by omega)]
          by_cases e : k = i'
          · rw [if_pos e]; exact q2
          · rw [if_neg e]; exact hL' k hk1 (by omega))
        (by
          intro k hk1 hk2
          rw [hK k]
          by_cases e : k = j'
          · rw [if_pos e]; exact q1
          · rw [if_neg e, if_neg (by omega)]; exact hR' k (by omega) hk2)
      exact ⟨r1, r2, r3, r4, hw.trans r5⟩

theorem partitionEqual_spec (hless : ∀ x y, less x y = decide (key x < key y)) (data : List α)
    (a b pivot : Nat) (ha : a ≤ pivot) (hp : pivot < b) (hb : b ≤ data.length) :
    a + 1 ≤ (partitionEqual_func less data a b pivot).2 ∧
    (partitionEqual_func less data a b pivot).2 ≤ b ∧
    Within a b data (partitionEqual_func less data a b pivot).1 ∧
    (∀ k, a ≤ k → k < (partitionEqual_func less data a b pivot).2 →
      keyAt key (partitionEqual_func less data a b pivot).1 k ≤ keyAt key data pivot) ∧
    (∀ k, (partitionEqual_func less data a b pivot).2 ≤ k → k < b →
      keyAt key data pivot < keyAt key (partitionEqual_func less data a b pivot).1 k) := by
  have hw0 : Within a b data (Swap data a pivot) :=
    Within.swap data a pivot (le_refl _) (by omega) ha hp hb
  have hb0 : b ≤ (Swap data a pivot).length := by rw [length_Swap]; exact hb
  have hP : keyAt key (Swap data a pivot) a = keyAt key data pivot := by
    rw [keyAt_Swap key data a pivot a (by omega) (by omega)]
    by_cases e : a = pivot
    · rw [if_pos e, e]
    · rw [if_neg e, if_pos rfl]
  obtain ⟨r1, r2, r3, r4, r5⟩ := partitionEqualLoop_spec key less hless a b
    (keyAt key data pivot) (b - a) (a + 1) (b - 1) (Swap data a pivot) (by omega) hb0 hP
    (le_refl _) (by omega) (by omega) (fun k h1 h2 => by omega) (fun k h1 h2 => by omega)
  unfold partitionEqual_func
  rcases hpl : partitionEqualLoop less a (b - a) (a + 1) (b - 1) (Swap data a pivot)
    with ⟨i2, d2⟩
  simp only [hpl] at r1 r2 r3 r4 r5 ⊢
  refine ⟨r1, r2, hw0.trans (r5.mono (by omega) (le_refl _)), ?_, r4⟩
  intro k hk1 hk2
  by_cases e : k = a
  · rw [e, r5.keyAt_frame key a (by omega), hP]
  · exact r3 k (by omega) hk2

end PartitionEqualProofs

/-! ## The sort: reversal, pivot choice and pattern breaking -/

section SmallProofs

variable {α : Type} [Inhabited α] (key : α → Int) (less : α → α → Bool)

theorem LowerBound.within {a b : Nat} {d1 d2 : List α} (h : LowerBound key a b d1)
    (hw : Within a b d1 d2) : LowerBound key a b d2 := by
  intro ha k hk1 hk2
  obtain ⟨k', h1, h2, e⟩ := hw.keyAt_sub key k hk1 hk2
  rw [e, hw.keyAt_frame key (a - 1) (by omega)]
  exact h ha k' h1 h2

theorem reverseLoop_within (a b : Nat) :
    ∀ (fuel i j : Nat) (data : List α), a ≤ i → j < b → b ≤ data.length →
      Within a b data (reverseLoop fuel i j data) := by
  intro fuel
  induction fuel with
  | zero => intro i j data _ _ _; exact Within.refl _ _ _
  | succ fuel ih =>
    intro i j data hi hj hb
    unfold reverseLoop
    by_cases hc : i < j
    · rw [if_pos hc]
      exact (Within.swap data i j hi (by omega) (by omega) hj hb).trans
        (ih (i + 1) (j - 1) (Swap data i j) (by omega) (by omega)
          (by rw [length_Swap]; exact hb))
    · rw [if_neg hc]
      exact Within.refl _ _ _

theorem reverseRange_within (data : List α) (a b : Nat) (hab : a < b) (hb : b ≤ data.length) :
    Within a b data (reverseRange_func data a b) :=
  reverseLoop_within a b (b - a) a (b - 1) data (le_refl _) (by omega) hb

theorem order2_cases (data : List α) (a b swaps : Nat) :
    ((order2_func less data a b swaps).1 = a ∧ (order2_func less data a b swaps).2.1 = b) ∨
    ((order2_func less data a b swaps).1 = b ∧ (order2_func less data a b swaps).2.1 = a) := by
  unfold order2_func
  split
  · right; exact ⟨rfl, rfl⟩
  · left; exact ⟨rfl, rfl⟩

theorem median_range (data : List α) (a b c swaps lo hi : Nat)
    (ha : lo ≤ a ∧ a ≤ hi) (hb : lo ≤ b ∧ b ≤ hi) (hc : lo ≤ c ∧ c ≤ hi) :
    lo ≤ (median_func less data a b c swaps).1 ∧ (median_func less data a b c swaps).1 ≤ hi := by
  unfold median_func
  rcases h1 : order2_func less data a b swaps with ⟨a1, b1, s1⟩
  have c1 := order2_cases less data a b swaps
  rw [h1] at c1
  dsimp only at c1 ⊢
  rcases h2 : order2_func less data b1 c s1 with ⟨b2, c2, s2⟩
  have c2' := order2_cases less data b1 c s1
  rw [h2] at c2'
  dsimp only at c2' ⊢
  rcases h3 : order2_func less data a1 b2 s2 with ⟨a3, b3, s3⟩
  have c3 := order2_cases less data a1 b2 s2
  rw [h3] at c3
  dsimp only at c3 ⊢
  omega

theorem choosePivot_range (data : List α) (a b : Nat) (hl : 8 ≤ b - a) :
    a ≤ (choosePivot_func less data a b).1 ∧ (choosePivot_func less data a b).1 < b := by
  have key1 : ∀ (j swaps : Nat), a ≤ j → j < b →
      a ≤ (if swaps = 0 then (j, sortedHint.increasingHint)
        else if swaps = 12 then (j, sortedHint.decreasingHint)
        else (j, sortedHint.unknownHint)).1 ∧
      (if swaps = 0 then (j, sortedHint.increasingHint)
        else if swaps = 12 then (j, sortedHint.decreasingHint)
        else (j, sortedHint.unknownHint)).1 < b := by
    intro j swaps h1 h2
    split
    · exact ⟨h1, h2⟩
    · split <;> exact ⟨h1, h2⟩
  unfold choosePivot_func
  simp only [hl, ge_iff_le, if_true, Nat.mul_one]
  have hq : 2 ≤ (b - a) / 4 := by omega
  have hq3 : (b - a) / 4 * 3 < b - a := by omega
  by_cases h50 : 50 ≤ b - a
  · simp only [h50, if_true]
    have m1 := median_range less data (a + (b - a) / 4 - 1) (a + (b - a) / 4)
      (a + (b - a) / 4 + 1) 0 a (b - 1) (by omega) (by omega) (by omega)
    rcases e1 : medianAdjacent_func less data (a + (b - a) / 4) 0 with ⟨i1, s1⟩
    unfold medianAdjacent_func at e1
    rw [e1] at m1
    have m2 := median_range less data (a + (b - a) / 4 * 2 - 1) (a + (b - a) / 4 * 2)
      (a + (b - a) / 4 * 2 + 1) s1 a (b - 1) (by omega) (by omega) (by omega)
    rcases e2 : medianAdjacent_func less data (a + (b - a) / 4 * 2) s1 with ⟨j1, s2⟩
    unfold medianAdjacent_func at e2
    rw [e2] at m2
    have m3 := median_range less data (a + (b - a) / 4 * 3 - 1) (a + (b - a) / 4 * 3)
      (a + (b - a) / 4 * 3 + 1) s2 a (b - 1) (by omega) (by omega) (by omega)
    rcases e3 : medianAdjacent_func less data (a + (b - a) / 4 * 3) s2 with ⟨k1, s3⟩
    unfold medianAdjacent_func at e3
    rw [e3] at m3
    dsimp only at m1 m2 m3 ⊢
    have m4 := median_range less data i1 j1 k1 s3 a (b - 1) m1 m2 m3
    rcases e4 : median_func less data i1 j1 k1 s3 with ⟨j2, s4⟩
    rw [e4] at m4
    dsimp only at m4 ⊢
    exact key1 j2 s4 m4.1 (by omega)
  · simp only [h50, if_false]
    have m4 := median_range less data (a + (b - a) / 4) (a + (b - a) / 4 * 2)
      (a + (b - a) / 4 * 3) 0 a (b - 1) (by omega) (by omega) (by omega)
    rcases e4 : median_func less data (a + (b - a) / 4) (a + (b - a) / 4 * 2)
      (a + (b - a) / 4 * 3) 0 with ⟨j2, s4⟩
    rw [e4] at m4
    dsimp only at m4 ⊢
    exact key1 j2 s4 m4.1 (by omega)

theorem bitsLen_zero (fuel : Nat) : bitsLen fuel 0 = 0 := by
  cases fuel <;> simp [bitsLen]

theorem two_pow_bitsLen_le : ∀ (fuel n : Nat), 1 ≤ n → 2 ^ bitsLen fuel n ≤ 2 * n := by
  intro fuel
  induction fuel with
  | zero => intro n hn; simp [bitsLen]; omega
  | succ fuel ih =>
    intro n hn
    unfold bitsLen
    rw [if_neg (by omega), pow_succ]
    by_cases h : n / 2 = 0
    · rw [h, bitsLen_zero]; simp; omega
    · have := ih (n / 2) (by omega)
      omega

theorem nextPowerOfTwo_le (length : Nat) (h : 1 ≤ length) :
    nextPowerOfTwo length ≤ 2 * length := by
  unfold nextPowerOfTwo
  rw [Nat.one_shiftLeft]
  exact le_trans (Nat.mod_le _ _) (two_pow_bitsLen_le length length h)

theorem breakLoop_within (a b modulus idx : Nat) (hmod : modulus ≤ 2 * (b - a))
    (h8 : 8 ≤ b - a) (hidx1 : a + 1 ≤ idx) (hidx2 : idx + 1 < b) :
    ∀ (n i random : Nat) (data : List α), i + n ≤ 3 → b ≤ data.length →
      Within a b data (breakLoop a (b - a) modulus idx n i random data) := by
  intro n
  induction n with
  | zero => intro i random data _ _; exact Within.refl _ _ _
  | succ n ih =>
    intro i random data hi hb
    unfold breakLoop
    simp only
    have hand : xorshiftNext random &&& (modulus - 1) ≤ modulus - 1 := Nat.and_le_right
    have hother : (if xorshiftNext random &&& (modulus - 1) ≥ b - a then
        (xorshiftNext random &&& (modulus - 1)) - (b - a)
        else xorshiftNext random &&& (modulus - 1)) < b - a := by
      split <;> omega
    exact (Within.swap data _ _ (by omega) (by omega) (by omega) (by omega) hb).trans
      (ih (i + 1) _ _ (by omega) (by rw [length_Swap]; exact hb))

theorem breakPatterns_within (data : List α) (a b : Nat) (hb : b ≤ data.length) :
    Within a b data (breakPatterns_func data a b) := by
  unfold breakPatterns_func
  simp only
  split
  · rename_i h8
    exact breakLoop_within a b _ _ (nextPowerOfTwo_le (b - a) (by omega)) h8 (by omega)
      (by omega) 3 0 _ data (by omega) hb
  · exact Within.refl _ _ _

end SmallProofs

/-! ## The sort: `partialInsertionSort_func` -/

section PartialInsertionProofs

variable {α : Type} [Inhabited α] (key : α → Int) (less : α → α → Bool)

theorem scanSorted_spec (hless : ∀ x y, less x y = decide (key x < key y)) (data : List α)
    (a b : Nat) :
    ∀ (fuel i : Nat), b - i ≤ fuel → a + 1 ≤ i → i ≤ b → SortedOn key a i data →
      i ≤ scanSorted less data b fuel i ∧ scanSorted less data b fuel i ≤ b ∧
      SortedOn key a (scanSorted less data b fuel i) data ∧
      (scanSorted less data b fuel i < b →
        keyAt key data (scanSorted less data b fuel i) <
          keyAt key data (scanSorted less data b fuel i - 1)) := by
  intro fuel
  induction fuel with
  | zero =>
    intro i hf h1 h2 hs
    simp only [scanSorted]
    exact ⟨le_refl _, h2, hs, fun h => by omega⟩
  | succ fuel ih =>
    intro i hf h1 h2 hs
    unfold scanSorted
    by_cases hc : (decide (i < b) && !Less less data i (i - 1)) = true
    · rw [if_pos hc]
      simp only [Bool.and_eq_true, decide_eq_true_eq, Bool.not_eq_true'] at hc
      obtain ⟨hib, hl⟩ := hc
      have hl' : ¬ (Less less data i (i - 1) = true) := by rw [hl]; simp
      rw [Less_iff key less hless] at hl'
      have hs' : SortedOn key a (i + 1) data := by
        intro p q hp hpq hq
        by_cases e : q = i
        · by_cases e' : p = i
          · rw [e, e']
          · rw [e]
            exact le_trans (hs p (i - 1) hp (by omega) (by omega)) (not_lt.1 hl')
        · exact hs p q hp hpq (by omega)
      obtain ⟨r1, r2, r3, r4⟩ := ih (i + 1) (by omega) (by omega) (by omega) hs'
      exact ⟨by omega, r2, r3, r4⟩
    · rw [if_neg hc]
      refine ⟨le_refl _, h2, hs, ?_⟩
      intro hib
      have : Less less data i (i - 1) = true := by
        by_contra hl
        exact hc (by simp [hib, hl])
      rw [Less_iff key less hless] at this
      exact this

theorem shiftLeft_eq_insertionInner (hless : ∀ x y, less x y = decide (key x < key y))
    (a b : Nat) :
    ∀ (j : Nat) (data : List α), a ≤ j → j < b → b ≤ data.length → LowerBound key a b data →
      shiftLeft less j data = insertionInner less a j data := by
  intro j
  induction j with
  | zero => intro data _ _ _ _; rfl
  | succ j ih =>
    intro data ha hj hb hlb
    unfold shiftLeft insertionInner
    by_cases hja : j + 1 > a
    · by_cases hl : Less less data (j + 1) j = true
      · simp only [hl, hja, Bool.not_true, Bool.false_eq_true, if_false, decide_True,
          Bool.and_self, if_true]
        exact ih (Swap data (j + 1) j) (by omega) (by omega) (by rw [length_Swap]; exact hb)
          (hlb.within key (Within.swap data (j + 1) j (by omega) hj (by omega) (by omega) hb))
      · simp [hl]
    · have e : j + 1 = a := by omega
      have hnl : ¬ (Less less data (j + 1) j = true) := by
        rw [Less_iff key less hless]
        have := hlb (by omega) (j + 1) (by omega) hj
        have e' : a - 1 = j := by omega
        rw [e'] at this
        exact not_lt.2 this
      simp [hnl, hja]

theorem shiftRight_within (lo b : Nat) :
    ∀ (fuel j : Nat) (data : List α), lo < j → b ≤ data.length →
      Within lo b data (shiftRight less b fuel j data) := by
  intro fuel
  induction fuel with
  | zero => intro j data _ _; exact Within.refl _ _ _
  | succ fuel ih =>
    intro j data hj hb
    unfold shiftRight
    split
    · split
      · exact Within.refl _ _ _
      · exact (Within.swap data j (j - 1) (by omega) (by omega) (by omega) (by omega) hb).trans
          (ih (j + 1) (Swap data j (j - 1)) (by omega) (by rw [length_Swap]; exact hb))
    · exact Within.refl _ _ _

theorem SortedOn.within_frame {a i lo b : Nat} {d1 d2 : List α} (hs : SortedOn key a i d1)
    (hw : Within lo b d1 d2) (h : i ≤ lo) : SortedOn key a i d2 := by
  intro p q hp hpq hq
  rw [hw.keyAt_frame key p (by omega), hw.keyAt_frame key q (by omega)]
  exact hs p q hp hpq hq

theorem partialInsertionLoop_spec (hless : ∀ x y, less x y = decide (key x < key y))
    (a b : Nat) :
    ∀ (n i : Nat) (data : List α), a + 1 ≤ i → i ≤ b → b ≤ data.length →
      SortedOn key a i data → LowerBound key a b data →
      Within a b data (partialInsertionLoop less a b n i data).1 ∧
      ((partialInsertionLoop less a b n i data).2 = true →
        SortedOn key a b (partialInsertionLoop less a b n i data).1) := by
  intro n
  induction n with
  | zero =>
    intro i data _ _ _ _ _
    simp only [partialInsertionLoop]
    exact ⟨Within.refl _ _ _, fun h => by simp at h⟩
  | succ n ih =>
    intro i data h1 h2 hb hs hlb
    unfold partialInsertionLoop
    obtain ⟨s1, s2, s3, s4⟩ := scanSorted_spec key less hless data a b (b - i) i (le_refl _) h1 h2 hs
    simp only
    generalize scanSorted less data b (b - i) i = i' at *
    by_cases e1 : i' = b
    · rw [if_pos e1]
      subst e1
      exact ⟨Within.refl _ _ _, fun _ => s3⟩
    · rw [if_neg e1]
      by_cases e2 : b - a < 50
      · rw [if_pos e2]
        exact ⟨Within.refl _ _ _, fun h => by simp at h⟩
      · rw [if_neg e2]
        have hib : i' < b := by omega
        -- the swap of the out-of-order pair
        have w0 : Within a b data (Swap data i' (i' - 1)) :=
          Within.swap data i' (i' - 1) (by omega) hib (by omega) (by omega) hb
        have hb0 : b ≤ (Swap data i' (i' - 1)).length := by rw [length_Swap]; exact hb
        have hK : ∀ k, keyAt key (Swap data i' (i' - 1)) k =
            if k = i' - 1 then keyAt key data i'
            else if k = i' then keyAt key data (i' - 1) else keyAt key data k :=
          fun k => keyAt_Swap key data i' (i' - 1) k (by omega) (by omega)
        -- the shift to the left
        have hleft : Within a i' (Swap data i' (i' - 1))
            (if i' - a ≥ 2 then shiftLeft less (i' - 1) (Swap data i' (i' - 1))
              else Swap data i' (i' - 1)) ∧
            SortedOn key a i' (if i' - a ≥ 2 then shiftLeft less (i' - 1) (Swap data i' (i' - 1))
              else Swap data i' (i' - 1)) := by
          split
          · rw [shiftLeft_eq_insertionInner key less hless a b (i' - 1) _ (by omega) (by omega)
              hb0 (hlb.within key w0)]
            have := insertionInner_spec key less hless a (i' - 1) (i' - 1)
              (Swap data i' (i' - 1)) (by omega) (le_refl _) (by omega)
              (by
                intro p q hp hpq hq np nq
                rw [hK p, hK q, if_neg np, if_neg nq, if_neg (by omega), if_neg (by omega)]
                exact s3 p q hp hpq (by omega))
              (by intro q hq1 hq2; omega)
            have e : i' - 1 + 1 = i' := by omega
            rw [e] at this
            exact ⟨this.2, this.1⟩
          · refine ⟨Within.refl _ _ _, ?_⟩
            intro p q hp hpq hq
            have : p = q := by omega
            rw [this]
        generalize (if i' - a ≥ 2 then shiftLeft less (i' - 1) (Swap data i' (i' - 1))
              else Swap data i' (i' - 1)) = d2 at *
        obtain ⟨w1, hs1⟩ := hleft
        have hb2 : b ≤ d2.length := by rw [w1.len]; exact hb0
        -- the shift to the right
        have hright : Within i' b d2
            (if b - i' ≥ 2 then shiftRight less b (b - (i' + 1)) (i' + 1) d2 else d2) := by
          split
          · exact shiftRight_within less i' b _ _ _ (by omega) hb2
          · exact Within.refl _ _ _
        generalize (if b - i' ≥ 2 then shiftRight less b (b - (i' + 1)) (i' + 1) d2 else d2) = d3
          at *
        have w2 : Within a b data d3 :=
          (w0.trans (w1.mono (le_refl _) (by omega))).trans (hright.mono (by omega) (le_refl _))
        obtain ⟨r1, r2⟩ := ih i' d3 (by omega) (by omega) (by rw [w2.len]; exact hb)
          (hs1.within_frame key hright (le_refl _)) (hlb.within key w2)
        exact ⟨w2.trans r1, r2⟩

theorem partialInsertionSort_spec (hless : ∀ x y, less x y = decide (key x < key y))
    (data : List α) (a b : Nat) (hab : a < b) (hb : b ≤ data.length)
    (hlb : LowerBound key a b data) :
    Within a b data (partialInsertionSort_func less data a b).1 ∧
    ((partialInsertionSort_func less data a b).2 = true →
      SortedOn key a b (partialInsertionSort_func less data a b).1) := by
  unfold partialInsertionSort_func
  exact partialInsertionLoop_spec key less hless a b 5 (a + 1) data (le_refl _) (by omega) hb
    (by
      intro p q hp hpq hq
      have : p = q := by omega
      rw [this])
    hlb

end PartialInsertionProofs

/-! ## The sort: heapsort -/

section HeapProofs

variable {α : Type} [Inhabited α] (key : α → Int) (less : α → α → Bool)

theorem siftDown_loop_spec (hless : ∀ x y, less x y = decide (key x < key y))
    (hi first lo : Nat) :
    ∀ (fuel r : Nat) (data : List α), hi - r ≤ fuel → lo ≤ r → first + hi ≤ data.length →
      (∀ k, lo ≤ k → k < hi → k ≠ r → HeapAt key first hi data k) →
      (∀ p, lo ≤ p → (r = 2 * p + 1 ∨ r = 2 * p + 2) →
        ∀ c, (c = 2 * r + 1 ∨ c = 2 * r + 2) → c < hi →
          keyAt key data (first + c) ≤ keyAt key data (first + p)) →
      (∀ k, lo ≤ k → k < hi → HeapAt key first hi (siftDown_loop less hi first fuel r data) k) ∧
      Within first (first + hi) data (siftDown_loop less hi first fuel r data) := by
  intro fuel
  induction fuel with
  | zero =>
    intro r data hf hlo hlen I1 I2
    simp only [siftDown_loop]
    refine ⟨?_, Within.refl _ _ _⟩
    intro k h1 h2
    exact I1 k h1 h2 (by omega)
  | succ fuel ih =>
    intro r data hf hlo hlen I1 I2
    unfold siftDown_loop
    simp only
    by_cases hch : 2 * r + 1 ≥ hi
    · rw [if_pos hch]
      refine ⟨?_, Within.refl _ _ _⟩
      intro k h1 h2
      by_cases e : k = r
      · subst e
        intro d hd hdl
        omega
      · exact I1 k h1 h2 e
    · rw [if_neg hch]
      have hr : r < hi := by omega
      have e12 : first + (2 * r + 1) + 1 = first + (2 * r + 2) := by omega
      -- the greater child
      have hc : ∃ c, (if (decide (2 * r + 1 + 1 < hi) &&
            Less less data (first + (2 * r + 1)) (first + (2 * r + 1) + 1)) = true
          then 2 * r + 1 + 1 else 2 * r + 1) = c ∧ (c = 2 * r + 1 ∨ c = 2 * r + 2) ∧ c < hi ∧
          ∀ d, (d = 2 * r + 1 ∨ d = 2 * r + 2) → d < hi →
            keyAt key data (first + d) ≤ keyAt key data (first + c) := by
        by_cases h2 : (decide (2 * r + 1 + 1 < hi) &&
            Less less data (first + (2 * r + 1)) (first + (2 * r + 1) + 1)) = true
        · rw [if_pos h2]
          simp only [Bool.and_eq_true, decide_eq_true_eq] at h2
          obtain ⟨h21, h22⟩ := h2
          rw [Less_iff key less hless, e12] at h22
          refine ⟨2 * r + 2, rfl, Or.inr rfl, by omega, ?_⟩
          intro d hd hdl
          rcases hd with rfl | rfl
          · exact le_of_lt h22
          · exact le_refl _
        · rw [if_neg h2]
          refine ⟨2 * r + 1, rfl, Or.inl rfl, by omega, ?_⟩
          intro d hd hdl
          rcases hd with rfl | rfl
          · exact le_refl _
          · have : ¬ (Less less data (first + (2 * r + 1)) (first + (2 * r + 1) + 1) = true) := by
              intro hl
              exact h2 (by simp [hl]; omega)
            rw [Less_iff key less hless, e12] at this
            exact not_lt.1 this
      obtain ⟨c, hceq, hcc, hclt, hmax⟩ := hc
      rw [hceq]
      by_cases hl : Less less data (first + r) (first + c) = true
      · simp only [hl, Bool.not_true, Bool.false_eq_true, if_false]
        rw [Less_iff key less hless] at hl
        have hH : ∀ k, keyAt key (Swap data (first + r) (first + c)) (first + k) =
            if k = c then keyAt key data (first + r)
            else if k = r then keyAt key data (first + c) else keyAt key data (first + k) := by
          intro k
          rw [keyAt_Swap key data (first + r) (first + c) (first + k) (by omega) (by omega)]
          by_cases e1 : k = c
          · rw [if_pos (by omega), if_pos e1]
          · rw [if_neg (by omega), if_neg e1]
            by_cases e2 : k = r
            · rw [if_pos (by omega), if_pos e2]
            · rw [if_neg (by omega), if_neg e2]
        have hw : Within first (first + hi) data (Swap data (first + r) (first + c)) :=
          Within.swap data (first + r) (first + c) (by omega) (by omega) (by omega) (by omega) hlen
        obtain ⟨r1, r2⟩ := ih c (Swap data (first + r) (first + c)) (by omega) (by omega)
          (by rw [length_Swap]; exact hlen)
          (by
            intro k hk1 hk2 hkc d hd hdl
            rw [hH d, hH k, if_neg hkc]
            by_cases ekr : k = r
            · rw [if_pos ekr]
              subst ekr
              by_cases edc : d = c
              · rw [if_pos edc]; exact le_of_lt hl
              · rw [if_neg edc, if_neg (by omega)]
                exact hmax d hd hdl
            · rw [if_neg ekr, if_neg (by omega)]
              by_cases edr : d = r
              · rw [if_pos edr]
                exact I2 k hk1 (by omega) c hcc hclt
              · rw [if_neg edr]
                exact I1 k hk1 hk2 ekr d hd hdl)
          (by
            intro p hp hpc d hd hdl
            have epr : p = r := by omega
            subst epr
            rw [hH d, hH p, if_neg (by omega), if_neg (by omega), if_neg (by omega),
              if_pos rfl]
            exact I1 c (by omega) hclt (by omega) d hd hdl)
        exact ⟨r1, hw.trans r2⟩
      · simp only [hl, Bool.not_false, if_true]
        rw [Less_iff key less hless] at hl
        refine ⟨?_, Within.refl _ _ _⟩
        intro k h1 h2
        by_cases e : k = r
        · subst e
          intro d hd hdl
          exact le_trans (hmax d hd hdl) (not_lt.1 hl)
        · exact I1 k h1 h2 e

theorem siftDown_spec (hless : ∀ x y, less x y = decide (key x < key y))
    (hi first lo : Nat) (data : List α) (hlen : first + hi ≤ data.length)
    (I1 : ∀ k, lo < k → k < hi → HeapAt key first hi data k) :
    (∀ k, lo ≤ k → k < hi → HeapAt key first hi (siftDown_func less data lo hi first) k) ∧
    Within first (first + hi) data (siftDown_func less data lo hi first) := by
  unfold siftDown_func
  exact siftDown_loop_spec key less hless hi first lo hi lo data (by omega) (le_refl _) hlen
    (fun k h1 h2 h3 => I1 k (by omega) h2)
    (fun p hp hpr => by omega)

theorem heapBuild_spec (hless : ∀ x y, less x y = decide (key x < key y)) (hi first : Nat) :
    ∀ (n : Nat) (data : List α), first + hi ≤ data.length →
      (∀ k, n ≤ k → k < hi → HeapAt key first hi data k) →
      (∀ k, k < hi → HeapAt key first hi (heapBuild less hi first n data) k) ∧
      Within first (first + hi) data (heapBuild less hi first n data) := by
  intro n
  induction n with
  | zero =>
    intro data _ h
    simp only [heapBuild]
    exact ⟨fun k hk => h k (by omega) hk, Within.refl _ _ _⟩
  | succ i ih =>
    intro data hlen h
    simp only [heapBuild]
    obtain ⟨s1, s2⟩ := siftDown_spec key less hless hi first i data hlen
      (fun k h1 h2 => h k (by omega) h2)
    obtain ⟨r1, r2⟩ := ih (siftDown_func less data i hi first) (by rw [s2.len]; exact hlen) s1
    exact ⟨r1, s2.trans r2⟩

theorem heap_root_max (first n : Nat) (data : List α)
    (h : ∀ k, k < n → HeapAt key first n data k) :
    ∀ k, k < n → keyAt key data (first + k) ≤ keyAt key data (first + 0) := by
  intro k
  induction k using Nat.strong_induction_on with
  | _ k ih =>
    intro hk
    by_cases e : k = 0
    · subst e; exact le_refl _
    · have hp : (k - 1) / 2 < k := by omega
      have h1 := h ((k - 1) / 2) (by omega) k (by omega) hk
      exact le_trans h1 (ih _ hp (by omega))

theorem heapPop_spec (hless : ∀ x y, less x y = decide (key x < key y)) (first hi : Nat) :
    ∀ (n : Nat) (data : List α), n ≤ hi → first + hi ≤ data.length →
      (∀ k, k < n → HeapAt key first n data k) →
      SortedOn key (first + n) (first + hi) data →
      (∀ k q, k < n → n ≤ q → q < hi → keyAt key data (first + k) ≤ keyAt key data (first + q)) →
      SortedOn key first (first + hi) (heapPop less first n data) ∧
      Within first (first + hi) data (heapPop less first n data) := by
  intro n
  induction n with
  | zero =>
    intro data _ _ _ hs _
    simp only [heapPop]
    exact ⟨by simpa using hs, Within.refl _ _ _⟩
  | succ i ih =>
    intro data hn hlen hheap hs hle
    simp only [heapPop]
    have hmax := heap_root_max key first (i + 1) data hheap
    have hH : ∀ k, keyAt key (Swap data first (first + i)) (first + k) =
        if k = i then keyAt key data (first + 0)
        else if k = 0 then keyAt key data (first + i) else keyAt key data (first + k) := by
      intro k
      rw [keyAt_Swap key data first (first + i) (first + k) (by omega) (by omega)]
      by_cases e1 : k = i
      · rw [if_pos (by omega), if_pos e1]; rfl
      · rw [if_neg (by omega), if_neg e1]
        by_cases e2 : k = 0
        · rw [if_pos (by omega), if_pos e2]
        · rw [if_neg (by omega), if_neg e2]
    have hw : Within first (first + (i + 1)) data (Swap data first (first + i)) :=
      Within.swap data first (first + i) (le_refl _) (by omega) (by omega) (by omega) (by omega)
    have hlen1 : first + hi ≤ (Swap data first (first + i)).length := by
      rw [length_Swap]; exact hlen
    obtain ⟨s1, s2⟩ := siftDown_spec key less hless i first 0 (Swap data first (first + i))
      (by omega)
      (by
        intro k hk1 hk2 d hd hdl
        rw [hH d, hH k, if_neg (by omega), if_neg (by omega), if_neg (by omega),
          if_neg (by omega)]
        exact hheap k (by omega) d hd (by omega))
    have hw2 : Within first (first + (i + 1)) data
        (siftDown_func less (Swap data first (first + i)) 0 i first) :=
      hw.trans (s2.mono (le_refl _) (by omega))
    -- every element of the new heap is an element of the old heap
    have hold : ∀ k, k < i → ∃ k', k' < i + 1 ∧
        keyAt key (siftDown_func less (Swap data first (first + i)) 0 i first) (first + k) =
          keyAt key data (first + k') := by
      intro k hk
      obtain ⟨k', h1, h2, e⟩ := hw2.keyAt_sub key (first + k) (by omega) (by omega)
      refine ⟨k' - first, by omega, ?_⟩
      rw [e]
      congr 1
      omega
    have hi' : keyAt key (siftDown_func less (Swap data first (first + i)) 0 i first) (first + i) =
        keyAt key data (first + 0) := by
      rw [s2.keyAt_frame key (first + i) (by omega), hH i, if_pos rfl]
    have hout : ∀ q, i < q → q < hi →
        keyAt key (siftDown_func less (Swap data first (first + i)) 0 i first) (first + q) =
          keyAt key data (first + q) := by
      intro q h1 h2
      rw [hw2.keyAt_frame key (first + q) (by omega)]
    obtain ⟨r1, r2⟩ := ih (siftDown_func less (Swap data first (first + i)) 0 i first) (by omega)
      (by rw [hw2.len]; exact hlen)
      (fun k hk => s1 k (by omega) hk)
      (by
        intro p q hp hpq hq
        have ep : p = first + (p - first) := by omega
        have eq : q = first + (q - first) := by omega
        rw [ep, eq]
        by_cases e1 : p - first = i
        · by_cases e2 : q - first = i
          · rw [e1, e2]
          · rw [e1, hi', hout (q - first) (by omega) (by omega)]
            exact hle 0 (q - first) (by omega) (by omega) (by omega)
        · rw [hout (p - first) (by omega) (by omega), hout (q - first) (by omega) (by omega),
            ← ep, ← eq]
          exact hs p q (by omega) hpq hq)
      (by
        intro k q hk hq1 hq2
        obtain ⟨k', hk', e⟩ := hold k hk
        rw [e]
        by_cases e1 : q = i
        · rw [e1, hi']
          exact hmax k' hk'
        · rw [hout q (by omega) hq2]
          exact hle k' q hk' (by omega) hq2)
    exact ⟨r1, (hw2.mono (le_refl _) (by omega)).trans r2⟩

theorem heapSort_spec (hless : ∀ x y, less x y = decide (key x < key y)) (data : List α)
    (a b : Nat) (hab : a ≤ b) (hb : b ≤ data.length) :
    SortedOn key a b (heapSort_func less data a b) ∧
    Within a b data (heapSort_func less data a b) := by
  unfold heapSort_func
  simp only
  have hab' : a + (b - a) = b := by omega
  obtain ⟨s1, s2⟩ := heapBuild_spec key less hless (b - a) a ((b - a - 1) / 2 + 1) data
    (by omega)
    (by
      intro k hk1 hk2 d hd hdl
      omega)
  obtain ⟨r1, r2⟩ := heapPop_spec key less hless a (b - a) (b - a)
    (heapBuild less (b - a) a ((b - a - 1) / 2 + 1) data) (le_refl _)
    (by rw [s2.len]; omega) s1
    (by intro p q hp hpq hq; omega)
    (by intro k q hk hq1 hq2; omega)
  rw [hab'] at r1 r2 s2
  exact ⟨r1, s2.trans r2⟩

end HeapProofs

/-! ## The sort: `pdqsort_func` and `sort.Slice` -/

section PdqProofs

variable {α : Type} [Inhabited α] (key : α → Int) (less : α → α → Bool)

theorem SortedOn.of_frame {lo hi a b : Nat} {d1 d2 : List α} (hs : SortedOn key lo hi d1)
    (hw : Within a b d1 d2) (h : hi ≤ a ∨ b ≤ lo) : SortedOn key lo hi d2 := by
  intro p q hp hpq hq
  rw [hw.keyAt_frame key p (by omega), hw.keyAt_frame key q (by omega)]
  exact hs p q hp hpq hq

theorem sorted_join (a mid b : Nat) (r : List α) (h1 : SortedOn key a mid r)
    (h2 : SortedOn key (mid + 1) b r)
    (hL : ∀ k, a ≤ k → k < mid → keyAt key r k ≤ keyAt key r mid)
    (hR : ∀ k, mid < k → k < b → keyAt key r mid ≤ keyAt key r k) :
    SortedOn key a b r := by
  intro p q hp hpq hq
  rcases Nat.lt_trichotomy p mid with e1 | e1 | e1
  · rcases Nat.lt_trichotomy q mid with e2 | e2 | e2
    · exact h1 p q hp hpq e2
    · rw [e2]; exact hL p hp e1
    · exact le_trans (hL p hp e1) (hR q e2 hq)
  · rcases Nat.lt_trichotomy q mid with e2 | e2 | e2
    · omega
    · rw [e1, e2]
    · rw [e1]; exact hR q e2 hq
  · exact h2 p q (by omega) hpq hq

theorem two_ranges {a1 b1 a2 b2 : Nat} {d4 d5 d6 : List α} (w1 : Within a1 b1 d4 d5)
    (w2 : Within a2 b2 d5 d6) (hdis : b1 ≤ a2 ∨ b2 ≤ a1) :
    (∀ k, a1 ≤ k → k < b1 → ∃ k', a1 ≤ k' ∧ k' < b1 ∧ keyAt key d6 k = keyAt key d4 k') ∧
    (∀ k, a2 ≤ k → k < b2 → ∃ k', a2 ≤ k' ∧ k' < b2 ∧ keyAt key d6 k = keyAt key d4 k') ∧
    (∀ k, (k < a1 ∨ b1 ≤ k) → (k < a2 ∨ b2 ≤ k) → keyAt key d6 k = keyAt key d4 k) := by
  refine ⟨?_, ?_, ?_⟩
  · intro k h1 h2
    obtain ⟨k', h1', h2', e⟩ := w1.keyAt_sub key k h1 h2
    exact ⟨k', h1', h2', by rw [w2.keyAt_frame key k (by omega), e]⟩
  · intro k h1 h2
    obtain ⟨k', h1', h2', e⟩ := w2.keyAt_sub key k h1 h2
    exact ⟨k', h1', h2', by rw [e, w1.keyAt_frame key k' (by omega)]⟩
  · intro k h1 h2
    rw [w2.keyAt_frame key k h2, w1.keyAt_frame key k h1]

theorem partition_join (a mid b : Nat) (d4 d6 : List α)
    (pL : ∀ k, a ≤ k → k < mid → keyAt key d4 k < keyAt key d4 mid)
    (pR : ∀ k, mid < k → k < b → keyAt key d4 mid ≤ keyAt key d4 k)
    (hl : ∀ k, a ≤ k → k < mid → ∃ k', a ≤ k' ∧ k' < mid ∧ keyAt key d6 k = keyAt key d4 k')
    (hr : ∀ k, mid + 1 ≤ k → k < b →
      ∃ k', mid + 1 ≤ k' ∧ k' < b ∧ keyAt key d6 k = keyAt key d4 k')
    (hm : keyAt key d6 mid = keyAt key d4 mid)
    (sL : SortedOn key a mid d6) (sR : SortedOn key (mid + 1) b d6) :
    SortedOn key a b d6 := by
  apply sorted_join key a mid b d6 sL sR
  · intro k h1 h2
    obtain ⟨k', h1', h2', e⟩ := hl k h1 h2
    rw [e, hm]
    exact le_of_lt (pL k' h1' h2')
  · intro k h1 h2
    obtain ⟨k', h1', h2', e⟩ := hr k (by omega) h2
    rw [e, hm]
    exact pR k' (by omega) h2'

theorem pdqsort_loop_spec (hless : ∀ x y, less x y = decide (key x < key y)) :
    ∀ (fuel : Nat) (data : List α) (a b limit : Nat) (wb wp : Bool),
      a ≤ b → b ≤ data.length → b - a < fuel → LowerBound key a b data →
      SortedOn key a b (pdqsort_loop less fuel data a b limit wb wp) ∧
      Within a b data (pdqsort_loop less fuel data a b limit wb wp) := by
  intro fuel
  induction fuel with
  | zero => intro data a b limit wb wp _ _ hf _; omega
  | succ fuel ih =>
    intro data a b limit wb wp hab hb hf hlb
    unfold pdqsort_loop
    simp only
    by_cases h12 : b - a ≤ 12
    · rw [if_pos h12]; exact insertionSort_spec key less hless a b data hb
    · rw [if_neg h12]
      by_cases hl0 : limit = 0
      · rw [if_pos hl0]; exact heapSort_spec key less hless data a b hab hb
      · rw [if_neg hl0]
        have w1 : Within a b data (if (!wb) = true then (breakPatterns_func data a b, limit - 1)
            else (data, limit)).1 := by
          split
          · exact breakPatterns_within data a b hb
          · exact Within.refl _ _ _
        generalize (if (!wb) = true then (breakPatterns_func data a b, limit - 1)
            else (data, limit)) = s1 at *
        obtain ⟨d1, limit1⟩ := s1
        dsimp only at w1 ⊢
        have hp := choosePivot_range less d1 a b (by omega)
        generalize choosePivot_func less d1 a b = cp at *
        obtain ⟨pivot, hint⟩ := cp
        dsimp only at hp ⊢
        have h3 : Within a b d1 (if hint = sortedHint.decreasingHint then
              (reverseRange_func d1 a b, b - 1 - (pivot - a), sortedHint.increasingHint)
              else (d1, pivot, hint)).1 ∧
            a ≤ (if hint = sortedHint.decreasingHint then
              (reverseRange_func d1 a b, b - 1 - (pivot - a), sortedHint.increasingHint)
              else (d1, pivot, hint)).2.1 ∧
            (if hint = sortedHint.decreasingHint then
              (reverseRange_func d1 a b, b - 1 - (pivot - a), sortedHint.increasingHint)
              else (d1, pivot, hint)).2.1 < b := by
          split
          · exact ⟨reverseRange_within d1 a b (by omega) (by rw [w1.len]; exact hb),
              by dsimp only; omega, by dsimp only; omega⟩
          · exact ⟨Within.refl _ _ _, hp.1, hp.2⟩
        generalize (if hint = sortedHint.decreasingHint then
              (reverseRange_func d1 a b, b - 1 - (pivot - a), sortedHint.increasingHint)
              else (d1, pivot, hint)) = s3 at *
        obtain ⟨d2, pivot2, hint2⟩ := s3
        dsimp only at h3 ⊢
        obtain ⟨w2, hp1, hp2⟩ := h3
        have w12 : Within a b data d2 := w1.trans w2
        have h4 : Within a b d2 (if (wb && wp && decide (hint2 = sortedHint.increasingHint)) = true
              then partialInsertionSort_func less d2 a b else (d2, false)).1 ∧
            ((if (wb && wp && decide (hint2 = sortedHint.increasingHint)) = true
              then partialInsertionSort_func less d2 a b else (d2, false)).2 = true →
              SortedOn key a b (if (wb && wp && decide (hint2 = sortedHint.increasingHint)) = true
              then partialInsertionSort_func less d2 a b else (d2, false)).1) := by
          split
          · exact partialInsertionSort_spec key less hless d2 a b (by omega)
              (by rw [w12.len]; exact hb) (hlb.within key w12)
          · exact ⟨Within.refl _ _ _, fun h => by simp at h⟩
        generalize (if (wb && wp && decide (hint2 = sortedHint.increasingHint)) = true
              then partialInsertionSort_func less d2 a b else (d2, false)) = s4 at *
        obtain ⟨d3, done⟩ := s4
        dsimp only at h4 ⊢
        obtain ⟨w3, hdone⟩ := h4
        have w13 : Within a b data d3 := w12.trans w3
        have hb3 : b ≤ d3.length := by rw [w13.len]; exact hb
        have hlb3 : LowerBound key a b d3 := hlb.within key w13
        by_cases hd : done = true
        · rw [if_pos hd]
          exact ⟨hdone hd, w13⟩
        · rw [if_neg hd]
          by_cases hpe : (decide (a > 0) && !Less less d3 (a - 1) pivot2) = true
          · rw [if_pos hpe]
            simp only [Bool.and_eq_true, decide_eq_true_eq, Bool.not_eq_true'] at hpe
            obtain ⟨hgt, hnl⟩ := hpe
            have hnl' : ¬ (Less less d3 (a - 1) pivot2 = true) := by rw [hnl]; simp
            rw [Less_iff key less hless] at hnl'
            have hge3 : ∀ k, a ≤ k → k < b → keyAt key d3 pivot2 ≤ keyAt key d3 k :=
              fun k h1 h2 => le_trans (not_lt.1 hnl') (hlb3 hgt k h1 h2)
            obtain ⟨e1, e2, we, eL, eR⟩ := partitionEqual_spec key less hless d3 a b pivot2 hp1 hp2 hb3
            generalize partitionEqual_func less d3 a b pivot2 = pe at *
            obtain ⟨d4, mid⟩ := pe
            dsimp only at e1 e2 we eL eR ⊢
            have hge4 : ∀ k, a ≤ k → k < b → keyAt key d3 pivot2 ≤ keyAt key d4 k := by
              intro k h1 h2
              obtain ⟨k', h1', h2', e⟩ := we.keyAt_sub key k h1 h2
              rw [e]; exact hge3 k' h1' h2'
            obtain ⟨r1, r2⟩ := ih d4 mid b limit1 wb wp e2 (by rw [we.len]; exact hb3) (by omega)
              (by
                intro _ k hk1 hk2
                exact le_trans (eL (mid - 1) (by omega) (by omega)) (le_of_lt (eR k hk1 hk2)))
            refine ⟨?_, w13.trans (we.trans (r2.mono (by omega) (le_refl _)))⟩
            intro p q hp hpq hq
            by_cases hq' : q < mid
            · rw [r2.keyAt_frame key p (by omega), r2.keyAt_frame key q (by omega)]
              exact le_trans (eL p hp (by omega)) (hge4 q (by omega) hq)
            · by_cases hp' : p < mid
              · obtain ⟨q', h1', h2', e⟩ := r2.keyAt_sub key q (by omega) hq
                rw [r2.keyAt_frame key p (by omega), e]
                exact le_trans (eL p hp hp') (le_of_lt (eR q' h1' h2'))
              · exact r1 p q (by omega) hpq hq
          · rw [if_neg hpe]
            obtain ⟨m1, m2, wpf, pL, pR⟩ := partition_spec key less hless d3 a b pivot2 hp1 hp2 hb3
            generalize partition_func less d3 a b pivot2 = pf at *
            obtain ⟨d4, mid, ap⟩ := pf
            dsimp only at m1 m2 wpf pL pR ⊢
            have hb4 : b ≤ d4.length := by rw [wpf.len]; exact hb3
            have hlb4 : LowerBound key a b d4 := hlb3.within key wpf
            by_cases hord : mid - a < b - mid
            · rw [if_pos hord]
              obtain ⟨sL, wL⟩ := ih d4 a mid limit1 true true m1 (by omega) (by omega)
                (fun h0 k hk1 hk2 => hlb4 h0 k hk1 (by omega))
              generalize pdqsort_loop less fuel d4 a mid limit1 true true = d5 at *
              obtain ⟨sR, wR⟩ := ih d5 (mid + 1) b limit1 (decide (mid - a ≥ (b - a) / 8)) ap
                (by omega) (by rw [wL.len]; exact hb4) (by omega)
                (by
                  intro _ k hk1 hk2
                  have e : mid + 1 - 1 = mid := by omega
                  rw [e, wL.keyAt_frame key mid (by omega), wL.keyAt_frame key k (by omega)]
                  exact pR k (by omega) hk2)
              generalize pdqsort_loop less fuel d5 (mid + 1) b limit1
                (decide (mid - a ≥ (b - a) / 8)) ap = d6 at *
              obtain ⟨t1, t2, t3⟩ := two_ranges key wL wR (Or.inl (by omega))
              refine ⟨?_, w13.trans (wpf.trans ((wL.mono (le_refl _) (by omega)).trans
                (wR.mono (by omega) (le_refl _))))⟩
              exact partition_join key a mid b d4 d6 pL pR t1 t2
                (t3 mid (by omega) (by omega))
                (sL.of_frame key wR (Or.inl (by omega))) sR
            · rw [if_neg hord]
              obtain ⟨sR, wR⟩ := ih d4 (mid + 1) b limit1 true true (by omega) hb4 (by omega)
                (by
                  intro _ k hk1 hk2
                  have e : mid + 1 - 1 = mid := by omega
                  rw [e]
                  exact pR k (by omega) hk2)
              generalize pdqsort_loop less fuel d4 (mid + 1) b limit1 true true = d5 at *
              obtain ⟨sL, wL⟩ := ih d5 a mid limit1 (decide (b - mid ≥ (b - a) / 8)) ap
                m1 (by rw [wR.len]; omega) (by omega)
                (by
                  intro h0 k hk1 hk2
                  rw [wR.keyAt_frame key (a - 1) (by omega), wR.keyAt_frame key k (by omega)]
                  exact hlb4 h0 k hk1 (by omega))
              generalize pdqsort_loop less fuel d5 a mid limit1
                (decide (b - mid ≥ (b - a) / 8)) ap = d6 at *
              obtain ⟨t1, t2, t3⟩ := two_ranges key wR wL (Or.inr (by omega))
              refine ⟨?_, w13.trans (wpf.trans ((wR.mono (by omega) (le_refl _)).trans
                (wL.mono (le_refl _) (by omega))))⟩
              exact partition_join key a mid b d4 d6 pL pR t2 t1
                (t3 mid (by omega) (by omega))
                sL (sR.of_frame key wL (Or.inr (by omega)))

theorem isSorted_of_SortedOn (data : List α) (h : SortedOn key 0 data.length data) :
    data.Pairwise (fun x y => key x ≤ key y) := by
  rw [List.pairwise_iff_getElem]
  intro i j hi hj hij
  have := h i j (Nat.zero_le _) (le_of_lt hij) hj
  unfold keyAt at this
  rw [List.getD_eq_getElem?_getD, List.getD_eq_getElem?_getD, List.getElem?_eq_getElem hi,
    List.getElem?_eq_getElem hj] at this
  simpa using this

/-- Go `sort.Slice` sorts: the result is a permutation of the slice, in
non-decreasing key order. -/
theorem Slice_spec (hless : ∀ x y, less x y = decide (key x < key y)) (x : List α) :
    (Slice less x).Pairwise (fun p q => key p ≤ key q) ∧ (Slice less x).Perm x := by
  unfold Slice pdqsort_func
  simp only
  obtain ⟨s, w⟩ := pdqsort_loop_spec key less hless (x.length - 0 + 1) x 0 x.length
    (bitsLen x.length x.length) true true (Nat.zero_le _) (le_refl _) (by omega)
    (fun h => by omega)
  refine ⟨?_, w.perm⟩
  apply isSorted_of_SortedOn
  rw [w.len]
  exact s

end PdqProofs

/-! ## The sort: the fuel of the remaining loops is enough -/

section FuelProofs

variable {α : Type} [Inhabited α] (less : α → α → Bool)

/-- The fuel given to `bitsLen` by its callers is enough: the result is the bit
length of `n`. -/
theorem bitsLen_spec : ∀ (fuel n : Nat), n ≤ fuel → 1 ≤ n →
    2 ^ (bitsLen fuel n - 1) ≤ n ∧ n < 2 ^ bitsLen fuel n := by
  intro fuel
  induction fuel with
  | zero => intro n h1 h2; omega
  | succ fuel ih =>
    intro n h1 h2
    unfold bitsLen
    rw [if_neg (by omega)]
    by_cases h : n / 2 = 0
    · rw [h, bitsLen_zero]
      have : n = 1 := by omega
      subst this
      simp
    · obtain ⟨i1, i2⟩ := ih (n / 2) (by omega) (by omega)
      have hpos : 1 ≤ bitsLen fuel (n / 2) := by
        by_contra hc
        have : bitsLen fuel (n / 2) = 0 := by omega
        rw [this] at i2
        simp at i2
        omega
      have e : bitsLen fuel (n / 2) + 1 - 1 = (bitsLen fuel (n / 2) - 1) + 1 := by omega
      rw [e, pow_succ, pow_succ]
      constructor <;> omega

/-- More fuel does not change the result of the reversal loop once the fuel
covers the distance between the two indices. -/
theorem reverseLoop_fuel : ∀ (fuel i j : Nat) (data : List α), j - i ≤ fuel →
    reverseLoop (fuel + 1) i j data = reverseLoop fuel i j data := by
  intro fuel
  induction fuel with
  | zero =>
    intro i j data h
    simp only [reverseLoop]
    rw [if_neg (by omega)]
  | succ fuel ih =>
    intro i j data h
    show (if i < j then reverseLoop (fuel + 1) (i + 1) (j - 1) (Swap data i j) else data) =
      (if i < j then reverseLoop fuel (i + 1) (j - 1) (Swap data i j) else data)
    split
    · exact ih (i + 1) (j - 1) _ (by omega)
    · rfl

/-- More fuel does not change the result of the shift to the right once the fuel
covers the distance to the end of the range. -/
theorem shiftRight_fuel (b : Nat) : ∀ (fuel j : Nat) (data : List α), b - j ≤ fuel →
    shiftRight less b (fuel + 1) j data = shiftRight less b fuel j data := by
  intro fuel
  induction fuel with
  | zero =>
    intro j data h
    simp only [shiftRight]
    rw [if_neg (by omega)]
  | succ fuel ih =>
    intro j data h
    show (if j < b then
        if !Less less data j (j - 1) then data
        else shiftRight less b (fuel + 1) (j + 1) (Swap data j (j - 1))
      else data) =
      (if j < b then
        if !Less less data j (j - 1) then data
        else shiftRight less b fuel (j + 1) (Swap data j (j - 1))
      else data)
    split
    · split
      · rfl
      · exact ih (j + 1) _ (by omega)
    · rfl

end FuelProofs

/-! ## The order of the report (C3, C4) -/

section StableProofs

variable {α : Type} [Inhabited α] (less : α → α → Bool)

theorem filter_Swap_adjacent (p : α → Bool) :
    ∀ (data : List α) (j : Nat), j + 1 < data.length →
      (p (data.getD j default) = false ∨ p (data.getD (j + 1) default) = false) →
      (Swap data (j + 1) j).filter p = data.filter p := by
  intro data
  induction data with
  | nil => intro j h; simp at h
  | cons x xs ih =>
    intro j hj hp
    cases j with
    | zero =>
      cases xs with
      | nil => simp at hj
      | cons y rest =>
        simp only [List.getD_cons_zero, List.getD_cons_succ] at hp
        have e : Swap (x :: y :: rest) 1 0 = y :: x :: rest := by simp [Swap]
        rw [e]
        rcases hp with h | h
        · cases hy : p y <;> simp [List.filter_cons, h, hy]
        · cases hx : p x <;> simp [List.filter_cons, h, hx]
    | succ j =>
      have e : Swap (x :: xs) (j + 1 + 1) (j + 1) = x :: Swap xs (j + 1) j := by simp [Swap]
      rw [e]
      simp only [List.getD_cons_succ] at hp
      have := ih j (by simpa using hj) hp
      simp only [List.filter_cons, this]

theorem insertionInner_filter (key : α → Int)
    (hless : ∀ x y, less x y = decide (key x < key y)) (d : Int) (a : Nat) :
    ∀ (j : Nat) (data : List α), j < data.length →
      (insertionInner less a j data).filter (fun r => key r == d) =
        data.filter (fun r => key r == d) := by
  intro j
  induction j with
  | zero => intro data _; rfl
  | succ j ih =>
    intro data hj
    unfold insertionInner
    split
    · rename_i hc
      simp only [Bool.and_eq_true, decide_eq_true_eq] at hc
      have hl := hc.2
      rw [Less_iff key less hless] at hl
      rw [ih _ (by rw [length_Swap]; omega)]
      apply filter_Swap_adjacent _ data j hj
      unfold keyAt at hl
      by_cases e : key (data.getD j default) = d
      · right
        have : key (data.getD (j + 1) default) ≠ d := by
          intro e'; rw [e, e'] at hl; exact lt_irrefl _ hl
        simpa using this
      · left; simpa using e
    · rfl

theorem length_insertionInner (a : Nat) :
    ∀ (j : Nat) (data : List α), (insertionInner less a j data).length = data.length := by
  intro j
  induction j with
  | zero => intro data; rfl
  | succ j ih =>
    intro data
    unfold insertionInner
    split
    · rw [ih, length_Swap]
    · rfl

theorem insertionOuter_filter (key : α → Int)
    (hless : ∀ x y, less x y = decide (key x < key y)) (d : Int) (a : Nat) :
    ∀ (n i : Nat) (data : List α), i + n ≤ data.length →
      (insertionOuter less a n i data).filter (fun r => key r == d) =
        data.filter (fun r => key r == d) := by
  intro n
  induction n with
  | zero => intro i data _; rfl
  | succ n ih =>
    intro i data h
    simp only [insertionOuter]
    rw [ih (i + 1) _ (by rw [length_insertionInner]; omega)]
    exact insertionInner_filter less key hless d a i data (by omega)

/-- Up to 12 elements Go `sort.Slice` is an insertion sort, which keeps the
elements of equal key in their order. -/
theorem Slice_stable_small (key : α → Int)
    (hless : ∀ x y, less x y = decide (key x < key y)) (x : List α) (h : x.length ≤ 12)
    (d : Int) :
    (Slice less x).filter (fun r => key r == d) = x.filter (fun r => key r == d) := by
  have e : Slice less x = insertionSort_func less x 0 x.length := by
    unfold Slice pdqsort_func pdqsort_loop
    simp [h]
  rw [e]
  unfold insertionSort_func
  by_cases h0 : x.length = 0
  · rw [h0]; rfl
  · exact insertionOuter_filter less key hless d 0 _ _ x (by omega)

end StableProofs

theorem lessPing_spec (x y : ProcessedRelay) :
    lessPing x y = decide (ProcessedRelay.PingDuration x < ProcessedRelay.PingDuration y) := rfl

/-- C3. For every list of probe results, the list that `sort.Slice` leaves is in
non-decreasing order of `PingDuration` (for all positions `i < j`, the duration
at `i` is at most the duration at `j`), and the report stage hands the records of
that list to the CSV writer in that order. So in every run that reaches the
report without error, the data rows of the CSV are the records of a list of
results in non-decreasing order of `PingDuration`. -/
theorem C3_rows_sorted (ds : Duration → String) (flags : Flags) (w : World)
    (relays : List WireguardRelayResponse)
    (hf : flags.listCountries = false) (hpass : passesPrompt w)
    (hr : w.relays = some relays) (hp : noPingError w)
    (hc : w.createOk = true) (hw : ∀ k, w.writeOk k = true) :
    (∀ results : List ProcessedRelay,
      (Slice lessPing results).Pairwise (fun x y => x.PingDuration ≤ y.PingDuration) ∧
      ∀ (i j : Nat) (hi : i < j) (hj : j < (Slice lessPing results).length),
        ((Slice lessPing results).get ⟨i, lt_trans hi hj⟩).PingDuration ≤
          ((Slice lessPing results).get ⟨j, hj⟩).PingDuration) ∧
    (∀ (results : List ProcessedRelay) (path : String) (out : List Effect),
      csvRecords (writeReport ds path w (Slice lessPing results) out).1 =
        csvRecords out ++ csvHeader :: (Slice lessPing results).map (csvRecord ds)) ∧
    (∃ written : List ProcessedRelay,
      dataRows (main ds flags w).1 = written.map (csvRecord ds) ∧
      written.Pairwise (fun x y => x.PingDuration ≤ y.PingDuration) ∧
      ∀ (i j : Nat) (hi : i < j) (hj : j < written.length),
        (written.get ⟨i, lt_trans hi hj⟩).PingDuration ≤ (written.get ⟨j, hj⟩).PingDuration) := by
  have hs : ∀ results : List ProcessedRelay,
      (Slice lessPing results).Pairwise (fun x y => x.PingDuration ≤ y.PingDuration) :=
    fun results => (Slice_spec ProcessedRelay.PingDuration lessPing lessPing_spec results).1
  have hidx : ∀ (l : List ProcessedRelay),
      l.Pairwise (fun x y => x.PingDuration ≤ y.PingDuration) →
      ∀ (i j : Nat) (hi : i < j) (hj : j < l.length),
        (l.get ⟨i, lt_trans hi hj⟩).PingDuration ≤ (l.get ⟨j, hj⟩).PingDuration :=
    fun l hl i j hi hj => (List.pairwise_iff_getElem.1 hl) i j (lt_trans hi hj) hj hi
  refine ⟨fun results => ⟨hs results, hidx _ (hs results)⟩,
    fun results path out => (writeReport_projections ds path w _ out hc hw).1, ?_⟩
  obtain ⟨pre, c1, _, _, hm⟩ := main_benchmark ds flags w hf hpass
  have hb := (benchmark_projections ds (buildScope flags.searchWithinCountry).1 flags.timeout
    flags.outputFileName w pre relays hr hp hc hw).1
  refine ⟨Slice lessPing (repliedInScope (buildScope flags.searchWithinCountry).1 w.ping
    relays.enum), ?_, hs _, hidx _ (hs _)⟩
  unfold dataRows
  rw [hm, hb, c1]
  rfl

/-- Witness of C3: the sort of the thirteen results of `tiedResults`, and the run
of `main` on the sample relays, whose two data rows are in the order of their
round-trip times. -/
theorem C3_rows_sorted_witness :
    (Slice lessPing tiedResults).Pairwise (fun x y => x.PingDuration ≤ y.PingDuration) ∧
    (Slice lessPing tiedResults).map (fun r => r.PingDuration) =
      [1000000, 2000000, 2000000, 2000000, 2000000, 2000000, 2000000, 2000000, 2000000,
        2000000, 2000000, 2000000, 2000000] ∧
    dataRows (main sampleDurationString sampleFlags sampleWorld).1 =
      [["de-fra-wg-001", "Germany", "Frankfurt", "29000000ns"],
       ["us-nyc-wg-001", "USA", "New York", "30000000ns"]] :=
  ⟨((C3_rows_sorted sampleDurationString sampleFlags sampleWorld sampleRelays rfl
      (Or.inl rfl) rfl (fun _ => Or.inl ⟨_, rfl⟩) rfl (fun _ => rfl)).1 tiedResults).1,
    by decide, by decide⟩

/-- C4, as stated, fails: `sort.Slice` is not a stable sort. Of thirteen results
of which the first twelve took the same time, the report lists `h06` before
`h00` and `h01` after `h11`, so the results that took 2 ms are not in the order
in which they were returned. -/
theorem C4_counterexample :
    (Slice lessPing tiedResults).map (fun r => r.HostName) =
      ["h12", "h06", "h02", "h03", "h04", "h05", "h00", "h07", "h08", "h09", "h10", "h11",
        "h01"] ∧
    (withDuration 2000000 tiedResults).map (fun r => r.HostName) =
      ["h00", "h01", "h02", "h03", "h04", "h05", "h06", "h07", "h08", "h09", "h10", "h11"] ∧
    withDuration 2000000 (Slice lessPing tiedResults) ≠ withDuration 2000000 tiedResults := by
  decide

/-- C4, amended. For every list of at most 12 probe results the sort of the report
is stable: for every duration, the results with that `PingDuration` are in the
report in the order in which they were in the list. -/
theorem C4_stable_up_to_12 (results : List ProcessedRelay) (h : results.length ≤ 12)
    (d : Duration) :
    withDuration d (Slice lessPing results) = withDuration d results :=
  Slice_stable_small lessPing ProcessedRelay.PingDuration lessPing_spec results h d

/-- Witness of the amended C4 on three results, two of which took the same time. -/
theorem C4_stable_up_to_12_witness :
    withDuration 2000000 (Slice lessPing
      [resultOf "a" 2000000, resultOf "b" 1000000, resultOf "c" 2000000]) =
      [resultOf "a" 2000000, resultOf "c" 2000000] :=
  (C4_stable_up_to_12 [resultOf "a" 2000000, resultOf "b" 1000000, resultOf "c" 2000000]
    (by decide) 2000000).trans (by decide)

/-! ## The rows of the report (C2, C6) -/

theorem mem_repliedInScope (scope : List String) (ping : Nat → PingOutcome)
    (relays : List WireguardRelayResponse) (r : ProcessedRelay) :
    r ∈ repliedInScope scope ping relays.enum ↔
      ∃ (k : Nat) (relay : WireguardRelayResponse) (rtt : Duration),
        relays[k]? = some relay ∧ inScope scope relay = true ∧
        ping k = PingOutcome.recv rtt ∧ r = processed relay rtt := by
  unfold repliedInScope
  rw [List.mem_filterMap]
  constructor
  · rintro ⟨⟨k, relay⟩, hmem, hres⟩
    rw [List.mk_mem_enum_iff_getElem?] at hmem
    unfold resultAt at hres
    simp only at hres
    split at hres
    · rename_i hin
      split at hres
      · rename_i rtt hk
        exact ⟨k, relay, rtt, hmem, hin, hk, by simpa using hres.symm⟩
      · simp at hres
    · simp at hres
  · rintro ⟨k, relay, rtt, hmem, hin, hk, rfl⟩
    refine ⟨(k, relay), List.mk_mem_enum_iff_getElem?.2 hmem, ?_⟩
    simp [resultAt, hin, hk]

/-- C2. For every relay list, scope string and probe outcome without error, in a
run that reaches the report, the data rows of the report are the records of a
permutation of the in-scope relays that received a reply: a result is among
them exactly when it is the result of a relay of the list that is in scope and
whose probe got a reply. -/
theorem C2_rows_are_replies (ds : Duration → String) (flags : Flags) (w : World)
    (relays : List WireguardRelayResponse)
    (hf : flags.listCountries = false) (hpass : passesPrompt w)
    (hr : w.relays = some relays) (hp : noPingError w)
    (hc : w.createOk = true) (hw : ∀ k, w.writeOk k = true) :
    (dataRows (main ds flags w).1).Perm
      ((repliedInScope (buildScope flags.searchWithinCountry).1 w.ping relays.enum).map
        (csvRecord ds)) ∧
    (∃ written : List ProcessedRelay,
      dataRows (main ds flags w).1 = written.map (csvRecord ds) ∧
      written.Perm (repliedInScope (buildScope flags.searchWithinCountry).1 w.ping relays.enum) ∧
      ∀ r : ProcessedRelay, r ∈ written ↔
        ∃ (k : Nat) (relay : WireguardRelayResponse) (rtt : Duration),
          relays[k]? = some relay ∧
          inScope (buildScope flags.searchWithinCountry).1 relay = true ∧
          w.ping k = PingOutcome.recv rtt ∧ r = processed relay rtt) := by
  obtain ⟨pre, c1, _, _, hm⟩ := main_benchmark ds flags w hf hpass
  have hb := (benchmark_projections ds (buildScope flags.searchWithinCountry).1 flags.timeout
    flags.outputFileName w pre relays hr hp hc hw).1
  have hperm := (Slice_spec ProcessedRelay.PingDuration lessPing lessPing_spec
    (repliedInScope (buildScope flags.searchWithinCountry).1 w.ping relays.enum)).2
  have hrows : dataRows (main ds flags w).1 =
      (Slice lessPing (repliedInScope (buildScope flags.searchWithinCountry).1 w.ping
        relays.enum)).map (csvRecord ds) := by
    unfold dataRows
    rw [hm, hb, c1]
    rfl
  refine ⟨?_, _, hrows, hperm, ?_⟩
  · rw [hrows]
    exact hperm.map _
  · intro r
    rw [hperm.mem_iff]
    exact mem_repliedInScope _ _ _ r

/-- Witness of C2: scope `us,de` with the relays `us`, `de`, `fr` all replying
gives exactly 2 data rows, and no row of the `fr` relay. -/
theorem C2_rows_are_replies_witness :
    (dataRows (main sampleDurationString sampleFlags sampleWorld).1).Perm
      ((repliedInScope (buildScope "us,de").1 sampleWorld.ping sampleRelays.enum).map
        (csvRecord sampleDurationString)) ∧
    (dataRows (main sampleDurationString sampleFlags sampleWorld).1).length = 2 ∧
    dataRows (main sampleDurationString sampleFlags sampleWorld).1 =
      [["de-fra-wg-001", "Germany", "Frankfurt", "29000000ns"],
       ["us-nyc-wg-001", "USA", "New York", "30000000ns"]] :=
  ⟨(C2_rows_are_replies sampleDurationString sampleFlags sampleWorld sampleRelays rfl
      (Or.inl rfl) rfl (fun _ => Or.inl ⟨_, rfl⟩) rfl (fun _ => rfl)).1,
    by decide, by decide⟩

/-- C6. For every list of `n` probe results handed to the report stage (the sorted
list), when the file can be created and written, the records handed to the CSV
writer are `n + 1`: the header `Server, Country, City, Ping`, then for each `i`
the record of the host name, country name, city name and duration string of the
`i`-th result, in the order of the list. -/
theorem C6_csv_records (ds : Duration → String) (path : String) (w : World)
    (sorted : List ProcessedRelay) (out : List Effect)
    (hc : w.createOk = true) (hw : ∀ k, w.writeOk k = true) :
    csvRecords (writeReport ds path w sorted out).1 =
      csvRecords out ++ csvHeader :: sorted.map (csvRecord ds) ∧
    csvHeader = ["Server", "Country", "City", "Ping"] ∧
    (csvHeader :: sorted.map (csvRecord ds)).length = sorted.length + 1 ∧
    (∀ (i : Nat) (r : ProcessedRelay), sorted[i]? = some r →
      (csvHeader :: sorted.map (csvRecord ds))[i + 1]? =
        some [r.HostName, r.CountryName, r.CityName, ds r.PingDuration]) := by
  refine ⟨(writeReport_projections ds path w sorted out hc hw).1, rfl, by simp, ?_⟩
  intro i r hi
  simp [List.getElem?_map, hi, csvRecord]

/-- Witness of C6 on two results. -/
theorem C6_csv_records_witness :
    csvRecords (writeReport sampleDurationString "bench_result.csv" sampleWorld
      [resultOf "a" 1000000, resultOf "b" 2000000] []).1 =
      [["Server", "Country", "City", "Ping"], ["a", "Sweden", "Stockholm", "1000000ns"],
       ["b", "Sweden", "Stockholm", "2000000ns"]] :=
  (C6_csv_records sampleDurationString "bench_result.csv" sampleWorld
    [resultOf "a" 1000000, resultOf "b" 2000000] [] rfl (fun _ => rfl)).1.trans (by decide)

/-! ## The progress counter (C10) -/

theorem length_filter_enumFrom (q : WireguardRelayResponse → Bool)
    (l : List WireguardRelayResponse) :
    ∀ k : Nat, ((l.enumFrom k).filter (fun p => q p.2)).length = (l.filter q).length := by
  induction l with
  | nil => intro k; rfl
  | cons x xs ih =>
    intro k
    simp only [List.enumFrom_cons, List.filter_cons]
    cases q x <;> simp [ih]

theorem length_replied_le_filter (scope : List String) (ping : Nat → PingOutcome)
    (l : List (Nat × WireguardRelayResponse)) :
    (repliedInScope scope ping l).length ≤ (l.filter (fun p => inScope scope p.2)).length := by
  induction l with
  | nil => simp [repliedInScope]
  | cons p rest ih =>
    unfold repliedInScope at ih ⊢
    simp only [List.filterMap_cons, List.filter_cons]
    cases hin : inScope scope p.2
    · have : resultAt scope ping p = none := by simp [resultAt, hin]
      simp [this]
      exact ih
    · cases hres : resultAt scope ping p
      · simp
        exact Nat.le_succ_of_le ih
      · simp
        exact ih

theorem length_replied_take_le (scope : List String) (ping : Nat → PingOutcome)
    (l : List (Nat × WireguardRelayResponse)) (n : Nat) :
    (repliedInScope scope ping (l.take n)).length ≤ (repliedInScope scope ping l).length := by
  have h : repliedInScope scope ping l =
      repliedInScope scope ping (l.take n) ++ repliedInScope scope ping (l.drop n) := by
    unfold repliedInScope
    rw [← List.filterMap_append, List.take_append_drop]
  rw [h, List.length_append]
  exact Nat.le_add_right _ _

theorem last_progress (scope : List String) (ping : Nat → PingOutcome)
    (relays : List WireguardRelayResponse) :
    ∀ c : Nat,
      ((relays.enum.filter (fun p => inScope scope p.2)).map (fun p =>
        (repliedInScope scope ping (relays.enum.take (p.1 + 1))).length)).getLast? = some c →
      c = (repliedInScope scope ping relays.enum).length := by
  induction relays using List.reverseRecOn with
  | nil => intro c h; simp at h
  | append_singleton l x ih =>
    intro c h
    have henum : (l ++ [x]).enum = l.enum ++ [(l.length, x)] := by
      simp [List.enum_append, List.enumFrom_cons]
    rw [henum] at h ⊢
    cases hin : inScope scope x
    · have hres : resultAt scope ping (l.length, x) = none := by simp [resultAt, hin]
      have hfil : (l.enum ++ [(l.length, x)]).filter (fun p => inScope scope p.2) =
          l.enum.filter (fun p => inScope scope p.2) := by
        simp [List.filter_append, List.filter_cons, hin]
      rw [hfil] at h
      have hmap : (l.enum.filter (fun p => inScope scope p.2)).map (fun p =>
            (repliedInScope scope ping ((l.enum ++ [(l.length, x)]).take (p.1 + 1))).length) =
          (l.enum.filter (fun p => inScope scope p.2)).map (fun p =>
            (repliedInScope scope ping (l.enum.take (p.1 + 1))).length) := by
        apply List.map_congr_left
        intro p hp
        have hlt := List.fst_lt_of_mem_enum (List.mem_filter.1 hp).1
        rw [List.take_append_of_le_length (by rw [List.enum_length]; omega)]
      rw [hmap] at h
      rw [ih c h]
      simp [repliedInScope, List.filterMap_append, hres]
    · have hfil : (l.enum ++ [(l.length, x)]).filter (fun p => inScope scope p.2) =
          l.enum.filter (fun p => inScope scope p.2) ++ [(l.length, x)] := by
        simp [List.filter_append, List.filter_cons, hin]
      rw [hfil, List.map_append, List.map_singleton, List.getLast?_concat] at h
      have htake : (l.enum ++ [(l.length, x)]).take (l.length + 1) = l.enum ++ [(l.length, x)] :=
        List.take_of_length_le (by simp [List.enum_length])
      simp only [htake, Option.some.injEq] at h
      exact h.symm

/-- C10. In a run without error, one progress line is printed after the probe of
each in-scope relay, and the counter it shows is the number of in-scope relays
up to that position that have replied (the number of results accumulated so
far), not the number of probes. At the end of the loop the counter is the number
of accumulated results, which is the number of data rows of the CSV, and it is
at most the total shown by `Found N servers`, the number of relays in scope. -/
theorem C10_progress_counter (ds : Duration → String) (flags : Flags) (w : World)
    (relays : List WireguardRelayResponse)
    (hf : flags.listCountries = false) (hpass : passesPrompt w)
    (hr : w.relays = some relays) (hp : noPingError w)
    (hc : w.createOk = true) (hw : ∀ k, w.writeOk k = true) :
    progressCounts (main ds flags w).1 =
      ((relays.enum.filter (fun p => inScope (buildScope flags.searchWithinCountry).1 p.2)).map
        (fun p => (repliedInScope (buildScope flags.searchWithinCountry).1 w.ping
          (relays.enum.take (p.1 + 1))).length)) ∧
    (progressCounts (main ds flags w).1).length =
      (relays.filter (inScope (buildScope flags.searchWithinCountry).1)).length ∧
    (∀ out : List Effect,
      (probeLoop (buildScope flags.searchWithinCountry).1 flags.timeout w.ping relays 0
        { processedRelays := [], count := 0, out := out }).1.count =
      (probeLoop (buildScope flags.searchWithinCountry).1 flags.timeout w.ping relays 0
        { processedRelays := [], count := 0, out := out }).1.processedRelays.length ∧
      (probeLoop (buildScope flags.searchWithinCountry).1 flags.timeout w.ping relays 0
        { processedRelays := [], count := 0, out := out }).1.count =
      (dataRows (main ds flags w).1).length) ∧
    (∀ c : Nat, (progressCounts (main ds flags w).1).getLast? = some c →
      c = (dataRows (main ds flags w).1).length) ∧
    foundCounts (main ds flags w).1 =
      [(relays.filter (inScope (buildScope flags.searchWithinCountry).1)).length] ∧
    (dataRows (main ds flags w).1).length ≤
      (relays.filter (inScope (buildScope flags.searchWithinCountry).1)).length ∧
    (∀ c ∈ progressCounts (main ds flags w).1,
      c ≤ (relays.filter (inScope (buildScope flags.searchWithinCountry).1)).length) := by
  obtain ⟨pre, c1, c2, c3, hm⟩ := main_benchmark ds flags w hf hpass
  obtain ⟨b1, b2, b3⟩ := benchmark_projections ds (buildScope flags.searchWithinCountry).1
    flags.timeout flags.outputFileName w pre relays hr hp hc hw
  have hperm := (Slice_spec ProcessedRelay.PingDuration lessPing lessPing_spec
    (repliedInScope (buildScope flags.searchWithinCountry).1 w.ping relays.enum)).2
  have hrows : (dataRows (main ds flags w).1).length =
      (repliedInScope (buildScope flags.searchWithinCountry).1 w.ping relays.enum).length := by
    unfold dataRows
    rw [hm, b1, c1]
    simp [hperm.length_eq]
  have hprog : progressCounts (main ds flags w).1 =
      ((relays.enum.filter (fun p => inScope (buildScope flags.searchWithinCountry).1 p.2)).map
        (fun p => (repliedInScope (buildScope flags.searchWithinCountry).1 w.ping
          (relays.enum.take (p.1 + 1))).length)) := by
    rw [hm, b2, c2]; rfl
  have htot : (repliedInScope (buildScope flags.searchWithinCountry).1 w.ping relays.enum).length ≤
      (relays.filter (inScope (buildScope flags.searchWithinCountry).1)).length := by
    refine le_trans (length_replied_le_filter _ _ _) (le_of_eq ?_)
    exact length_filter_enumFrom _ relays 0
  refine ⟨hprog, ?_, ?_, ?_, ?_, ?_, ?_⟩
  · rw [hprog, List.length_map]
    exact length_filter_enumFrom _ relays 0
  · intro out
    obtain ⟨_, h2, h3, _⟩ := probeLoop_spec (buildScope flags.searchWithinCountry).1
      flags.timeout w.ping hp relays 0 { processedRelays := [], count := 0, out := out }
    rw [h2, h3, hrows]
    simp [List.enum]
  · intro c hlast
    rw [hprog] at hlast
    rw [hrows]
    exact last_progress _ _ relays c hlast
  · rw [hm, b3, c3]; rfl
  · rw [hrows]; exact htot
  · intro c hcm
    rw [hprog, List.mem_map] at hcm
    obtain ⟨p, _, rfl⟩ := hcm
    exact le_trans (length_replied_take_le _ _ _ _) htot

/-- Witness of C10: of three relays in scope the second one times out; the
progress lines show 1, 1, 2, the total is 3 and the CSV has 2 data rows. -/
theorem C10_progress_counter_witness :
    progressCounts (main sampleDurationString { sampleFlags with searchWithinCountry := "" }
      timeoutWorld).1 = [1, 1, 2] ∧
    foundCounts (main sampleDurationString { sampleFlags with searchWithinCountry := "" }
      timeoutWorld).1 = [3] ∧
    (dataRows (main sampleDurationString { sampleFlags with searchWithinCountry := "" }
      timeoutWorld).1).length = 2 ∧
    (∀ c : Nat, (progressCounts (main sampleDurationString
        { sampleFlags with searchWithinCountry := "" } timeoutWorld).1).getLast? = some c →
      c = (dataRows (main sampleDurationString { sampleFlags with searchWithinCountry := "" }
        timeoutWorld).1).length) :=
  ⟨by decide, by decide, by decide,
    (C10_progress_counter sampleDurationString { sampleFlags with searchWithinCountry := "" }
      timeoutWorld sampleRelays rfl (Or.inl rfl) rfl
      (fun k => by
        by_cases h : k = 1
        · exact Or.inr (by simp [timeoutWorld, h])
        · exact Or.inl ⟨20000000, by simp [timeoutWorld, h]⟩)
      rfl (fun _ => rfl)).2.2.2.1⟩

end MullvadBench
